import Mathlib

/-! # forward-logs-to-influxdb: the fake Redis server

A shallow embedding of `forward-logs-to-influxdb/fake_redis_server.go`.

* Go `string` and `[]byte` are byte sequences: `Bytes = List UInt8`.
* The functions of the Go standard library that the program calls
  (`strings.TrimSpace`, `strings.ToUpper`, `strings.Replace`, `strconv.Atoi`,
  `fmt.Sprintf("$%d")`, the four regular expressions, `json.Unmarshal`,
  `bufio.Reader`, `http.Client`) are modelled from their documented behaviour,
  each next to a comment naming the library function it stands for.
* The effects of the program are made explicit: the inbound byte stream of the
  connection (with the segmentation in which the network delivers it), the
  bytes written back, the payloads handed to the JSON parser and the calls of
  `influxdbClient.Post`, in the order in which they happen (`World.trace`). The
  requests that the HTTP client sends for one call, redirects included, are
  `HttpClient.requests`.
* `log.Fatal` ends the whole process (`os.Exit(1)`), a run-time panic crashes
  it: both are the result `Res.halt`.
-/

namespace FakeRedis

/-! ## Bytes -/

abbrev Bytes := List UInt8

/-- Bytes of an ASCII string literal. -/
def ascii (s : String) : Bytes := s.toList.map (fun c => c.toNat.toUInt8)

def ASCII_CR : UInt8 := 13
def ASCII_LF : UInt8 := 10

/-- The two bytes CR LF. -/
def CRLF : Bytes := [ASCII_CR, ASCII_LF]

/-- Class `[0-9]`. -/
def isDigit (b : UInt8) : Bool := 0x30 ≤ b.toNat && b.toNat ≤ 0x39

/-- Class `[a-z_]`. -/
def isFieldKeyByte (b : UInt8) : Bool := (0x61 ≤ b.toNat && b.toNat ≤ 0x7A) || b.toNat == 0x5F

/-! ## unicode/utf8 -/

/-- Constant `utf8.RuneError`, U+FFFD. -/
def RuneError : Nat := 0xFFFD

/-- Classification of a leading byte (table `first` of unicode/utf8). -/
inductive LeadByte where
  | ascii
  | invalid
  | lead (size lo hi : Nat)
deriving DecidableEq, Repr

/-- Length of the sequence that starts with the leading byte `c` (table
`first` of unicode/utf8). -/
def seqLen (c : Nat) : Nat := if c < 0xE0 then 2 else if c < 0xF0 then 3 else 4

/-- Lowest second byte accepted after the leading byte `c` (table
`acceptRanges` of unicode/utf8). -/
def acceptLo (c : Nat) : Nat := if c = 0xE0 then 0xA0 else if c = 0xF0 then 0x90 else 0x80

/-- Highest second byte accepted after the leading byte `c`. -/
def acceptHi (c : Nat) : Nat := if c = 0xED then 0x9F else if c = 0xF4 then 0x8F else 0xBF

/-- Tables `first` and `acceptRanges` of unicode/utf8: bytes below 0x80 are
ASCII, 0xC2..0xF4 lead a sequence, all others are invalid as a first byte. -/
def utf8First (c : Nat) : LeadByte :=
  if c < 0x80 then .ascii
  else if c < 0xC2 ∨ 0xF4 < c then .invalid
  else .lead (seqLen c) (acceptLo c) (acceptHi c)

/-- Continuation byte test against the range `lo..hi`. -/
def inRange (b : UInt8) (lo hi : Nat) : Bool := lo ≤ b.toNat && b.toNat ≤ hi

/-- The part of `utf8.DecodeRune` after the leading byte `s0` of a sequence of
`size` bytes: the continuation bytes `t` are checked one after the other. -/
def decodeMulti (s0 : UInt8) (size lo hi : Nat) : Bytes → Nat × Nat
  | [] => (RuneError, 1)
  | s1 :: t1 =>
    if !inRange s1 lo hi then (RuneError, 1)
    else if size ≤ 2 then ((s0.toNat % 32) * 64 + s1.toNat % 64, 2)
    else
      match t1 with
      | [] => (RuneError, 1)
      | s2 :: t2 =>
        if !inRange s2 0x80 0xBF then (RuneError, 1)
        else if size ≤ 3 then
          ((s0.toNat % 16) * 4096 + (s1.toNat % 64) * 64 + s2.toNat % 64, 3)
        else
          match t2 with
          | [] => (RuneError, 1)
          | s3 :: _ =>
            if !inRange s3 0x80 0xBF then (RuneError, 1)
            else ((s0.toNat % 8) * 262144 + (s1.toNat % 64) * 4096
                    + (s2.toNat % 64) * 64 + s3.toNat % 64, 4)

/-- Function `utf8.DecodeRune`: the first rune of `s` and its width in bytes.
An empty input gives `(RuneError, 0)`, an invalid or truncated sequence gives
`(RuneError, 1)`. -/
def DecodeRune : Bytes → Nat × Nat
  | [] => (RuneError, 0)
  | s0 :: t =>
    match utf8First s0.toNat with
    | .ascii => (s0.toNat, 1)
    | .invalid => (RuneError, 1)
    | .lead size lo hi => decodeMulti s0 size lo hi t

/-- Function `utf8.RuneStart`: the byte is not a continuation byte. -/
def RuneStart (b : UInt8) : Bool := !(0x80 ≤ b.toNat && b.toNat ≤ 0xBF)

/-- Start index chosen by the backward scan of `utf8.DecodeLastRune`: the
nearest rune start among the three bytes before the last one, not further back
than `len - UTFMax`; one position before the limit (not below 0) when there is
none. -/
def lastRuneStartIndex (s : Bytes) : Nat :=
  let e := s.length
  if 2 ≤ e && RuneStart (s.getD (e - 2) 0) then e - 2
  else if 3 ≤ e && RuneStart (s.getD (e - 3) 0) then e - 3
  else if 4 ≤ e && RuneStart (s.getD (e - 4) 0) then e - 4
  else e - 5

/-- Function `utf8.DecodeLastRune`: the last rune of `s` and its width. -/
def DecodeLastRune (s : Bytes) : Nat × Nat :=
  match s.getLast? with
  | none => (RuneError, 0)
  | some last =>
    if last.toNat < 0x80 then (last.toNat, 1)
    else
      let start := lastRuneStartIndex s
      let d := DecodeRune (s.drop start)
      if start + d.2 ≠ s.length then (RuneError, 1) else d

/-- Function `utf8.EncodeRune` (surrogates and values above U+10FFFF are
encoded as `RuneError`). -/
def EncodeRune (r : Nat) : Bytes :=
  if r < 0x80 then [r.toUInt8]
  else if r < 0x800 then [(0xC0 + r / 64).toUInt8, (0x80 + r % 64).toUInt8]
  else if 0x10FFFF < r || (0xD800 ≤ r && r ≤ 0xDFFF) then [0xEF, 0xBF, 0xBD]
  else if r < 0x10000 then
    [(0xE0 + r / 4096).toUInt8, (0x80 + r / 64 % 64).toUInt8, (0x80 + r % 64).toUInt8]
  else
    [(0xF0 + r / 262144).toUInt8, (0x80 + r / 4096 % 64).toUInt8,
     (0x80 + r / 64 % 64).toUInt8, (0x80 + r % 64).toUInt8]

/-- Function `unicode.IsSpace` (Unicode property White_Space). -/
def IsSpace (r : Nat) : Bool :=
  (0x09 ≤ r && r ≤ 0x0D) || r == 0x20 || r == 0x85 || r == 0xA0 || r == 0x1680
    || (0x2000 ≤ r && r ≤ 0x200A) || r == 0x2028 || r == 0x2029 || r == 0x202F
    || r == 0x205F || r == 0x3000

/-! ## strings -/

/-- Loop of `strings.TrimLeftFunc(s, unicode.IsSpace)`: drop leading runes
while they are white space. `fuel` bounds the number of runes. -/
def trimLeftLoop : Nat → Bytes → Bytes
  | 0, s => s
  | fuel + 1, s =>
    match s with
    | [] => []
    | _ :: _ =>
      let d := DecodeRune s
      if IsSpace d.1 then trimLeftLoop fuel (s.drop d.2) else s

/-- Function `strings.TrimLeftFunc(s, unicode.IsSpace)`. -/
def TrimLeft (s : Bytes) : Bytes := trimLeftLoop s.length s

/-- Loop of `lastIndexFunc(s, unicode.IsSpace, false)`: scanning backwards, the
start index of the last rune that is not white space, `none` for -1. -/
def lastIndexNotSpace : Nat → Bytes → Option Nat
  | 0, _ => none
  | fuel + 1, s =>
    match s with
    | [] => none
    | _ :: _ =>
      let d := DecodeLastRune s
      let i := s.length - d.2
      if IsSpace d.1 then lastIndexNotSpace fuel (s.take i) else some i

/-- Function `strings.TrimRightFunc(s, unicode.IsSpace)`. -/
def TrimRight (s : Bytes) : Bytes :=
  match lastIndexNotSpace s.length s with
  | none => []
  | some i =>
    if 0x80 ≤ (s.getD i 0).toNat then s.take (i + (DecodeRune (s.drop i)).2)
    else s.take (i + 1)

/-- Function `strings.TrimSpace`: `TrimFunc(s, unicode.IsSpace)`. -/
def TrimSpace (s : Bytes) : Bytes := TrimRight (TrimLeft s)

/-- Upper case of an ASCII byte. -/
def asciiUpper (b : UInt8) : UInt8 :=
  if 0x61 ≤ b.toNat && b.toNat ≤ 0x7A then b - 0x20 else b

/-- Function `strings.ToUpper`. On a string of ASCII bytes it maps `a..z` to
`A..Z`. On a string with a byte above 0x7F the library maps every rune through
the Unicode case tables (`strings.Map(unicode.ToUpper, s)`); those tables are
data of the library and are taken as the parameter `mapToUpper`. -/
def ToUpper (mapToUpper : Bytes → Bytes) (s : Bytes) : Bytes :=
  if s.all (fun b => b.toNat < 0x80) then s.map asciiUpper else mapToUpper s

/-- Call `strings.Replace(s, "\"", "\\\"", -1)`: every byte `"` becomes the two
bytes backslash, `"`. -/
def escapeQuotes : Bytes → Bytes
  | [] => []
  | b :: s => if b = 0x22 then 0x5C :: 0x22 :: escapeQuotes s else b :: escapeQuotes s

/-! ## strconv and fmt -/

/-- Decimal digits of `n`, most significant first, pushed in front of `acc`. -/
def itoaLoop : Nat → Nat → Bytes → Bytes
  | 0, _, acc => acc
  | fuel + 1, n, acc =>
    if n < 10 then (0x30 + n).toUInt8 :: acc
    else itoaLoop fuel (n / 10) ((0x30 + n % 10).toUInt8 :: acc)

/-- Verb `%d` of `fmt.Sprintf` on a non-negative int. -/
def itoa (n : Nat) : Bytes := itoaLoop (n + 1) n []

/-- Value of a string of decimal digits. -/
def digitsValue (s : Bytes) : Nat := s.foldl (fun acc b => acc * 10 + (b.toNat - 0x30)) 0

/-- Function `strconv.Atoi` on an unsigned decimal string, `int` being 64 bits
wide: `none` stands for the error result (no digits, a byte that is not a
digit, or a value above 2^63 - 1). -/
def Atoi (s : Bytes) : Option Nat :=
  if s.isEmpty || !s.all isDigit then none
  else if digitsValue s < 2 ^ 63 then some (digitsValue s) else none

/-! ## regexp -/

/-- Pattern `^[0-9]+$` (`$` is the end of the text). -/
def INTEGER_REGEXP (s : Bytes) : Bool := !s.isEmpty && s.all isDigit

/-- Pattern `^[0-9]+\.[0-9]+$`. -/
def FLOAT_REGEXP (s : Bytes) : Bool :=
  match s.dropWhile isDigit with
  | [] => false
  | c :: b => !(s.takeWhile isDigit).isEmpty && c == 0x2E && !b.isEmpty && b.all isDigit

/-- Pattern `^[a-z_]+$`. -/
def FIELD_KEY_REGEXP (s : Bytes) : Bool := !s.isEmpty && s.all isFieldKeyByte

/-- Match of `\$([0-9]+)\r` anchored at the start of `s`: the captured digits. -/
def dollarIntAt (s : Bytes) : Option Bytes :=
  match s with
  | [] => none
  | c :: t =>
    if c = 0x24 then
      match t.dropWhile isDigit with
      | [] => none
      | e :: _ => if !(t.takeWhile isDigit).isEmpty && e = 0x0D then some (t.takeWhile isDigit) else none
    else none

/-- Call `DOLLAR_INT_REGEXP.FindStringSubmatch(s)` for the pattern
`\$([0-9]+)\r`: the leftmost match, as the slice `[whole match, group 1]`, or
the nil slice when nothing matches. -/
def DOLLAR_INT_REGEXP : Bytes → List Bytes
  | [] => []
  | c :: t =>
    match dollarIntAt (c :: t) with
    | some g => [0x24 :: (g ++ [0x0D]), g]
    | none => DOLLAR_INT_REGEXP t

/-! ## encoding/json -/

/-- Dynamic value that `json.Unmarshal` stores in an `interface{}`: `nil`,
`bool`, `float64`, `string`, `[]interface{}`, `map[string]interface{}`. The
program only looks at the dynamic type of a value and, for a string, at its
bytes: a number is kept as its literal, an array or object as its source text. -/
inductive Value where
  | null
  | bool (b : Bool)
  | number (lit : Bytes)
  | string (s : Bytes)
  | array (raw : Bytes)
  | object (raw : Bytes)
deriving DecidableEq, Repr

/-- A Go `map[string]interface{}`: its entries, with distinct keys. The order of
the list carries no meaning (see `Runtime.rangeOrder`). -/
abbrev GoMap := List (Bytes × Value)

/-- Map index expression `m[k]`, `none` when the key is absent. -/
def GoMap.get (m : GoMap) (k : Bytes) : Option Value := m.lookup k

/-- Map assignment `m[k] = v`. -/
def GoMap.set (m : GoMap) (k : Bytes) (v : Value) : GoMap :=
  if m.any (fun e => e.1 == k) then m.map (fun e => if e.1 == k then (k, v) else e)
  else m ++ [(k, v)]

/-- The map that holds the members of a JSON object, stored one after the
other: of two members with the same key the later one stays. -/
def GoMap.ofMembers (members : List (Bytes × Value)) : GoMap :=
  members.foldl (fun m e => m.set e.1 e.2) []

/-- JSON white space. -/
def isJsonSpace (b : UInt8) : Bool := b == 0x20 || b == 0x09 || b == 0x0D || b == 0x0A

def skipWs (s : Bytes) : Bytes := s.dropWhile isJsonSpace

def isHex (b : UInt8) : Bool :=
  isDigit b || (0x61 ≤ b.toNat && b.toNat ≤ 0x66) || (0x41 ≤ b.toNat && b.toNat ≤ 0x46)

def hexValue (b : UInt8) : Nat :=
  if isDigit b then b.toNat - 0x30
  else if 0x61 ≤ b.toNat then b.toNat - 0x61 + 10
  else b.toNat - 0x41 + 10

/-- Scan of a string literal after its opening quote: the text between the
quotes, escapes still in place, and the input after the closing quote. -/
def scanString : Bytes → Option (Bytes × Bytes)
  | [] => none
  | b :: rest =>
    if b = 0x22 then some ([], rest)
    else if b = 0x5C then
      match rest with
      | [] => none
      | c :: rest1 =>
        if c = 0x75 then
          match rest1 with
          | h1 :: h2 :: h3 :: h4 :: rest2 =>
            if isHex h1 && isHex h2 && isHex h3 && isHex h4 then
              (scanString rest2).map (fun r => (b :: c :: h1 :: h2 :: h3 :: h4 :: r.1, r.2))
            else none
          | _ => none
        else if c = 0x22 || c = 0x5C || c = 0x2F || c = 0x62 || c = 0x66 || c = 0x6E
            || c = 0x72 || c = 0x74 then
          (scanString rest1).map (fun r => (b :: c :: r.1, r.2))
        else none
    else if b.toNat < 0x20 then none
    else (scanString rest).map (fun r => (b :: r.1, r.2))

/-- Function `getu4`: the value of a leading `\uXXXX`, `none` for -1. -/
def getu4 : Bytes → Option Nat
  | 0x5C :: 0x75 :: h1 :: h2 :: h3 :: h4 :: _ =>
    if isHex h1 && isHex h2 && isHex h3 && isHex h4 then
      some (hexValue h1 * 4096 + hexValue h2 * 256 + hexValue h3 * 16 + hexValue h4)
    else none
  | _ => none

/-- Function `unquote` of encoding/json on the text between the quotes of a
scanned literal: escapes are replaced, a surrogate pair becomes one rune, a lone
surrogate and every byte of invalid UTF-8 become U+FFFD. -/
def unquoteLoop : Nat → Bytes → Bytes
  | 0, _ => []
  | fuel + 1, s =>
    match s with
    | [] => []
    | b :: rest =>
      if b = 0x5C then
        match rest with
        | [] => []
        | c :: rest1 =>
          if c = 0x75 then
            match getu4 s with
            | none => []
            | some rr =>
              let rest2 := rest1.drop 4
              if 0xD800 ≤ rr && rr < 0xE000 then
                match getu4 rest2 with
                | some rr1 =>
                  if rr < 0xDC00 && 0xDC00 ≤ rr1 && rr1 < 0xE000 then
                    EncodeRune ((rr - 0xD800) * 1024 + (rr1 - 0xDC00) + 0x10000)
                      ++ unquoteLoop fuel (rest2.drop 6)
                  else EncodeRune RuneError ++ unquoteLoop fuel rest2
                | none => EncodeRune RuneError ++ unquoteLoop fuel rest2
              else EncodeRune rr ++ unquoteLoop fuel rest2
          else
            let d : UInt8 :=
              if c = 0x62 then 0x08 else if c = 0x66 then 0x0C else if c = 0x6E then 0x0A
              else if c = 0x72 then 0x0D else if c = 0x74 then 0x09 else c
            d :: unquoteLoop fuel rest1
      else if b.toNat < 0x80 then b :: unquoteLoop fuel rest
      else
        let d := DecodeRune s
        EncodeRune d.1 ++ unquoteLoop fuel (s.drop d.2)

def unquote (raw : Bytes) : Bytes := unquoteLoop raw.length raw

/-- Range check of `strconv.ParseFloat(lit, 64)`: the literal with integer
digits `ip`, fraction digits `fp` and decimal exponent `ex` rounds to an
infinity, that is, its magnitude is at least `2^1024 - 2^970`. -/
def float64Overflows (ip fp : Bytes) (expNeg : Bool) (ex : Bytes) : Bool :=
  let m := digitsValue (ip ++ fp)
  let up := if expNeg then 0 else digitsValue ex
  let down := (if expNeg then digitsValue ex else 0) + fp.length
  decide ((2 ^ 256) ^ 4 - (2 ^ 194) ^ 5 ≤ m * 10 ^ up / 10 ^ down)

/-- Scan of a number literal `-? (0 | [1-9][0-9]*) (. [0-9]+)? ([eE] [+-]? [0-9]+)?`:
the literal and the input after it. The result is `none` when the input does
not start with a number or when the number is out of the range of `float64`
(which `json.Unmarshal` reports as an error once the text has been scanned). -/
def scanNumber (s : Bytes) : Option (Bytes × Bytes) :=
  let s1 := match s with
    | [] => []
    | c :: r => if c = 0x2D then r else c :: r
  match s1 with
  | [] => none
  | d :: r =>
    if !isDigit d then none
    else
      let ip := if d = 0x30 then [d] else d :: r.takeWhile isDigit
      let s2 := if d = 0x30 then r else r.dropWhile isDigit
      let hasFrac := match s2 with
        | [] => false
        | c :: _ => c == 0x2E
      let fp := if hasFrac then (s2.drop 1).takeWhile isDigit else []
      let s3 := if hasFrac then (s2.drop 1).dropWhile isDigit else s2
      if hasFrac && fp.isEmpty then none
      else
        let hasExp := match s3 with
          | [] => false
          | c :: _ => c == 0x65 || c == 0x45
        let s4 := if hasExp then s3.drop 1 else s3
        let expNeg := match s4 with
          | [] => false
          | c :: _ => hasExp && c == 0x2D
        let s5 := match s4 with
          | [] => []
          | c :: r4 => if hasExp && (c == 0x2D || c == 0x2B) then r4 else c :: r4
        let ex := if hasExp then s5.takeWhile isDigit else []
        let s6 := if hasExp then s5.dropWhile isDigit else s5
        if hasExp && ex.isEmpty then none
        else if float64Overflows ip fp expNeg ex then none
        else some (s.take (s.length - s6.length), s6)

/-- Constant `maxNestingDepth` of encoding/json. -/
def maxNestingDepth : Nat := 10000

mutual

/-- Scan of one JSON value at the head of `s` (no leading white space): the Go
value it decodes to and the input after it. `depth` counts the arrays and
objects that are open, `fuel` bounds the recursion. -/
def scanValue : Nat → Nat → Bytes → Option (Value × Bytes)
  | 0, _, _ => none
  | fuel + 1, depth, s =>
    match s with
    | [] => none
    | c :: r =>
      if c = 0x22 then (scanString r).map (fun x => (Value.string (unquote x.1), x.2))
      else if c = 0x7B then
        if maxNestingDepth ≤ depth then none
        else (scanObject fuel (depth + 1) (skipWs r)).map
          (fun x => (Value.object (s.take (s.length - x.2.length)), x.2))
      else if c = 0x5B then
        if maxNestingDepth ≤ depth then none
        else (scanArray fuel (depth + 1) (skipWs r)).map
          (fun rest => (Value.array (s.take (s.length - rest.length)), rest))
      else if c = 0x74 then
        match r with
        | 0x72 :: 0x75 :: 0x65 :: rest => some (Value.bool true, rest)
        | _ => none
      else if c = 0x66 then
        match r with
        | 0x61 :: 0x6C :: 0x73 :: 0x65 :: rest => some (Value.bool false, rest)
        | _ => none
      else if c = 0x6E then
        match r with
        | 0x75 :: 0x6C :: 0x6C :: rest => some (Value.null, rest)
        | _ => none
      else (scanNumber s).map (fun x => (Value.number x.1, x.2))
termination_by structural fuel => fuel

/-- Scan of the inside of an object, after `{` and white space: the members in
the order of the text and the input after the closing `}`. -/
def scanObject : Nat → Nat → Bytes → Option (List (Bytes × Value) × Bytes)
  | 0, _, _ => none
  | fuel + 1, depth, s =>
    match s with
    | [] => none
    | c :: r => if c = 0x7D then some ([], r) else scanMembers fuel depth s
termination_by structural fuel => fuel

/-- Scan of `"key" : value` followed by `,` and more members, or by `}`. -/
def scanMembers : Nat → Nat → Bytes → Option (List (Bytes × Value) × Bytes)
  | 0, _, _ => none
  | fuel + 1, depth, s =>
    match s with
    | [] => none
    | q :: r =>
      if q ≠ 0x22 then none
      else
        match scanString r with
        | none => none
        | some (rawKey, r1) =>
          match skipWs r1 with
          | [] => none
          | colon :: r2 =>
            if colon ≠ 0x3A then none
            else
              match scanValue fuel depth (skipWs r2) with
              | none => none
              | some (v, r3) =>
                match skipWs r3 with
                | [] => none
                | sep :: r4 =>
                  if sep = 0x7D then some ([(unquote rawKey, v)], r4)
                  else if sep = 0x2C then
                    (scanMembers fuel depth (skipWs r4)).map
                      (fun x => ((unquote rawKey, v) :: x.1, x.2))
                  else none
termination_by structural fuel => fuel

/-- Scan of the inside of an array, after `[` and white space: the input after
the closing `]`. -/
def scanArray : Nat → Nat → Bytes → Option Bytes
  | 0, _, _ => none
  | fuel + 1, depth, s =>
    match s with
    | [] => none
    | c :: r => if c = 0x5D then some r else scanElements fuel depth s
termination_by structural fuel => fuel

/-- Scan of a value followed by `,` and more elements, or by `]`. -/
def scanElements : Nat → Nat → Bytes → Option Bytes
  | 0, _, _ => none
  | fuel + 1, depth, s =>
    match scanValue fuel depth s with
    | none => none
    | some (_, r1) =>
      match skipWs r1 with
      | [] => none
      | sep :: r2 =>
        if sep = 0x5D then some r2
        else if sep = 0x2C then scanElements fuel depth (skipWs r2)
        else none
termination_by structural fuel => fuel

end

/-- A JSON text: an object with its members in the order of the text, the same
key possibly more than once, or any other value. -/
inductive Json where
  | object (members : List (Bytes × Value))
  | other (v : Value)
deriving DecidableEq, Repr

/-- The JSON text `data` as a whole, the recursion of the scan bounded by
`fuel`: one value between optional white space. -/
def parseJsonWith (fuel : Nat) (data : Bytes) : Option Json :=
  match skipWs data with
  | [] => none
  | c :: r =>
    if c = 0x7B then
      match scanObject fuel 1 (skipWs r) with
      | none => none
      | some (members, rest) => if (skipWs rest).isEmpty then some (.object members) else none
    else
      match scanValue fuel 0 (c :: r) with
      | none => none
      | some (v, rest) => if (skipWs rest).isEmpty then some (.other v) else none

/-- The JSON text `data` as a whole: one value between optional white space.
`none` when `data` is not valid JSON (or holds a number out of the range of
`float64`, or nests deeper than `maxNestingDepth`). The scan of a value spends
at most three units of fuel for each byte, so that the bound is never reached. -/
def parseJson (data : Bytes) : Option Json :=
  parseJsonWith (3 * data.length + 3) data

/-- Call `json.Unmarshal(data, parsed)` with `parsed` a pointer to a
`map[string]interface{}`: the resulting map, or `none` for an error. An object
fills the map, `null` sets it to the nil map (no error), every other JSON value
is an `UnmarshalTypeError`. -/
def Unmarshal (data : Bytes) : Option GoMap :=
  match parseJson data with
  | some (.object members) => some (GoMap.ofMembers members)
  | some (.other .null) => some []
  | _ => none

/-! ## The Go runtime -/

/-- What the Go implementation leaves open and the program depends on. -/
structure Runtime where
  /-- The order in which a `range` statement visits the entries of a map. The
  language leaves it unspecified; it visits every entry once. -/
  rangeOrder : GoMap → List (Bytes × Value)
  rangeOrder_perm : ∀ m, (rangeOrder m).Perm m
  /-- Call `strings.Map(unicode.ToUpper, s)` on a string that is not pure ASCII
  (see `ToUpper`). -/
  mapToUpper : Bytes → Bytes

/-- A runtime whose `range` visits the entries in the order in which the keys
were first stored. -/
def Runtime.inOrder : Runtime where
  rangeOrder := fun m => m
  rangeOrder_perm := fun m => List.Perm.refl m
  mapToUpper := fun s => s

/-- A runtime whose `range` starts `k` entries further on and wraps around. -/
def Runtime.rotated (k : Nat) : Runtime where
  rangeOrder := fun m => m.rotate k
  rangeOrder_perm := fun m => List.rotate_perm m k
  mapToUpper := fun s => s

/-! ## bufio.Reader over the connection -/

/-- Constant `defaultBufSize` of bufio. -/
def defaultBufSize : Nat := 4096

/-- A `bufio.Reader` on top of the connection. `buf` is the unread part of its
buffer (`b.buf[b.r:b.w]`); `conn` is what the peer still sends, as the segments
in which the network delivers it: one `Read` on the connection returns bytes of
the first segment only, and reports `io.EOF` once all segments are consumed. -/
structure Reader where
  buf : Bytes
  conn : List Bytes
deriving DecidableEq, Repr

/-- All bytes that the reader has not handed out yet. -/
def Reader.stream (r : Reader) : Bytes := r.buf ++ r.conn.flatten

/-- One `conn.Read(p)` with `len(p) = n > 0`: the bytes read and what is left
to deliver, `none` for `(0, io.EOF)`. -/
def connRead (n : Nat) : List Bytes → Option (Bytes × List Bytes)
  | [] => none
  | c :: cs =>
    if c.isEmpty then connRead n cs
    else some (c.take n, if (c.drop n).isEmpty then cs else c.drop n :: cs)

/-- Call `bytes.IndexByte` followed by the split after the delimiter. -/
def splitAfter (delim : UInt8) : Bytes → Option (Bytes × Bytes)
  | [] => none
  | b :: s =>
    if b = delim then some ([b], s)
    else (splitAfter delim s).map (fun x => (b :: x.1, x.2))

/-- Loop of `ReadBytes` (`collectFragments` around `ReadSlice`): look for the
delimiter in the buffer; when it is not there, either the buffer is full and is
taken as a whole fragment, or one more read on the connection fills it (after
sliding the unread bytes to the front); `io.EOF` ends the loop with what was
read. The result is the bytes read, whether an error is returned, and the
reader afterwards. -/
def readBytesLoop (delim : UInt8) : Nat → Reader → Bytes → Bytes × Bool × Reader
  | 0, r, acc => (acc, true, r)
  | fuel + 1, r, acc =>
    match splitAfter delim r.buf with
    | some (line, rest) => (acc ++ line, false, { r with buf := rest })
    | none =>
      if defaultBufSize ≤ r.buf.length then
        readBytesLoop delim fuel { r with buf := [] } (acc ++ r.buf)
      else
        match connRead (defaultBufSize - r.buf.length) r.conn with
        | none => (acc ++ r.buf, true, { buf := [], conn := [] })
        | some (d, conn1) => readBytesLoop delim fuel { buf := r.buf ++ d, conn := conn1 } acc

/-- Method `Reader.ReadBytes(delim)`: reads until the first occurrence of
`delim`, returning the bytes up to and including it; at `io.EOF` before a
delimiter it returns what it read and the error. -/
def Reader.ReadBytes (r : Reader) (delim : UInt8) : Bytes × Bool × Reader :=
  readBytesLoop delim (2 * r.conn.flatten.length + 2) r []

/-- Method `Reader.Read(p)` with `len(p) = n`: copies what is buffered, at most
`n` bytes; with an empty buffer it does one read on the connection (straight
into `p` when `n` is at least the buffer size). It can return fewer than `n`
bytes. -/
def Reader.Read (r : Reader) (n : Nat) : Bytes × Bool × Reader :=
  if n = 0 then ([], false, r)
  else if r.buf.isEmpty then
    if defaultBufSize ≤ n then
      match connRead n r.conn with
      | none => ([], true, { buf := [], conn := [] })
      | some (d, conn1) => (d, false, { buf := [], conn := conn1 })
    else
      match connRead defaultBufSize r.conn with
      | none => ([], true, { buf := [], conn := [] })
      | some (d, conn1) => (d.take n, false, { buf := d.drop n, conn := conn1 })
  else (r.buf.take n, false, { r with buf := r.buf.drop n })

/-- Method `Reader.ReadByte()`: the next byte, or `(0, io.EOF)`. -/
def Reader.ReadByte (r : Reader) : UInt8 × Bool × Reader :=
  match r.buf with
  | b :: rest => (b, false, { r with buf := rest })
  | [] =>
    match connRead defaultBufSize r.conn with
    | none => (0, true, { buf := [], conn := [] })
    | some (d, conn1) =>
      match d with
      | b :: rest => (b, false, { buf := rest, conn := conn1 })
      | [] => (0, true, { buf := [], conn := conn1 })

/-! ## Effects -/

/-- What the program does that can be seen from outside, plus the hand-over of
a payload to the JSON parser. -/
inductive Event where
  /-- Bytes written to the connection by `conn.Write`. -/
  | wrote (data : Bytes)
  /-- Payload passed to `parseLogJson`. -/
  | parsed (payload : Bytes)
  /-- Call `influxdbClient.Post(url, contentType, body)` of line 160: the client
  sends this POST and, when upstream answers with a redirect, the further
  requests of `clientDo`. -/
  | posted (url contentType body : Bytes)
deriving DecidableEq, Repr

/-- State of one connection: the reader on its inbound side and the events so
far, oldest first. -/
structure World where
  reader : Reader
  trace : List Event
deriving DecidableEq, Repr

/-- How a run stops short: `log.Fatal`, `log.Fatalf` (the process exits with
status 1) or a run-time panic (the process crashes), with the line of
`fake_redis_server.go` at which it happens. -/
inductive Halt where
  | fatal (line : Nat)
  | panic (line : Nat)
deriving DecidableEq, Repr

/-- Result of running a piece of the program. -/
inductive Res (α : Type) where
  | ok (val : α) (w : World)
  | halt (h : Halt) (w : World)
deriving DecidableEq, Repr

/-- The world in which a run ends. -/
def Res.world {α : Type} : Res α → World
  | .ok _ w => w
  | .halt _ w => w

/-- The run ended in `log.Fatal` or a panic. -/
def Res.halted {α : Type} : Res α → Bool
  | .ok _ _ => false
  | .halt _ _ => true

/-- A piece of the program: a function of the world. -/
def Go (α : Type) : Type := World → Res α

def Go.pure {α : Type} (a : α) : Go α := fun w => .ok a w

def Go.bind {α β : Type} (m : Go α) (f : α → Go β) : Go β := fun w =>
  match m w with
  | .ok a w1 => f a w1
  | .halt h w1 => .halt h w1

instance : Monad Go where
  pure := Go.pure
  bind := Go.bind

/-- Calls `log.Fatal` and `log.Fatalf` at the given line. -/
def logFatal {α : Type} (line : Nat) : Go α := fun w => .halt (.fatal line) w

/-- A run-time panic at the given line. -/
def goPanic {α : Type} (line : Nat) : Go α := fun w => .halt (.panic line) w

/-- Call `conn.Write(data)`. The peer is taken to accept the bytes (an error
here would end the process through `log.Fatal`). -/
def connWrite (data : Bytes) : Go Unit := fun w =>
  .ok () { w with trace := w.trace ++ [.wrote data] }

def readerReadBytes (delim : UInt8) : Go (Bytes × Bool) := fun w =>
  .ok ((w.reader.ReadBytes delim).1, (w.reader.ReadBytes delim).2.1)
    { w with reader := (w.reader.ReadBytes delim).2.2 }

def readerRead (n : Nat) : Go (Bytes × Bool) := fun w =>
  .ok ((w.reader.Read n).1, (w.reader.Read n).2.1) { w with reader := (w.reader.Read n).2.2 }

def readerReadByte : Go (UInt8 × Bool) := fun w =>
  .ok (w.reader.ReadByte.1, w.reader.ReadByte.2.1) { w with reader := w.reader.ReadByte.2.2 }

/-- Method of a request. -/
inductive Method where
  | GET
  | POST
deriving DecidableEq, Repr

/-- One request as the client sends it: method, URL and body (`none` for a
request without body). -/
structure Request where
  Method : Method
  URL : Bytes
  Body : Option Bytes
deriving DecidableEq, Repr

/-- What the client looks at in a response: the status code and the header
`Location` (empty when the response has none). -/
structure Response where
  StatusCode : Nat
  Location : Bytes
deriving DecidableEq, Repr

/-- The client `&http.Client{}` of line 261: the zero value, that is the default
transport and the default redirect policy, with what lies behind it. -/
structure HttpClient where
  /-- One exchange with upstream (`RoundTrip` of the transport): the response to
  a request, `none` when the exchange fails. -/
  RoundTrip : Request → Option Response
  /-- Call `req.URL.Parse(loc)`: the URL that the header `Location` of a response
  to a request for the first URL names, `none` when it does not parse. -/
  resolve : Bytes → Bytes → Option Bytes

/-- Function `redirectBehavior` of net/http for a request made from the POST of
line 160 (whose body, a `*bytes.Buffer`, can be sent again): the method of the
next request, whether the response is a redirect to follow, and whether the
body goes with the next request. After 301, 302 and 303 the next request is a
GET without body; after 307 and 308 the method stays and the body is sent
again. -/
def redirectBehavior (reqMethod : Method) (resp : Response) : Method × Bool × Bool :=
  if resp.StatusCode = 301 ∨ resp.StatusCode = 302 ∨ resp.StatusCode = 303 then
    (.GET, true, false)
  else if resp.StatusCode = 307 ∨ resp.StatusCode = 308 then (reqMethod, true, true)
  else (reqMethod, false, false)

/-- Loop of `(*http.Client).do` from the request `req` on, when `left` more
requests may be sent (ten in all, `defaultCheckRedirect`): the requests sent, in
order, and the status of the response that the call returns, `none` when it
returns an error (a failed exchange, a `Location` that does not parse, "stopped
after 10 redirects"). This is the client of Go 1.8 and later. A redirect without
`Location` is returned as it is (older releases return an error for 301, 302
and 303 instead: the program then ends at line 162, not at line 168). -/
def clientDo (c : HttpClient) (body : Bytes) : Nat → Request → List Request × Option Nat
  | 0, _ => ([], none)
  | left + 1, req =>
    match c.RoundTrip req with
    | none => ([req], none)
    | some resp =>
      if (redirectBehavior req.Method resp).2.1 = false then ([req], some resp.StatusCode)
      else if resp.Location = [] then ([req], some resp.StatusCode)
      else
        match c.resolve req.URL resp.Location with
        | none => ([req], none)
        | some u =>
          (req :: (clientDo c body left
              ⟨(redirectBehavior req.Method resp).1, u,
                if (redirectBehavior req.Method resp).2.2 = true then some body else none⟩).1,
            (clientDo c body left
              ⟨(redirectBehavior req.Method resp).1, u,
                if (redirectBehavior req.Method resp).2.2 = true then some body else none⟩).2)

/-- Method `(*http.Client).Post(url, contentType, body)`: the status code of the
response that it returns, the last one after redirects have been followed, or
`none` when it returns an error. The content type is a header of the request and
has no part in what the client does. -/
def HttpClient.Post (c : HttpClient) (url _contentType body : Bytes) : Option Nat :=
  (clientDo c body 10 ⟨.POST, url, some body⟩).2

/-- The requests that one call `Post(url, contentType, body)` sends, in order. -/
def HttpClient.requests (c : HttpClient) (url body : Bytes) : List Request :=
  (clientDo c body 10 ⟨.POST, url, some body⟩).1

/-- Call `influxdbClient.Post(url, contentType, body)` of line 160, recorded as
one event. The URL is `http://host:port/write?db=belugacdn&precision=s`; `main`
has sent a GET to `http://host:port/query?...` before any connection is
accepted and has ended the process if that URL did not parse (lines 265-270),
so the URL parses here and the request is sent. -/
def httpPost (client : HttpClient) (url contentType body : Bytes) : Go (Option Nat) := fun w =>
  .ok (client.Post url contentType body) { w with trace := w.trace ++ [.posted url contentType body] }

/-! ## fake_redis_server.go -/

def REDIS_KEY_NAME : Bytes := ascii "belugacdn"

structure Config where
  ListenPort : Bytes
  ExpectedPassword : Bytes
  InfluxdbHost : Bytes
  InfluxdbPort : Bytes
  InfluxdbDatabase : Bytes
  InfluxdbMeasurement : Bytes
deriving DecidableEq, Repr

/-- Function `expect` (lines 198-207). -/
def expect (rt : Runtime) (expected : Bytes) : Go Unit := do
  let (bytes, err) ← readerReadBytes ASCII_LF
  if err then logFatal 201
  if ToUpper rt.mapToUpper (TrimSpace bytes) ≠ ToUpper rt.mapToUpper expected then
    logFatal 205

/-- Function `expectDollarInt` (lines 209-223). `match[1]` on the nil slice of
a failed match is an index out of range. -/
def expectDollarInt : Go Nat := do
  let (bytes, err) ← readerReadBytes ASCII_LF
  if err then logFatal 212
  let matched := DOLLAR_INT_REGEXP bytes
  match matched.get? 1 with
  | none => goPanic 215
  | some group =>
    match Atoi group with
    | none => logFatal 219
    | some i => pure i

/-- Function `awaitAuthCommand` (lines 37-49). -/
def awaitAuthCommand (rt : Runtime) (expectedPassword : Bytes) : Go Unit := do
  expect rt (ascii "*2")
  expect rt (ascii "$4")
  expect rt (ascii "AUTH")
  expect rt (ascii "$" ++ itoa expectedPassword.length)
  expect rt expectedPassword
  connWrite (ascii "+OK\r\n")

/-- Function `parseLogJson` (lines 93-100). -/
def parseLogJson (logJson : Bytes) : Go GoMap := fun w =>
  match Unmarshal logJson with
  | none => .halt (.fatal 97) { w with trace := w.trace ++ [.parsed logJson] }
  | some parsed => .ok parsed { w with trace := w.trace ++ [.parsed logJson] }

/-- Body of the `range` loop of `insertIntoInfluxDb` (lines 111-147) for one
entry: the query buffer and `isFirstKey` afterwards. -/
def rangeBody (query : Bytes) (isFirstKey : Bool) (key : Bytes) (value : Value) :
    Except Halt (Bytes × Bool) :=
  if key ≠ ascii "time" then
    let query1 := if isFirstKey = true then query ++ ascii " " else query ++ ascii ","
    if !FIELD_KEY_REGEXP key then .error (.fatal 120)
    else
      let query2 := query1 ++ key ++ ascii "="
      match value with
      | .string valueString =>
        if key = ascii "response_size" ∨ key = ascii "header_size" then
          if !INTEGER_REGEXP valueString then .error (.fatal 133)
          else .ok (query2 ++ valueString ++ ascii "i", false)
        else if key = ascii "duration" then
          if !FLOAT_REGEXP valueString then .error (.fatal 139)
          else .ok (query2 ++ valueString, false)
        else .ok (query2 ++ ascii "\"" ++ escapeQuotes valueString ++ ascii "\"", false)
      | _ => .error (.fatal 127)
  else .ok (query, isFirstKey)

/-- The `range` loop of `insertIntoInfluxDb` over the entries in the order in
which they are visited. -/
def rangeLoop : List (Bytes × Value) → Bytes → Bool → Except Halt (Bytes × Bool)
  | [], query, isFirstKey => .ok (query, isFirstKey)
  | (key, value) :: rest, query, isFirstKey =>
    match rangeBody query isFirstKey key value with
    | .error h => .error h
    | .ok (query1, isFirstKey1) => rangeLoop rest query1 isFirstKey1

/-- Lines 105-155 of `insertIntoInfluxDb`: the statement in the buffer `query`.
The type assertion `keyValues["time"].(string)` panics when the key is absent
or its value is not a string. -/
def insertIntoInfluxDb_query (rt : Runtime) (keyValues : GoMap) (config : Config) :
    Except Halt Bytes :=
  match rangeLoop (rt.rangeOrder keyValues) config.InfluxdbMeasurement true with
  | .error h => .error h
  | .ok (query, _) =>
    match keyValues.get (ascii "time") with
    | some (.string timestamp) =>
      if !INTEGER_REGEXP timestamp then .error (.fatal 152)
      else .ok (query ++ ascii " " ++ timestamp)
    | _ => .error (.panic 150)

/-- Function `insertIntoInfluxDb` (lines 102-173). -/
def insertIntoInfluxDb (rt : Runtime) (keyValues : GoMap) (influxdbClient : HttpClient)
    (config : Config) : Go Unit :=
  match insertIntoInfluxDb_query rt keyValues config with
  | .error h => fun w => .halt h w
  | .ok query => do
    let url := ascii "http://" ++ config.InfluxdbHost ++ ascii ":" ++ config.InfluxdbPort
      ++ ascii "/write?db=belugacdn&precision=s"
    let resp ← httpPost influxdbClient url (ascii "application/x-www-form-urlencoded") query
    match resp with
    | none => logFatal 162
    | some statusCode =>
      if statusCode ≠ 200 ∧ statusCode ≠ 204 then logFatal 168

/-- Constant `maxAlloc` of the runtime on 64-bit platforms such as linux/amd64
(`heapAddrBits` is 48): `make([]byte, n)` panics with "makeslice: len out of
range" when `n` is above it. -/
def maxAlloc : Nat := 2 ^ 48

/-- Lines 64-81 of `awaitLpushCommand`: the allocation of `logJson`, the payload
of the declared length and the CR LF after it. `make` panics for a length above
`maxAlloc` (an allocation within the limit is taken to succeed); `Read` fills
`logJson` with the bytes it returns. -/
def awaitLpushCommand_payload (upcomingStringLength : Nat) : Go Bytes := do
  if maxAlloc < upcomingStringLength then goPanic 64
  let (logJson, err) ← readerRead upcomingStringLength
  if err then logFatal 67
  if logJson.length ≠ upcomingStringLength then logFatal 70
  let (cr, _) ← readerReadByte
  if cr ≠ ASCII_CR then logFatal 76
  let (lf, _) ← readerReadByte
  if lf ≠ ASCII_LF then logFatal 80
  pure logJson

/-- Lines 54-81 of `awaitLpushCommand`: the framing of the push command, up to
the payload `logJson`. -/
def awaitLpushCommand_frame (rt : Runtime) : Go Bytes := do
  expect rt (ascii "*3")
  expect rt (ascii "$5")
  expect rt (ascii "LPUSH")
  expect rt (ascii "$" ++ itoa REDIS_KEY_NAME.length)
  expect rt REDIS_KEY_NAME
  let upcomingStringLength ← expectDollarInt
  awaitLpushCommand_payload upcomingStringLength

/-- Function `awaitLpushCommand` (lines 51-91). -/
def awaitLpushCommand (rt : Runtime) (influxdbClient : HttpClient) (config : Config) :
    Go Unit := do
  let logJson ← awaitLpushCommand_frame rt
  let keyValues ← parseLogJson logJson
  insertIntoInfluxDb rt keyValues influxdbClient config
  connWrite (ascii ":1\r\n")


/-! ## The claims in the words of the specification -/

/-- A non-empty string of digits. -/
def IsDigits (s : Bytes) : Prop := s ≠ [] ∧ ∀ b ∈ s, isDigit b = true

/-- Digits, a dot, digits: at least one digit on each side. -/
def IsDigitsDotDigits (s : Bytes) : Prop :=
  ∃ a b : Bytes, IsDigits a ∧ IsDigits b ∧ s = a ++ 0x2E :: b

/-- A field key of the form `^[a-z_]+$`. -/
def IsFieldKey (k : Bytes) : Prop := k ≠ [] ∧ ∀ b ∈ k, isFieldKeyByte b = true

/-- The string with every `"` replaced by backslash `"`. -/
def quoteEscaped (v : Bytes) : Bytes :=
  v.flatMap (fun b => if b = 0x22 then [0x5C, 0x22] else [b])

/-- One field of the statement as the specification writes it: `k=v` followed
by `i` for `response_size` and `header_size`, `k=v` for `duration`, and `k=`
followed by the quoted, escaped value for every other key. -/
def fieldText (k v : Bytes) : Bytes :=
  if k = ascii "response_size" ∨ k = ascii "header_size" then k ++ ascii "=" ++ v ++ ascii "i"
  else if k = ascii "duration" then k ++ ascii "=" ++ v
  else k ++ ascii "=" ++ ascii "\"" ++ quoteEscaped v ++ ascii "\""

/-- The statement as the specification writes it: the measurement, the fields
separated by commas after one space (nothing when there is no field), one space
and the timestamp. -/
def statementText (m : Bytes) (fields : List Bytes) (time : Bytes) : Bytes :=
  m ++ (if fields = [] then [] else ascii " " ++ (ascii ",").intercalate fields) ++ ascii " " ++ time

/-- The string held by a value (empty for a value that is not a string). -/
def Value.text : Value → Bytes
  | .string s => s
  | _ => []

/-- The entries other than `time`, in the given order, each as a field. -/
def fieldsOf (entries : List (Bytes × Value)) : List Bytes :=
  (entries.filter (fun e => e.1 ≠ ascii "time")).map (fun e => fieldText e.1 e.2.text)

/-- The URL of the write endpoint as the program builds it. -/
def writeUrl (config : Config) : Bytes :=
  ascii "http://" ++ config.InfluxdbHost ++ ascii ":" ++ config.InfluxdbPort
    ++ ascii "/write?db=belugacdn&precision=s"


/-- The authenticate frame that carries `q`:
`*2 CRLF $4 CRLF AUTH CRLF $<len q> CRLF q CRLF`. -/
def authFrame (q : Bytes) : Bytes :=
  ascii "*2\r\n$4\r\nAUTH\r\n" ++ (ascii "$" ++ itoa q.length ++ CRLF ++ (q ++ CRLF))

/-- The push frame that declares the length `n` and carries `p`:
`*3 CRLF $5 CRLF LPUSH CRLF $9 CRLF belugacdn CRLF $<n> CRLF p CRLF`. -/
def pushFrame (n : Nat) (p : Bytes) : Bytes :=
  ascii "*3\r\n$5\r\nLPUSH\r\n$9\r\nbelugacdn\r\n" ++ (ascii "$" ++ itoa n ++ CRLF ++ (p ++ CRLF))

/-- The bytes of `s` up to and including its first LF (all of `s` when it has
none). -/
def firstLine (s : Bytes) : Bytes :=
  match splitAfter ASCII_LF s with
  | some (line, _) => line
  | none => s

/-- A piece of the program that records no event. -/
def TraceStable {α : Type} (m : Go α) : Prop := ∀ w, (m w).world.trace = w.trace

/-- An entry that the loop accepts: a key other than `time` of the right form
with a string value of the form its key asks for. -/
def GoodField (e : Bytes × Value) : Prop :=
  IsFieldKey e.1 ∧ ∃ v, e.2 = .string v ∧
    ((e.1 = ascii "response_size" ∨ e.1 = ascii "header_size") → IsDigits v) ∧
    (e.1 = ascii "duration" → IsDigitsDotDigits v)

/-- Text that the loop appends for the fields `fs` once a first field has been
written. -/
def commaFields (fs : List Bytes) : Bytes := fs.flatMap (fun f => ascii "," ++ f)

/-- An entry on which the body of the loop fails, whatever has been written. -/
def BadField (e : Bytes × Value) : Prop :=
  ∀ q f, ∃ h, rangeBody q f e.1 e.2 = .error h

/-- Bound on the number of rounds of `readBytesLoop`. -/
def readBytesRounds (r : Reader) : Nat :=
  2 * r.conn.flatten.length + (if defaultBufSize ≤ r.buf.length then 1 else 0)

/-- An HTTP client whose every request is answered with status 204. -/
def okClient : HttpClient := ⟨fun _ => some ⟨204, []⟩, fun _ _ => none⟩

/-- A configuration with the password `secret` and the measurement name
`measurement`. -/
def scenarioConfig : Config where
  ListenPort := ascii "6379"
  ExpectedPassword := ascii "secret"
  InfluxdbHost := ascii "localhost"
  InfluxdbPort := ascii "8086"
  InfluxdbDatabase := ascii "belugacdn"
  InfluxdbMeasurement := ascii "measurement"

/-- The payload of scenario 1 of the specification. -/
def scenarioPayload : Bytes :=
  ascii "\x7b\"time\":\"1600000000\",\"status\":\"200\",\"duration\":\"0.125\",\"response_size\":\"512\"\x7d"

/-- The record of scenario 1, its keys in the order of the payload. -/
def scenarioRecord : GoMap :=
  [(ascii "time", .string (ascii "1600000000")), (ascii "status", .string (ascii "200")),
   (ascii "duration", .string (ascii "0.125")), (ascii "response_size", .string (ascii "512"))]

/-- A connection on which nothing has happened yet and whose peer sends the
given segments. -/
def World.start (segments : List Bytes) : World := ⟨⟨[], segments⟩, []⟩

/-- Executable form of `GoodField`. -/
def goodFieldCheck (e : Bytes × Value) : Bool :=
  FIELD_KEY_REGEXP e.1 &&
    match e.2 with
    | .string v =>
      (if e.1 = ascii "response_size" ∨ e.1 = ascii "header_size" then INTEGER_REGEXP v else true)
        && (if e.1 = ascii "duration" then FLOAT_REGEXP v else true)
    | _ => false

/-- Lines 83-85 of `awaitLpushCommand`: the payload is parsed and the record is
encoded and posted. -/
def processPayload (rt : Runtime) (client : HttpClient) (config : Config) (logJson : Bytes) :
    Go Unit :=
  parseLogJson logJson >>= fun keyValues => insertIntoInfluxDb rt keyValues client config

/-! ## The connection handler -/

/-- The loop `for` of lines 193-195, `awaitLpushCommand` again and again: the
first `fuel` rounds. The loop has no exit of its own; the result is `.ok` when
it is still running after these rounds. -/
def lpushLoop (rt : Runtime) (influxdbClient : HttpClient) (config : Config) : Nat → Go Unit
  | 0 => pure ()
  | fuel + 1 => awaitLpushCommand rt influxdbClient config >>= fun _ =>
      lpushLoop rt influxdbClient config fuel

/-- How a call of `handleConnection` stands when it stops running. -/
inductive Ending where
  /-- Still inside the loop of line 193. -/
  | looping
  /-- Return to the caller after the deferred `conn.Close()`; the process and
  its other goroutines go on. -/
  | returned
  /-- Call `log.Fatal` or `log.Fatalf` at the line: `os.Exit(1)` ends the whole
  process at once; deferred functions do not run. -/
  | exited (line : Nat)
  /-- Run-time panic at the line: the deferred function closes the connection,
  and, nothing recovering the panic, the whole process ends. -/
  | crashed (line : Nat)
deriving DecidableEq, Repr

/-- The whole process has ended. -/
def Ending.processEnded : Ending → Bool
  | .exited _ => true
  | .crashed _ => true
  | _ => false

/-- The deferred function of lines 179-182 has run `conn.Close()`. -/
def Ending.closedByHandler : Ending → Bool
  | .returned => true
  | .crashed _ => true
  | _ => false

/-- Function `handleConnection` (lines 175-196) on the connection `conn`, its
loop cut after `fuel` rounds: how it ends and the state of the connection. -/
def handleConnection (rt : Runtime) (conn : World) (config : Config)
    (influxdbClient : HttpClient) (fuel : Nat) : Ending × World :=
  match (awaitAuthCommand rt config.ExpectedPassword >>= fun _ =>
      lpushLoop rt influxdbClient config fuel) conn with
  | .ok _ w => (.looping, w)
  | .halt (.fatal line) w => (.exited line, w)
  | .halt (.panic line) w => (.crashed line, w)

/-- How the process ends after a halt: `log.Fatal` exits, a panic crashes. -/
def Halt.ending : Halt → Ending
  | .fatal line => .exited line
  | .panic line => .crashed line

/-- Lines at which the program calls `log.Fatal` or `log.Fatalf` while it
handles a connection. -/
def fatalLines : List Nat :=
  [47, 67, 70, 76, 80, 89, 97, 120, 127, 133, 139, 152, 162, 168, 201, 205, 212, 219]

/-- Lines at which handling a connection can panic: the allocation of the
payload, the type assertion on `time` and the index into the result of the
regular expression. -/
def panicLines : List Nat := [64, 150, 215]

/-- An event of a push: the payload handed to the parser, the POST, the reply
`:1` CR LF. -/
def PushEvent (e : Event) : Prop :=
  (∃ p, e = .parsed p) ∨ (∃ u c b, e = .posted u c b) ∨ e = .wrote (ascii ":1\r\n")

/-- A piece of the program that reads on: it never puts bytes back. -/
def ReadsOn {α : Type} (m : Go α) : Prop :=
  ∀ w a w1, m w = .ok a w1 → w1.reader.stream.length ≤ w.reader.stream.length

/-! ## The write endpoint in the words of the specification -/

/-- The URL of the write endpoint as the specification gives it: host, port and
database come from the configuration. -/
def specWriteUrl (c : Config) : Bytes :=
  ascii "http://" ++ c.InfluxdbHost ++ ascii ":" ++ c.InfluxdbPort ++ ascii "/write?db="
    ++ c.InfluxdbDatabase ++ ascii "&precision=s"

/-- The configuration of the scenarios with the database `logs`. -/
def logsConfig : Config := { scenarioConfig with InfluxdbDatabase := ascii "logs" }

/-- An HTTP client whose every request is answered with the given status and
no header `Location`. -/
def statusClient (s : Nat) : HttpClient := ⟨fun _ => some ⟨s, []⟩, fun _ _ => none⟩

/-- An HTTP client whose every exchange fails. -/
def downClient : HttpClient := ⟨fun _ => none, fun _ _ => none⟩

/-- A key whose value the loop writes between double quotes. -/
def IsQuotedKey (k : Bytes) : Prop :=
  k ≠ ascii "time" ∧ k ≠ ascii "response_size" ∧ k ≠ ascii "header_size"
    ∧ k ≠ ascii "duration"

/-! ## Letter case -/

/-- Class `[A-Za-z]`. -/
def isLetter (b : UInt8) : Bool :=
  (0x41 ≤ b.toNat && b.toNat ≤ 0x5A) || (0x61 ≤ b.toNat && b.toNat ≤ 0x7A)

/-- The strings `t` and `e` are equal up to the case of their ASCII letters. -/
def SameUpToCase (t e : Bytes) : Prop := t.map asciiUpper = e.map asciiUpper

instance (t e : Bytes) : Decidable (SameUpToCase t e) :=
  inferInstanceAs (Decidable (t.map asciiUpper = e.map asciiUpper))

/-- The authenticate frame that carries `q`, its command word written `a`. -/
def authFrameWith (a q : Bytes) : Bytes :=
  ascii "*2\r\n$4\r\n" ++ (a ++ CRLF ++ (ascii "$" ++ itoa q.length ++ CRLF ++ (q ++ CRLF)))

/-- The head of a push frame, up to the length header of the payload, its
command word written `l` and its key name written `k`. -/
def pushHeadWith (l k : Bytes) : Bytes :=
  ascii "*3\r\n$5\r\n" ++ (l ++ CRLF ++ (ascii "$9\r\n" ++ (k ++ CRLF)))

/-- The halt is one of the calls of `log.Fatal` and `log.Fatalf`, or one of the
two panics. -/
def Halt.listed : Halt → Bool
  | .fatal line => fatalLines.contains line
  | .panic line => panicLines.contains line

/-- A piece of the program that stops short only at the listed places. -/
def HaltsListed {α : Type} (m : Go α) : Prop :=
  ∀ w h w1, m w = .halt h w1 → h.listed = true

/-- A piece of the program all of whose events are events of a push. -/
def PushTrace {α : Type} (m : Go α) : Prop :=
  ∀ w, ∃ evs, (m w).world.trace = w.trace ++ evs ∧ ∀ e ∈ evs, PushEvent e

/-- An HTTP client behind which the POST to the write URL of the scenarios is
answered with status 307 and the header `Location: /write2`, and every other
request with status 204. -/
def redirectClient : HttpClient where
  RoundTrip := fun req =>
    if req.URL = writeUrl scenarioConfig then some ⟨307, ascii "/write2"⟩ else some ⟨204, []⟩
  resolve := fun _ loc => some (ascii "http://localhost:8086" ++ loc)

/-- Status codes that the client takes as a redirect to follow. -/
def redirectCodes : List Nat := [301, 302, 303, 307, 308]

/-! ## A reference reader of the line protocol, in the words of the specification -/

/-- A field value as the reference reader gives it. -/
inductive RefValue where
  /-- A value between double quotes, escapes resolved. -/
  | string (s : Bytes)
  /-- Digits followed by the suffix `i`. -/
  | integer (digits : Bytes)
  /-- A bare number. -/
  | float (lit : Bytes)
deriving DecidableEq, Repr

/-- Reference reading of a string value after its opening double quote: the
backslash is the escape character (backslash and double quote stand for a double
quote, two backslashes for one), and the first double quote that is not escaped
ends the value. The result is the value and the text after the closing quote. -/
def refString : Bytes → Option (Bytes × Bytes)
  | [] => none
  | b :: rest =>
    if b = 0x22 then some ([], rest)
    else if b = 0x5C then
      match rest with
      | [] => none
      | c :: rest1 =>
        if c = 0x22 ∨ c = 0x5C then (refString rest1).map (fun x => (c :: x.1, x.2))
        else (refString rest1).map (fun x => (b :: c :: x.1, x.2))
    else (refString rest).map (fun x => (b :: x.1, x.2))

/-- Reference reading of one field value: a quoted string, or the bare text up
to the next comma or space, an integer when it is digits with the suffix `i`, a
float when it is a number. -/
def refValue (s : Bytes) : Option (RefValue × Bytes) :=
  match s with
  | [] => none
  | b :: rest =>
    if b = 0x22 then (refString rest).map (fun x => (RefValue.string x.1, x.2))
    else
      let lit := s.takeWhile (fun c => c != 0x2C && c != 0x20)
      let after := s.dropWhile (fun c => c != 0x2C && c != 0x20)
      if lit.getLast? = some 0x69 ∧ INTEGER_REGEXP lit.dropLast = true then
        some (RefValue.integer lit.dropLast, after)
      else if INTEGER_REGEXP lit = true ∨ FLOAT_REGEXP lit = true then
        some (RefValue.float lit, after)
      else none

/-- Reference reading of the field set: `key=value` separated by commas that
stand outside quoted values, up to the space before the timestamp. -/
def refFields : Nat → Bytes → Option (List (Bytes × RefValue) × Bytes)
  | 0, _ => none
  | fuel + 1, s =>
    match s.dropWhile (fun c => c != 0x3D) with
    | [] => none
    | _ :: afterEq =>
      if (s.takeWhile (fun c => c != 0x3D)).isEmpty then none
      else
        match refValue afterEq with
        | none => none
        | some (v, rest) =>
          match rest with
          | [] => none
          | sep :: more =>
            if sep = 0x2C then
              (refFields fuel more).map
                (fun x => ((s.takeWhile (fun c => c != 0x3D), v) :: x.1, x.2))
            else if sep = 0x20 then some ([(s.takeWhile (fun c => c != 0x3D), v)], more)
            else none

/-- Reference reading of a statement `measurement[ fields] timestamp`: the
measurement, the fields in the order of the text, the timestamp. -/
def refDecode (s : Bytes) : Option (Bytes × List (Bytes × RefValue) × Bytes) :=
  match s.dropWhile (fun c => c != 0x20) with
  | [] => none
  | _ :: rest =>
    if INTEGER_REGEXP rest = true then some (s.takeWhile (fun c => c != 0x20), [], rest)
    else
      match refFields (rest.length + 1) rest with
      | none => none
      | some (fields, time) =>
        if INTEGER_REGEXP time = true then some (s.takeWhile (fun c => c != 0x20), fields, time)
        else none

/-- What the round trip is to recover from an entry of the record: its key and
its string, typed by the key. -/
def refField (e : Bytes × Value) : Bytes × RefValue :=
  if e.1 = ascii "response_size" ∨ e.1 = ascii "header_size" then (e.1, .integer e.2.text)
  else if e.1 = ascii "duration" then (e.1, .float e.2.text)
  else (e.1, .string e.2.text)

/-- What the round trip is to recover from a record whose entries are visited
in the given order. -/
def refRecord (m : Bytes) (entries : List (Bytes × Value)) (time : Bytes) :
    Bytes × List (Bytes × RefValue) × Bytes :=
  (m, (entries.filter (fun e => e.1 ≠ ascii "time")).map refField, time)
/-! ## Running pieces of the program -/

theorem Go.bind_run {α β : Type} (m : Go α) (f : α → Go β) (w : World) :
    (m >>= f) w = match m w with
      | .ok a w1 => f a w1
      | .halt h w1 => .halt h w1 := rfl

theorem Go.pure_run {α : Type} (a : α) (w : World) : (Pure.pure a : Go α) w = .ok a w := rfl

theorem Go.bind_ok {α β : Type} {m : Go α} {f : α → Go β} {w w1 : World} {a : α}
    (h : m w = .ok a w1) : (m >>= f) w = f a w1 := by
  rw [Go.bind_run, h]

theorem Go.bind_halt {α β : Type} {m : Go α} {f : α → Go β} {w w1 : World} {e : Halt}
    (h : m w = .halt e w1) : (m >>= f) w = .halt e w1 := by
  rw [Go.bind_run, h]

/-! ## Regular expressions -/

theorem all_isDigit_iff (s : Bytes) : s.all isDigit = true ↔ ∀ b ∈ s, isDigit b = true := by
  simp [List.all_eq_true]

theorem INTEGER_REGEXP_iff (s : Bytes) : INTEGER_REGEXP s = true ↔ IsDigits s := by
  unfold INTEGER_REGEXP IsDigits
  cases s <;> simp

theorem FIELD_KEY_REGEXP_iff (s : Bytes) : FIELD_KEY_REGEXP s = true ↔ IsFieldKey s := by
  unfold FIELD_KEY_REGEXP IsFieldKey
  cases s <;> simp

theorem isDigit_dot : isDigit 0x2E = false := by decide

theorem takeWhile_digits_append (a b : Bytes) (c : UInt8) (ha : ∀ x ∈ a, isDigit x = true)
    (hc : isDigit c = false) : (a ++ c :: b).takeWhile isDigit = a := by
  induction a with
  | nil => simp [List.takeWhile, hc]
  | cons x a ih =>
    have hx : isDigit x = true := ha x (List.mem_cons_self _ _)
    simp [List.takeWhile, hx]
    exact ih (fun y hy => ha y (List.mem_cons_of_mem _ hy))

theorem dropWhile_digits_append (a b : Bytes) (c : UInt8) (ha : ∀ x ∈ a, isDigit x = true)
    (hc : isDigit c = false) : (a ++ c :: b).dropWhile isDigit = c :: b := by
  induction a with
  | nil => simp [List.dropWhile, hc]
  | cons x a ih =>
    have hx : isDigit x = true := ha x (List.mem_cons_self _ _)
    simp [List.dropWhile, hx]
    exact ih (fun y hy => ha y (List.mem_cons_of_mem _ hy))

theorem FLOAT_REGEXP_iff (s : Bytes) : FLOAT_REGEXP s = true ↔ IsDigitsDotDigits s := by
  constructor
  · intro h
    unfold FLOAT_REGEXP at h
    cases hd : s.dropWhile isDigit with
    | nil => rw [hd] at h; simp at h
    | cons c b =>
      rw [hd] at h
      simp only [Bool.and_eq_true, Bool.not_eq_true', List.isEmpty_eq_false, beq_iff_eq,
        List.all_eq_true] at h
      obtain ⟨⟨⟨h1, h2⟩, h3⟩, h4⟩ := h
      refine ⟨s.takeWhile isDigit, b, ⟨?_, ?_⟩, ⟨?_, h4⟩, ?_⟩
      · intro h0; rw [h0] at h1; simp at h1
      · intro x hx; exact (List.mem_takeWhile_imp hx)
      · intro h0; rw [h0] at h3; simp at h3
      · rw [← h2, ← hd, List.takeWhile_append_dropWhile]
  · rintro ⟨a, b, ⟨ha0, ha⟩, ⟨hb0, hb⟩, rfl⟩
    unfold FLOAT_REGEXP
    rw [dropWhile_digits_append a b _ ha isDigit_dot, takeWhile_digits_append a b _ ha isDigit_dot]
    cases a with
    | nil => exact absurd rfl ha0
    | cons x a =>
      cases b with
      | nil => exact absurd rfl hb0
      | cons y b => simpa using hb

/-! ## The statement built by `insertIntoInfluxDb` -/

theorem escapeQuotes_eq (v : Bytes) : escapeQuotes v = quoteEscaped v := by
  induction v with
  | nil => rfl
  | cons b v ih =>
    unfold quoteEscaped at ih ⊢
    by_cases hb : b = 0x22
    · simp [escapeQuotes, hb, ih]
    · simp [escapeQuotes, hb, ih]

theorem rangeBody_time (q : Bytes) (f : Bool) (v : Value) :
    rangeBody q f (ascii "time") v = .ok (q, f) := by
  simp [rangeBody]

theorem rangeBody_good (q : Bytes) (f : Bool) (e : Bytes × Value) (ht : e.1 ≠ ascii "time")
    (hg : GoodField e) :
    rangeBody q f e.1 e.2
      = .ok (q ++ (if f = true then ascii " " else ascii ",") ++ fieldText e.1 e.2.text, false) := by
  obtain ⟨hk, v, hv, hint, hfl⟩ := hg
  have hk1 : FIELD_KEY_REGEXP e.1 = true := (FIELD_KEY_REGEXP_iff _).2 hk
  unfold rangeBody fieldText
  rw [hv]
  simp only [Value.text, ne_eq, ht, not_false_eq_true, if_true, hk1, Bool.not_true]
  by_cases h1 : e.1 = ascii "response_size" ∨ e.1 = ascii "header_size"
  · have := (INTEGER_REGEXP_iff v).2 (hint h1)
    cases f <;> simp [h1, this, List.append_assoc]
  · by_cases h2 : e.1 = ascii "duration"
    · have := (FLOAT_REGEXP_iff v).2 (hfl h2)
      have h1d := h1
      rw [h2] at h1d
      cases f <;> simp [h1d, h2, this, List.append_assoc]
    · cases f <;> simp [h1, h2, escapeQuotes_eq, List.append_assoc]

theorem intercalate_cons (f : Bytes) (fs : List Bytes) :
    (ascii ",").intercalate (f :: fs) = f ++ commaFields fs := by
  induction fs generalizing f with
  | nil => simp [List.intercalate, commaFields]
  | cons g fs ih =>
    have := ih g
    simp only [List.intercalate, List.intersperse_cons_cons, List.flatten_cons] at this ⊢
    rw [this]
    simp [commaFields]

theorem fieldsOf_cons_time (v : Value) (it : List (Bytes × Value)) :
    fieldsOf ((ascii "time", v) :: it) = fieldsOf it := by
  simp [fieldsOf]

theorem fieldsOf_cons_field (k : Bytes) (v : Value) (it : List (Bytes × Value))
    (ht : k ≠ ascii "time") :
    fieldsOf ((k, v) :: it) = fieldText k v.text :: fieldsOf it := by
  simp [fieldsOf, ht]

theorem rangeLoop_good_false (it : List (Bytes × Value)) (q : Bytes)
    (hg : ∀ e ∈ it, e.1 ≠ ascii "time" → GoodField e) :
    rangeLoop it q false = .ok (q ++ commaFields (fieldsOf it), false) := by
  induction it generalizing q with
  | nil => simp [rangeLoop, fieldsOf, commaFields]
  | cons e it ih =>
    obtain ⟨k, v⟩ := e
    have ih1 := fun q => ih q (fun e he => hg e (List.mem_cons_of_mem _ he))
    by_cases ht : k = ascii "time"
    · subst ht
      simp only [rangeLoop, rangeBody_time]
      rw [ih1, fieldsOf_cons_time]
    · have hb := rangeBody_good q false (k, v) ht (hg _ (List.mem_cons_self _ _) ht)
      simp only at hb
      simp only [rangeLoop, hb]
      rw [ih1, fieldsOf_cons_field k v it ht]
      simp [commaFields, List.append_assoc]

theorem rangeLoop_good_true (it : List (Bytes × Value)) (q : Bytes)
    (hg : ∀ e ∈ it, e.1 ≠ ascii "time" → GoodField e) :
    ∃ f, rangeLoop it q true
      = .ok (q ++ (if fieldsOf it = [] then []
          else ascii " " ++ (ascii ",").intercalate (fieldsOf it)), f) := by
  induction it generalizing q with
  | nil => exact ⟨true, by simp [rangeLoop, fieldsOf]⟩
  | cons e it ih =>
    obtain ⟨k, v⟩ := e
    have hg1 : ∀ e ∈ it, e.1 ≠ ascii "time" → GoodField e :=
      fun e he => hg e (List.mem_cons_of_mem _ he)
    by_cases ht : k = ascii "time"
    · subst ht
      obtain ⟨f, hf⟩ := ih q hg1
      refine ⟨f, ?_⟩
      simp only [rangeLoop, rangeBody_time]
      rw [hf, fieldsOf_cons_time]
    · have hb := rangeBody_good q true (k, v) ht (hg _ (List.mem_cons_self _ _) ht)
      simp only at hb
      refine ⟨false, ?_⟩
      simp only [rangeLoop, hb]
      rw [rangeLoop_good_false it _ hg1]
      rw [fieldsOf_cons_field k v it ht, intercalate_cons]
      simp [List.append_assoc]

theorem rangeLoop_bad (it : List (Bytes × Value)) (hbad : ∃ e ∈ it, BadField e) (q : Bytes)
    (f : Bool) : ∃ h, rangeLoop it q f = .error h := by
  induction it generalizing q f with
  | nil => obtain ⟨e, he, _⟩ := hbad; simp at he
  | cons e it ih =>
    obtain ⟨k, v⟩ := e
    cases hb : rangeBody q f k v with
    | error h => exact ⟨h, by simp [rangeLoop, hb]⟩
    | ok r =>
      obtain ⟨q1, f1⟩ := r
      simp only [rangeLoop, hb]
      apply ih
      obtain ⟨e, he, hbe⟩ := hbad
      rcases List.mem_cons.1 he with rfl | he1
      · obtain ⟨h, hh⟩ := hbe q f
        rw [hb] at hh
        cases hh
      · exact ⟨e, he1, hbe⟩

theorem query_error_of_bad (rt : Runtime) (keyValues : GoMap) (config : Config)
    (hbad : ∃ e ∈ keyValues, BadField e) :
    ∃ h, insertIntoInfluxDb_query rt keyValues config = .error h := by
  have hbad1 : ∃ e ∈ rt.rangeOrder keyValues, BadField e := by
    obtain ⟨e, he, hb⟩ := hbad
    exact ⟨e, ((rt.rangeOrder_perm keyValues).mem_iff).2 he, hb⟩
  obtain ⟨h, hh⟩ := rangeLoop_bad _ hbad1 config.InfluxdbMeasurement true
  exact ⟨h, by simp [insertIntoInfluxDb_query, hh]⟩

theorem insert_halt_of_query_error (rt : Runtime) (keyValues : GoMap) (client : HttpClient)
    (config : Config) (w : World) (h : Halt)
    (hq : insertIntoInfluxDb_query rt keyValues config = .error h) :
    insertIntoInfluxDb rt keyValues client config w = .halt h w := by
  simp [insertIntoInfluxDb, hq]

theorem insert_trace_of_query_ok (rt : Runtime) (keyValues : GoMap) (client : HttpClient)
    (config : Config) (w : World) (query : Bytes)
    (hq : insertIntoInfluxDb_query rt keyValues config = .ok query) :
    (insertIntoInfluxDb rt keyValues client config w).world
      = { w with trace := w.trace ++
            [.posted (writeUrl config) (ascii "application/x-www-form-urlencoded") query] } := by
  simp only [insertIntoInfluxDb, hq, Go.bind_run, httpPost, writeUrl]
  cases client.Post _ _ _ with
  | none => rfl
  | some s =>
    simp only
    split <;> rfl

theorem badField_of_key (e : Bytes × Value) (ht : e.1 ≠ ascii "time") (hk : ¬ IsFieldKey e.1) :
    BadField e := by
  intro q f
  have hk1 : FIELD_KEY_REGEXP e.1 = false := by
    cases h : FIELD_KEY_REGEXP e.1 with
    | false => rfl
    | true => exact absurd ((FIELD_KEY_REGEXP_iff _).1 h) hk
  exact ⟨.fatal 120, by simp [rangeBody, ht, hk1]⟩

theorem badField_of_integer (e : Bytes × Value)
    (hk : e.1 = ascii "response_size" ∨ e.1 = ascii "header_size")
    (hv : ¬ ∃ v, e.2 = .string v ∧ IsDigits v) : BadField e := by
  intro q f
  obtain ⟨k, v⟩ := e
  have ht : k ≠ ascii "time" := by
    rcases hk with h | h <;> (simp only at h; rw [h]; decide)
  simp only at hk
  unfold rangeBody
  simp only [ne_eq, ht, not_false_eq_true, if_true]
  split
  · exact ⟨_, rfl⟩
  · cases v with
    | string s =>
      have hs : INTEGER_REGEXP s = false := by
        cases h : INTEGER_REGEXP s with
        | false => rfl
        | true => exact absurd ⟨s, rfl, (INTEGER_REGEXP_iff _).1 h⟩ hv
      exact ⟨.fatal 133, by simp [hk, hs]⟩
    | _ => exact ⟨_, rfl⟩

theorem badField_of_float (e : Bytes × Value) (hk : e.1 = ascii "duration")
    (hv : ¬ ∃ v, e.2 = .string v ∧ IsDigitsDotDigits v) : BadField e := by
  intro q f
  obtain ⟨k, v⟩ := e
  simp only at hk
  subst hk
  have ht : ascii "duration" ≠ ascii "time" := by decide
  have h1 : ¬ (ascii "duration" = ascii "response_size" ∨ ascii "duration" = ascii "header_size") := by
    decide
  unfold rangeBody
  simp only [ne_eq, ht, not_false_eq_true, if_true]
  split
  · exact ⟨_, rfl⟩
  · cases v with
    | string s =>
      have hs : FLOAT_REGEXP s = false := by
        cases h : FLOAT_REGEXP s with
        | false => rfl
        | true => exact absurd ⟨s, rfl, (FLOAT_REGEXP_iff _).1 h⟩ hv
      exact ⟨.fatal 139, by simp [h1, hs]⟩
    | _ => exact ⟨_, rfl⟩

theorem badField_of_not_string (e : Bytes × Value) (ht : e.1 ≠ ascii "time")
    (hv : ∀ v, e.2 ≠ .string v) : BadField e := by
  intro q f
  obtain ⟨k, v⟩ := e
  simp only at ht
  unfold rangeBody
  simp only [ne_eq, ht, not_false_eq_true, if_true]
  split
  · exact ⟨_, rfl⟩
  · cases v with
    | string s => exact absurd rfl (hv s)
    | _ => exact ⟨_, rfl⟩

theorem query_error_of_bad_time (rt : Runtime) (keyValues : GoMap) (config : Config)
    (hbad : ¬ ∃ t, keyValues.get (ascii "time") = some (.string t) ∧ IsDigits t) :
    ∃ h, insertIntoInfluxDb_query rt keyValues config = .error h := by
  unfold insertIntoInfluxDb_query
  cases hl : rangeLoop (rt.rangeOrder keyValues) config.InfluxdbMeasurement true with
  | error h => exact ⟨h, rfl⟩
  | ok r =>
    obtain ⟨q, f⟩ := r
    simp only
    cases hg : keyValues.get (ascii "time") with
    | none => exact ⟨_, rfl⟩
    | some v =>
      cases v with
      | string t =>
        have ht : INTEGER_REGEXP t = false := by
          cases h : INTEGER_REGEXP t with
          | false => rfl
          | true => exact absurd ⟨t, hg, (INTEGER_REGEXP_iff _).1 h⟩ hbad
        exact ⟨.fatal 152, by simp [ht]⟩
      | _ => exact ⟨_, rfl⟩

theorem query_of_good (rt : Runtime) (config : Config) (keyValues : GoMap) (time : Bytes)
    (htime : keyValues.get (ascii "time") = some (.string time)) (hdigits : IsDigits time)
    (hfields : ∀ e ∈ keyValues, e.1 ≠ ascii "time" → GoodField e) :
    insertIntoInfluxDb_query rt keyValues config
      = .ok (statementText config.InfluxdbMeasurement (fieldsOf (rt.rangeOrder keyValues))
          time) := by
  have hg : ∀ e ∈ rt.rangeOrder keyValues, e.1 ≠ ascii "time" → GoodField e :=
    fun e he => hfields e (((rt.rangeOrder_perm keyValues).mem_iff).1 he)
  obtain ⟨f, hf⟩ := rangeLoop_good_true _ config.InfluxdbMeasurement hg
  have hi : INTEGER_REGEXP time = true := (INTEGER_REGEXP_iff _).2 hdigits
  simp [insertIntoInfluxDb_query, hf, htime, hi, statementText, List.append_assoc]

/-- C1: for a record with a digit-only string `time` whose other entries have
keys of the form `^[a-z_]+$` and string values (digits for `response_size` and
`header_size`, digits.digits for `duration`), the statement that
`insertIntoInfluxDb` builds, and posts, is the measurement, then (when there is
a field) a space and the fields `k=v` in the order of iteration separated by
commas, then a space and `time`; `time` is no field, and without fields the
statement is measurement, space, `time`. -/
theorem C1_statement_form (rt : Runtime) (client : HttpClient) (config : Config)
    (keyValues : GoMap) (time : Bytes) (w : World)
    (htime : keyValues.get (ascii "time") = some (.string time))
    (hdigits : IsDigits time)
    (hfields : ∀ e ∈ keyValues, e.1 ≠ ascii "time" → GoodField e) :
    insertIntoInfluxDb_query rt keyValues config
        = .ok (statementText config.InfluxdbMeasurement (fieldsOf (rt.rangeOrder keyValues)) time)
      ∧ (insertIntoInfluxDb rt keyValues client config w).world.trace
        = w.trace ++ [.posted (writeUrl config) (ascii "application/x-www-form-urlencoded")
            (statementText config.InfluxdbMeasurement (fieldsOf (rt.rangeOrder keyValues)) time)]
      ∧ (fieldsOf (rt.rangeOrder keyValues) = [] →
          insertIntoInfluxDb_query rt keyValues config
            = .ok (config.InfluxdbMeasurement ++ ascii " " ++ time)) := by
  have hq := query_of_good rt config keyValues time htime hdigits hfields
  refine ⟨hq, ?_, ?_⟩
  · rw [insert_trace_of_query_ok rt keyValues client config w _ hq]
  · intro h0
    rw [hq, h0]
    simp [statementText]

/-- C8: a record with a key other than `time` that is not of the form
`^[a-z_]+$` makes `insertIntoInfluxDb` fail with nothing posted, whatever the
other entries and the order of iteration. -/
theorem C8_bad_key_no_post (rt : Runtime) (client : HttpClient) (config : Config)
    (keyValues : GoMap) (w : World)
    (hkey : ∃ e ∈ keyValues, e.1 ≠ ascii "time" ∧ ¬ IsFieldKey e.1) :
    ∃ h, insertIntoInfluxDb rt keyValues client config w = .halt h w := by
  obtain ⟨e, he, ht, hk⟩ := hkey
  obtain ⟨h, hh⟩ := query_error_of_bad rt keyValues config ⟨e, he, badField_of_key e ht hk⟩
  exact ⟨h, insert_halt_of_query_error rt keyValues client config w h hh⟩

/-- C9: a record in which the value of `response_size` or `header_size` is not
a non-empty string of digits, or the value of `duration` is not digits, a dot,
digits, makes `insertIntoInfluxDb` fail with nothing posted. -/
theorem C9_typed_fields_no_post (rt : Runtime) (client : HttpClient) (config : Config)
    (keyValues : GoMap) (w : World)
    (hbad : (∃ e ∈ keyValues, (e.1 = ascii "response_size" ∨ e.1 = ascii "header_size")
              ∧ ¬ ∃ v, e.2 = .string v ∧ IsDigits v)
          ∨ (∃ e ∈ keyValues, e.1 = ascii "duration"
              ∧ ¬ ∃ v, e.2 = .string v ∧ IsDigitsDotDigits v)) :
    ∃ h, insertIntoInfluxDb rt keyValues client config w = .halt h w := by
  have hb : ∃ e ∈ keyValues, BadField e := by
    rcases hbad with ⟨e, he, hk, hv⟩ | ⟨e, he, hk, hv⟩
    · exact ⟨e, he, badField_of_integer e hk hv⟩
    · exact ⟨e, he, badField_of_float e hk hv⟩
  obtain ⟨h, hh⟩ := query_error_of_bad rt keyValues config hb
  exact ⟨h, insert_halt_of_query_error rt keyValues client config w h hh⟩

/-! ## The buffered reader, seen as a stream of bytes -/

theorem splitAfter_append_some (d : UInt8) (a b line rest : Bytes)
    (h : splitAfter d a = some (line, rest)) :
    splitAfter d (a ++ b) = some (line, rest ++ b) := by
  induction a generalizing line rest with
  | nil => simp [splitAfter] at h
  | cons x a ih =>
    by_cases hx : x = d
    · simp only [splitAfter, hx, if_true, Option.some.injEq, Prod.mk.injEq] at h
      obtain ⟨rfl, rfl⟩ := h
      simp [splitAfter, hx]
    · simp only [splitAfter, hx, if_false] at h
      cases hs : splitAfter d a with
      | none => rw [hs] at h; simp at h
      | some p =>
        obtain ⟨l1, r1⟩ := p
        rw [hs] at h
        simp only [Option.map_some', Option.some.injEq, Prod.mk.injEq] at h
        obtain ⟨rfl, rfl⟩ := h
        simp [splitAfter, hx, ih l1 r1 hs]

theorem splitAfter_append_none (d : UInt8) (a b : Bytes) (h : splitAfter d a = none) :
    splitAfter d (a ++ b) = (splitAfter d b).map (fun x => (a ++ x.1, x.2)) := by
  induction a with
  | nil =>
    rw [List.nil_append]
    cases splitAfter d b <;> simp
  | cons x a ih =>
    by_cases hx : x = d
    · simp [splitAfter, hx] at h
    · simp only [splitAfter, hx, if_false, Option.map_eq_none'] at h
      rw [List.cons_append]
      simp only [splitAfter, hx, if_false]
      rw [ih h]
      cases splitAfter d b <;> simp

theorem splitAfter_eq_none_iff (d : UInt8) (a : Bytes) : splitAfter d a = none ↔ d ∉ a := by
  induction a with
  | nil => simp [splitAfter]
  | cons x a ih =>
    by_cases hx : x = d
    · simp [splitAfter, hx]
    · have hx1 : ¬ d = x := fun h => hx h.symm
      simp [splitAfter, hx, hx1, ih]

theorem splitAfter_line (d : UInt8) (l rest : Bytes) (hl : d ∉ l) :
    splitAfter d (l ++ d :: rest) = some (l ++ [d], rest) := by
  rw [splitAfter_append_none d l _ ((splitAfter_eq_none_iff d l).2 hl)]
  simp [splitAfter]

theorem splitAfter_some_eq (d : UInt8) (a line rest : Bytes)
    (h : splitAfter d a = some (line, rest)) : a = line ++ rest := by
  induction a generalizing line rest with
  | nil => simp [splitAfter] at h
  | cons x a ih =>
    by_cases hx : x = d
    · simp only [splitAfter, hx, if_true, Option.some.injEq, Prod.mk.injEq] at h
      obtain ⟨rfl, rfl⟩ := h
      simp [hx]
    · simp only [splitAfter, hx, if_false] at h
      cases hs : splitAfter d a with
      | none => rw [hs] at h; simp at h
      | some p =>
        obtain ⟨l1, r1⟩ := p
        rw [hs] at h
        simp only [Option.map_some', Option.some.injEq, Prod.mk.injEq] at h
        obtain ⟨rfl, rfl⟩ := h
        simp [ih l1 r1 hs]

theorem connRead_none (n : Nat) (conn : List Bytes) (h : connRead n conn = none) :
    conn.flatten = [] := by
  induction conn with
  | nil => rfl
  | cons c cs ih =>
    cases c with
    | nil => simpa [connRead] using ih (by simpa [connRead] using h)
    | cons x c => simp [connRead] at h

theorem connRead_some (n : Nat) (conn : List Bytes) (d : Bytes) (conn1 : List Bytes)
    (hn : 0 < n) (h : connRead n conn = some (d, conn1)) :
    d ≠ [] ∧ d.length ≤ n ∧ d ++ conn1.flatten = conn.flatten := by
  induction conn with
  | nil => simp [connRead] at h
  | cons c cs ih =>
    cases c with
    | nil => simpa [connRead] using ih (by simpa [connRead] using h)
    | cons x c =>
      simp only [connRead, List.isEmpty_cons, Bool.false_eq_true, if_false, Option.some.injEq,
        Prod.mk.injEq] at h
      obtain ⟨rfl, rfl⟩ := h
      obtain ⟨m, rfl⟩ : ∃ m, n = m + 1 := ⟨n - 1, by omega⟩
      refine ⟨by simp, by simp, ?_⟩
      by_cases he : (List.drop (m + 1) (x :: c)).isEmpty = true
      · rw [if_pos he]
        have : List.drop (m + 1) (x :: c) = [] := by simpa using he
        have h2 := List.take_append_drop (m + 1) (x :: c)
        rw [this] at h2
        simp only [List.append_nil] at h2
        rw [h2, List.flatten_cons]
      · rw [if_neg he]
        simp only [List.flatten_cons]
        rw [← List.append_assoc, List.take_append_drop]

theorem readBytesLoop_spec (delim : UInt8) (fuel : Nat) (r : Reader) (acc : Bytes)
    (hfuel : readBytesRounds r < fuel) :
    (∀ line rest, splitAfter delim r.stream = some (line, rest) →
        ∃ r1, readBytesLoop delim fuel r acc = (acc ++ line, false, r1) ∧ r1.stream = rest)
    ∧ (splitAfter delim r.stream = none →
        ∃ r1, readBytesLoop delim fuel r acc = (acc ++ r.stream, true, r1) ∧ r1.stream = []) := by
  induction fuel generalizing r acc with
  | zero => omega
  | succ fuel ih =>
    unfold readBytesRounds at hfuel
    cases hb : splitAfter delim r.buf with
    | some p =>
      obtain ⟨l, rs⟩ := p
      have hs := splitAfter_append_some delim r.buf r.conn.flatten l rs hb
      constructor
      · intro line rest hline
        unfold Reader.stream at hline
        rw [hs] at hline
        simp only [Option.some.injEq, Prod.mk.injEq] at hline
        obtain ⟨rfl, rfl⟩ := hline
        exact ⟨{ r with buf := rs }, by simp [readBytesLoop, hb], rfl⟩
      · intro hnone
        unfold Reader.stream at hnone
        rw [hs] at hnone
        simp at hnone
    | none =>
      have hs := splitAfter_append_none delim r.buf r.conn.flatten hb
      by_cases hfull : defaultBufSize ≤ r.buf.length
      · have hstep : readBytesLoop delim (fuel + 1) r acc
            = readBytesLoop delim fuel { r with buf := [] } (acc ++ r.buf) := by
          simp [readBytesLoop, hb, hfull]
        have hf1 : readBytesRounds { r with buf := [] } < fuel := by
          have h0 : ¬ (defaultBufSize ≤ ([] : Bytes).length) := by simp [defaultBufSize]
          unfold readBytesRounds
          simp only [h0, if_false]
          simp only [hfull, if_true] at hfuel
          omega
        obtain ⟨ih1, ih2⟩ := ih { r with buf := [] } (acc ++ r.buf) hf1
        have hst : (({ r with buf := [] } : Reader)).stream = r.conn.flatten := by
          simp [Reader.stream]
        rw [hst] at ih1 ih2
        constructor
        · intro line rest hline
          unfold Reader.stream at hline
          rw [hs] at hline
          cases hc : splitAfter delim r.conn.flatten with
          | none => rw [hc] at hline; simp at hline
          | some p =>
            obtain ⟨l1, r1⟩ := p
            rw [hc] at hline
            simp only [Option.map_some', Option.some.injEq, Prod.mk.injEq] at hline
            obtain ⟨rfl, rfl⟩ := hline
            obtain ⟨r2, h2, h3⟩ := ih1 l1 r1 hc
            exact ⟨r2, by rw [hstep, h2, List.append_assoc], h3⟩
        · intro hnone
          unfold Reader.stream at hnone
          rw [hs] at hnone
          have hc : splitAfter delim r.conn.flatten = none := by
            cases hc : splitAfter delim r.conn.flatten with
            | none => rfl
            | some p => rw [hc] at hnone; simp at hnone
          obtain ⟨r2, h2, h3⟩ := ih2 hc
          exact ⟨r2, by rw [hstep, h2]; simp [Reader.stream], h3⟩
      · simp only [hfull, if_false] at hfuel
        cases hr : connRead (defaultBufSize - r.buf.length) r.conn with
        | none =>
          have hflat := connRead_none _ _ hr
          have hstep : readBytesLoop delim (fuel + 1) r acc
              = (acc ++ r.buf, true, { buf := [], conn := [] }) := by
            simp [readBytesLoop, hb, hfull, hr]
          constructor
          · intro line rest hline
            unfold Reader.stream at hline
            rw [hflat, List.append_nil, hb] at hline
            simp at hline
          · intro _
            exact ⟨{ buf := [], conn := [] }, by rw [hstep]; simp [Reader.stream, hflat],
              by simp [Reader.stream]⟩
        | some p =>
          obtain ⟨d, conn1⟩ := p
          obtain ⟨hd0, _, hd⟩ := connRead_some _ _ _ _ (by omega) hr
          have hstep : readBytesLoop delim (fuel + 1) r acc
              = readBytesLoop delim fuel { buf := r.buf ++ d, conn := conn1 } acc := by
            simp [readBytesLoop, hb, hfull, hr]
          have hst : (({ buf := r.buf ++ d, conn := conn1 } : Reader)).stream = r.stream := by
            simp [Reader.stream, hd]
          have hlen : conn1.flatten.length + 1 ≤ r.conn.flatten.length := by
            rw [← hd]
            have : 0 < d.length := List.length_pos.2 hd0
            simp
            omega
          have hf1 : readBytesRounds { buf := r.buf ++ d, conn := conn1 } < fuel := by
            unfold readBytesRounds
            simp only
            split <;> omega
          obtain ⟨ih1, ih2⟩ := ih { buf := r.buf ++ d, conn := conn1 } acc hf1
          rw [hst] at ih1 ih2
          constructor
          · intro line rest hline
            obtain ⟨r2, h2, h3⟩ := ih1 line rest hline
            exact ⟨r2, by rw [hstep, h2], h3⟩
          · intro hnone
            obtain ⟨r2, h2, h3⟩ := ih2 hnone
            exact ⟨r2, by rw [hstep, h2], h3⟩

theorem ReadBytes_line (r : Reader) (delim : UInt8) (line rest : Bytes)
    (h : splitAfter delim r.stream = some (line, rest)) :
    ∃ r1, r.ReadBytes delim = (line, false, r1) ∧ r1.stream = rest := by
  have hf : readBytesRounds r < 2 * r.conn.flatten.length + 2 := by
    unfold readBytesRounds
    split <;> omega
  obtain ⟨r1, h1, h2⟩ := (readBytesLoop_spec delim _ r [] hf).1 line rest h
  exact ⟨r1, by simpa [Reader.ReadBytes] using h1, h2⟩

theorem ReadBytes_eof (r : Reader) (delim : UInt8) (h : splitAfter delim r.stream = none) :
    ∃ r1, r.ReadBytes delim = (r.stream, true, r1) ∧ r1.stream = [] := by
  have hf : readBytesRounds r < 2 * r.conn.flatten.length + 2 := by
    unfold readBytesRounds
    split <;> omega
  obtain ⟨r1, h1, h2⟩ := (readBytesLoop_spec delim _ r [] hf).2 h
  exact ⟨r1, by simpa [Reader.ReadBytes] using h1, h2⟩

theorem Read_spec (r : Reader) (n : Nat) :
    (r.Read n).1 ++ (r.Read n).2.2.stream = r.stream ∧ (r.Read n).1.length ≤ n
      ∧ ((r.Read n).2.1 = true → r.stream = []) := by
  unfold Reader.Read
  by_cases hn : n = 0
  · simp [hn]
  · simp only [hn, if_false]
    by_cases hb : r.buf.isEmpty = true
    · have hb0 : r.buf = [] := by simpa using hb
      simp only [hb, if_true]
      by_cases hbig : defaultBufSize ≤ n
      · simp only [hbig, if_true]
        cases hr : connRead n r.conn with
        | none => simp [Reader.stream, hb0, connRead_none _ _ hr]
        | some p =>
          obtain ⟨d, conn1⟩ := p
          obtain ⟨_, hlen, hd⟩ := connRead_some _ _ _ _ (by omega) hr
          simp [Reader.stream, hb0, hd, hlen]
      · simp only [hbig, if_false]
        cases hr : connRead defaultBufSize r.conn with
        | none => simp [Reader.stream, hb0, connRead_none _ _ hr]
        | some p =>
          obtain ⟨d, conn1⟩ := p
          obtain ⟨_, hlen, hd⟩ := connRead_some _ _ _ _ (by simp [defaultBufSize]) hr
          simp only [Reader.stream, hb0, List.nil_append, Bool.false_eq_true, false_implies,
            and_true]
          refine ⟨?_, ?_⟩
          · rw [← List.append_assoc, List.take_append_drop, hd]
          · simp [List.length_take]
    · simp only [hb, if_false, Bool.false_eq_true, false_implies, and_true]
      refine ⟨?_, ?_⟩
      · simp only [Reader.stream]
        rw [← List.append_assoc, List.take_append_drop]
      · simp [List.length_take]

theorem ReadByte_nil (r : Reader) (h : r.stream = []) :
    r.ReadByte.1 = 0 ∧ r.ReadByte.2.2.stream = [] := by
  have hb : r.buf = [] := by
    have := congrArg List.length h
    simp [Reader.stream] at this
    exact this.1
  have hc : r.conn.flatten = [] := by simpa [Reader.stream, hb] using h
  unfold Reader.ReadByte
  rw [hb]
  cases hr : connRead defaultBufSize r.conn with
  | none => simp [Reader.stream]
  | some p =>
    obtain ⟨d, conn1⟩ := p
    obtain ⟨hd0, _, hd⟩ := connRead_some _ _ _ _ (by simp [defaultBufSize]) hr
    rw [hc] at hd
    cases d with
    | nil => exact absurd rfl hd0
    | cons x d => simp at hd

theorem ReadByte_cons (r : Reader) (b : UInt8) (rest : Bytes) (h : r.stream = b :: rest) :
    r.ReadByte.1 = b ∧ r.ReadByte.2.2.stream = rest := by
  unfold Reader.ReadByte
  cases hb : r.buf with
  | cons x t =>
    simp only [Reader.stream, hb, List.cons_append, List.cons.injEq] at h
    simp [Reader.stream, h.1, h.2]
  | nil =>
    simp only [Reader.stream, hb, List.nil_append] at h
    cases hr : connRead defaultBufSize r.conn with
    | none => rw [connRead_none _ _ hr] at h; simp at h
    | some p =>
      obtain ⟨d, conn1⟩ := p
      obtain ⟨hd0, _, hd⟩ := connRead_some _ _ _ _ (by simp [defaultBufSize]) hr
      rw [h] at hd
      cases d with
      | nil => exact absurd rfl hd0
      | cons x d =>
        simp only [List.cons_append, List.cons.injEq] at hd
        simp [Reader.stream, hd.1, hd.2]

/-! ## UTF-8 and white space -/

theorem utf8First_lead (c size lo hi : Nat) (h : utf8First c = .lead size lo hi) :
    0x80 ≤ lo ∧ 2 ≤ size ∧ size ≤ 4 := by
  unfold utf8First at h
  split at h
  · cases h
  · split at h
    · cases h
    · simp only [LeadByte.lead.injEq] at h
      obtain ⟨h1, h2, _⟩ := h
      subst h1
      subst h2
      unfold seqLen acceptLo
      refine ⟨?_, ?_, ?_⟩ <;> (repeat' split) <;> omega

theorem utf8First_ascii (c : Nat) (h : c < 0x80) : utf8First c = .ascii := by
  simp [utf8First, h]

theorem inRange_low (b : UInt8) (lo hi : Nat) (hb : b.toNat < 0x80) (hlo : 0x80 ≤ lo) :
    inRange b lo hi = false := by
  unfold inRange
  simp
  omega

theorem DecodeRune_ascii (b : UInt8) (t : Bytes) (hb : b.toNat < 0x80) :
    DecodeRune (b :: t) = (b.toNat, 1) := by
  simp [DecodeRune, utf8First_ascii _ hb]

theorem decodeMulti_size (s0 : UInt8) (size lo hi : Nat) (t : Bytes) :
    1 ≤ (decodeMulti s0 size lo hi t).2 ∧ (decodeMulti s0 size lo hi t).2 ≤ t.length + 1 := by
  rcases t with _ | ⟨b1, _ | ⟨b2, _ | ⟨b3, t⟩⟩⟩ <;> simp only [decodeMulti] <;>
    (repeat' split) <;> simp

theorem DecodeRune_size (s : Bytes) (hs : s ≠ []) :
    1 ≤ (DecodeRune s).2 ∧ (DecodeRune s).2 ≤ s.length := by
  cases s with
  | nil => exact absurd rfl hs
  | cons b0 t =>
    cases hf : utf8First b0.toNat with
    | ascii => simp [DecodeRune, hf]
    | invalid => simp [DecodeRune, hf]
    | lead size lo hi =>
      simpa [DecodeRune, hf] using decodeMulti_size b0 size lo hi t

theorem decodeMulti_append_low (s0 : UInt8) (size lo hi : Nat) (t : Bytes) (c : UInt8)
    (u : Bytes) (hlo : 0x80 ≤ lo) (hc : c.toNat < 0x80) :
    decodeMulti s0 size lo hi (t ++ c :: u) = decodeMulti s0 size lo hi t := by
  have h1 := inRange_low c lo hi hc hlo
  have h2 := inRange_low c 0x80 0xBF hc (le_refl _)
  rcases t with _ | ⟨b1, _ | ⟨b2, _ | ⟨b3, t⟩⟩⟩ <;>
    simp only [decodeMulti, List.cons_append, List.nil_append, h1, h2, Bool.not_false, if_true]

theorem DecodeRune_append_low (t : Bytes) (c : UInt8) (u : Bytes) (ht : t ≠ [])
    (hc : c.toNat < 0x80) : DecodeRune (t ++ c :: u) = DecodeRune t := by
  cases t with
  | nil => exact absurd rfl ht
  | cons b0 t =>
    cases hf : utf8First b0.toNat with
    | ascii => simp [DecodeRune, hf]
    | invalid => simp [DecodeRune, hf]
    | lead size lo hi =>
      simpa [DecodeRune, hf] using
        decodeMulti_append_low b0 size lo hi t c u (utf8First_lead _ _ _ _ hf).1 hc

theorem DecodeLastRune_ascii (s : Bytes) (b : UInt8) (hb : b.toNat < 0x80) :
    DecodeLastRune (s ++ [b]) = (b.toNat, 1) := by
  simp [DecodeLastRune, hb]

theorem lastRuneStartIndex_lt (s : Bytes) (hs : s ≠ []) : lastRuneStartIndex s < s.length := by
  have hl : 0 < s.length := List.length_pos.2 hs
  unfold lastRuneStartIndex
  simp only
  split
  · rename_i h
    simp only [Bool.and_eq_true, decide_eq_true_eq] at h
    omega
  · split
    · rename_i h
      simp only [Bool.and_eq_true, decide_eq_true_eq] at h
      omega
    · split
      · rename_i h
        simp only [Bool.and_eq_true, decide_eq_true_eq] at h
        omega
      · omega

theorem DecodeLastRune_size (s : Bytes) (hs : s ≠ []) :
    1 ≤ (DecodeLastRune s).2 ∧ (DecodeLastRune s).2 ≤ s.length := by
  have hl : 0 < s.length := List.length_pos.2 hs
  unfold DecodeLastRune
  cases hg : s.getLast? with
  | none => simp at hg; exact absurd hg hs
  | some last =>
    simp only
    split
    · exact ⟨le_refl _, hl⟩
    · split
      · exact ⟨le_refl _, hl⟩
      · rename_i h
        have hlt := lastRuneStartIndex_lt s hs
        have hd : s.drop (lastRuneStartIndex s) ≠ [] := by
          intro h0
          have := congrArg List.length h0
          simp at this
          omega
        have := DecodeRune_size _ hd
        simp only [List.length_drop] at this
        omega

theorem lastIndexNotSpace_succ (fuel : Nat) (s : Bytes) (hs : s ≠ []) :
    lastIndexNotSpace (fuel + 1) s
      = if IsSpace (DecodeLastRune s).1 = true
        then lastIndexNotSpace fuel (s.take (s.length - (DecodeLastRune s).2))
        else some (s.length - (DecodeLastRune s).2) := by
  cases s with
  | nil => exact absurd rfl hs
  | cons b t => simp [lastIndexNotSpace]

theorem trimLeftLoop_succ (fuel : Nat) (s : Bytes) (hs : s ≠ []) :
    trimLeftLoop (fuel + 1) s
      = if IsSpace (DecodeRune s).1 = true then trimLeftLoop fuel (s.drop (DecodeRune s).2)
        else s := by
  cases s with
  | nil => exact absurd rfl hs
  | cons b t => simp [trimLeftLoop]

theorem trimLeftLoop_nil (fuel : Nat) : trimLeftLoop fuel [] = [] := by
  cases fuel <;> simp [trimLeftLoop]

theorem lastIndexNotSpace_lt (fuel : Nat) (s : Bytes) (i : Nat)
    (h : lastIndexNotSpace fuel s = some i) : i < s.length := by
  induction fuel generalizing s with
  | zero => simp [lastIndexNotSpace] at h
  | succ fuel ih =>
    cases s with
    | nil => simp [lastIndexNotSpace] at h
    | cons b t =>
      rw [lastIndexNotSpace_succ fuel _ (by simp)] at h
      have hsz := DecodeLastRune_size (b :: t) (by simp)
      split at h
      · have := ih _ h
        simp only [List.length_take] at this
        omega
      · simp only [Option.some.injEq] at h
        omega

theorem isSpace_cr : IsSpace (13 : UInt8).toNat = true := by decide

theorem isSpace_lf : IsSpace (10 : UInt8).toNat = true := by decide

theorem lastIndexNotSpace_crlf (fuel : Nat) (s : Bytes) :
    lastIndexNotSpace (fuel + 2) (s ++ [13, 10]) = lastIndexNotSpace fuel s := by
  have e1 : s ++ [13, 10] = (s ++ [13]) ++ [(10 : UInt8)] := by simp
  rw [lastIndexNotSpace_succ (fuel + 1) _ (by simp), e1,
    DecodeLastRune_ascii _ 10 (by decide)]
  simp only [isSpace_lf, if_true]
  have e2 : List.take ((s ++ [13] ++ [(10 : UInt8)]).length - 1) (s ++ [13] ++ [10]) = s ++ [13] := by
    have hl : (s ++ [13] ++ [(10 : UInt8)]).length - 1 = (s ++ [(13 : UInt8)]).length := by simp
    rw [hl, List.take_append_of_le_length (le_refl _), List.take_length]
  rw [e2, lastIndexNotSpace_succ fuel _ (by simp), DecodeLastRune_ascii _ 13 (by decide)]
  simp only [isSpace_cr, if_true]
  have e3 : List.take ((s ++ [(13 : UInt8)]).length - 1) (s ++ [13]) = s := by simp
  rw [e3]

theorem TrimRight_crlf (s : Bytes) : TrimRight (s ++ [13, 10]) = TrimRight s := by
  unfold TrimRight
  have hl : (s ++ [(13 : UInt8), 10]).length = s.length + 2 := by simp
  rw [hl, lastIndexNotSpace_crlf]
  cases hi : lastIndexNotSpace s.length s with
  | none => rfl
  | some i =>
    have hlt := lastIndexNotSpace_lt _ _ _ hi
    have hg : (s ++ [(13 : UInt8), 10]).getD i 0 = s.getD i 0 := by
      simp [List.getD_eq_getElem?_getD, List.getElem?_append_left hlt]
    have hdrop : (s ++ [(13 : UInt8), 10]).drop i = s.drop i ++ [13, 10] := by
      rw [List.drop_append_of_le_length (le_of_lt hlt)]
    have hne : s.drop i ≠ [] := by
      intro h0
      have := congrArg List.length h0
      simp at this
      omega
    have hdec : DecodeRune (s.drop i ++ [13, 10]) = DecodeRune (s.drop i) :=
      DecodeRune_append_low _ 13 [10] hne (by decide)
    have hsz := DecodeRune_size _ hne
    simp only [List.length_drop] at hsz
    simp only [hg, hdrop, hdec]
    split
    · rw [List.take_append_of_le_length (by omega)]
    · rw [List.take_append_of_le_length (by omega)]

theorem trimLeftLoop_crlf (fuel : Nat) (p : Bytes) (hf : p.length ≤ fuel) :
    trimLeftLoop (fuel + 2) (p ++ [13, 10])
      = if trimLeftLoop fuel p = [] then [] else trimLeftLoop fuel p ++ [13, 10] := by
  induction fuel generalizing p with
  | zero =>
    have hp : p = [] := List.length_eq_zero.1 (Nat.le_zero.1 hf)
    subst hp
    decide
  | succ fuel ih =>
    cases p with
    | nil =>
      rw [trimLeftLoop_nil]
      simp only [List.nil_append, if_true]
      rw [trimLeftLoop_succ _ _ (by simp), DecodeRune_ascii 13 [10] (by decide)]
      simp only [isSpace_cr, if_true, List.drop_succ_cons, List.drop_zero]
      rw [trimLeftLoop_succ _ _ (by simp), DecodeRune_ascii 10 [] (by decide)]
      simp only [isSpace_lf, if_true, List.drop_succ_cons, List.drop_zero]
      exact trimLeftLoop_nil _
    | cons b t =>
      have hne : b :: t ≠ [] := by simp
      have hdec : DecodeRune ((b :: t) ++ [13, 10]) = DecodeRune (b :: t) :=
        DecodeRune_append_low _ 13 [10] hne (by decide)
      have hsz := DecodeRune_size _ hne
      rw [trimLeftLoop_succ (fuel + 2) _ (by simp), hdec, trimLeftLoop_succ fuel _ hne]
      by_cases hsp : IsSpace (DecodeRune (b :: t)).1 = true
      · simp only [hsp, if_true]
        rw [List.drop_append_of_le_length hsz.2]
        apply ih
        simp only [List.length_drop, List.length_cons] at hf ⊢
        omega
      · simp only [hsp, if_false]
        simp

theorem TrimSpace_crlf (p : Bytes) : TrimSpace (p ++ [13, 10]) = TrimSpace p := by
  unfold TrimSpace TrimLeft
  have hl : (p ++ [(13 : UInt8), 10]).length = p.length + 2 := by simp
  rw [hl, trimLeftLoop_crlf _ _ (le_refl _)]
  split
  · rename_i h
    rw [h]
  · rw [TrimRight_crlf]

theorem TrimSpace_ascii_ends (a b : UInt8) (s : Bytes) (hhead : s.head? = some a)
    (hlast : s.getLast? = some b) (ha : a.toNat < 0x80) (hb : b.toNat < 0x80)
    (hsa : IsSpace a.toNat = false) (hsb : IsSpace b.toNat = false) : TrimSpace s = s := by
  have hleft : TrimLeft s = s := by
    cases s with
    | nil => simp at hhead
    | cons x t =>
      simp only [List.head?_cons, Option.some.injEq] at hhead
      subst hhead
      unfold TrimLeft
      rw [List.length_cons, trimLeftLoop_succ _ _ (by simp), DecodeRune_ascii _ _ ha]
      simp [hsa]
  unfold TrimSpace
  rw [hleft]
  obtain ⟨init, rfl⟩ : ∃ init, s = init ++ [b] := by
    have hne : s ≠ [] := by
      intro h0
      rw [h0] at hlast
      simp at hlast
    refine ⟨s.dropLast, ?_⟩
    have h1 := List.dropLast_append_getLast hne
    have h2 : s.getLast hne = b := by
      have := List.getLast?_eq_getLast s hne
      rw [this] at hlast
      exact Option.some.inj hlast
    rw [h2] at h1
    exact h1.symm
  unfold TrimRight
  have hl : (init ++ [b]).length = init.length + 1 := by simp
  rw [hl, lastIndexNotSpace_succ _ _ (by simp), DecodeLastRune_ascii _ _ hb]
  simp only [hsb, Bool.false_eq_true, if_false, hl, Nat.add_sub_cancel]
  have hg : (init ++ [b]).getD init.length 0 = b := by
    simp [List.getD_eq_getElem?_getD]
  rw [hg]
  have : ¬ (0x80 ≤ b.toNat) := by omega
  simp only [this, if_false]
  rw [← hl, List.take_length]

/-! ## Decimal numbers -/

theorem digit_toNat (d : Nat) (hd : d < 10) : ((0x30 + d).toUInt8).toNat = 0x30 + d := by
  have : 0x30 + d < 256 := by omega
  simp [Nat.toUInt8, UInt8.ofNat, UInt8.toNat, Nat.mod_eq_of_lt this]

theorem digit_isDigit (d : Nat) (hd : d < 10) : isDigit (0x30 + d).toUInt8 = true := by
  unfold isDigit
  rw [digit_toNat d hd]
  simp
  omega

theorem itoaLoop_acc (fuel n : Nat) (acc : Bytes) (h : n < fuel) :
    itoaLoop fuel n acc = itoaLoop fuel n [] ++ acc := by
  induction fuel generalizing n acc with
  | zero => omega
  | succ fuel ih =>
    unfold itoaLoop
    by_cases h10 : n < 10
    · simp [h10]
    · simp only [h10, if_false]
      have hlt : n / 10 < fuel := by omega
      rw [ih (n / 10) _ hlt, ih (n / 10) [_] hlt]
      simp

theorem digitsValue_append_one (s : Bytes) (b : UInt8) :
    digitsValue (s ++ [b]) = digitsValue s * 10 + (b.toNat - 0x30) := by
  simp [digitsValue, List.foldl_append]

theorem itoaLoop_spec (fuel n : Nat) (h : n < fuel) :
    itoaLoop fuel n [] ≠ [] ∧ (∀ b ∈ itoaLoop fuel n [], isDigit b = true)
      ∧ digitsValue (itoaLoop fuel n []) = n := by
  induction fuel generalizing n with
  | zero => omega
  | succ fuel ih =>
    unfold itoaLoop
    by_cases h10 : n < 10
    · simp only [h10, if_true]
      refine ⟨by simp, ?_, ?_⟩
      · intro b hb
        simp only [List.mem_singleton] at hb
        rw [hb]
        exact digit_isDigit n h10
      · simp [digitsValue, digit_toNat n h10]
    · simp only [h10, if_false]
      have hlt : n / 10 < fuel := by omega
      obtain ⟨h1, h2, h3⟩ := ih (n / 10) hlt
      have hm : n % 10 < 10 := Nat.mod_lt _ (by decide)
      rw [itoaLoop_acc fuel (n / 10) _ hlt]
      refine ⟨by simp, ?_, ?_⟩
      · intro b hb
        rcases List.mem_append.1 hb with hb | hb
        · exact h2 b hb
        · simp only [List.mem_singleton] at hb
          rw [hb]
          exact digit_isDigit _ hm
      · rw [digitsValue_append_one, h3, digit_toNat _ hm]
        omega

theorem itoa_ne_nil (n : Nat) : itoa n ≠ [] := (itoaLoop_spec (n + 1) n (by omega)).1

theorem itoa_digits (n : Nat) : ∀ b ∈ itoa n, isDigit b = true :=
  (itoaLoop_spec (n + 1) n (by omega)).2.1

theorem digitsValue_itoa (n : Nat) : digitsValue (itoa n) = n :=
  (itoaLoop_spec (n + 1) n (by omega)).2.2

theorem itoa_injective (m n : Nat) (h : itoa m = itoa n) : m = n := by
  have := congrArg digitsValue h
  rwa [digitsValue_itoa, digitsValue_itoa] at this

theorem Atoi_itoa (n : Nat) : Atoi (itoa n) = if n < 2 ^ 63 then some n else none := by
  unfold Atoi
  have h1 : (itoa n).isEmpty = false := by
    cases h : itoa n with
    | nil => exact absurd h (itoa_ne_nil n)
    | cons b t => rfl
  have h2 : (itoa n).all isDigit = true := (all_isDigit_iff _).2 (itoa_digits n)
  simp [h1, h2, digitsValue_itoa]

/-! ## Tokens of the protocol -/

theorem isDigit_props (b : UInt8) (h : isDigit b = true) :
    b.toNat < 0x80 ∧ IsSpace b.toNat = false ∧ asciiUpper b = b ∧ b ≠ ASCII_LF ∧ b ≠ 0x0D := by
  unfold isDigit at h
  simp only [Bool.and_eq_true, decide_eq_true_eq] at h
  refine ⟨by omega, ?_, ?_, ?_, ?_⟩
  · unfold IsSpace
    simp
    omega
  · unfold asciiUpper
    have : ¬ (0x61 ≤ b.toNat) := by omega
    simp [this]
  · rintro rfl
    revert h
    decide
  · rintro rfl
    revert h
    decide

theorem ToUpper_ascii (f : Bytes → Bytes) (s : Bytes) (h : ∀ b ∈ s, b.toNat < 0x80) :
    ToUpper f s = s.map asciiUpper := by
  unfold ToUpper
  have : s.all (fun b => decide (b.toNat < 0x80)) = true := by
    simpa [List.all_eq_true] using h
  simp [this]

theorem ToUpper_dollar_digits (f : Bytes → Bytes) (ds : Bytes)
    (hd : ∀ b ∈ ds, isDigit b = true) : ToUpper f (0x24 :: ds) = 0x24 :: ds := by
  rw [ToUpper_ascii]
  · simp only [List.map_cons, List.cons.injEq]
    refine ⟨by decide, ?_⟩
    have : ∀ l : Bytes, (∀ b ∈ l, isDigit b = true) → l.map asciiUpper = l := by
      intro l
      induction l with
      | nil => intro _; rfl
      | cons x l ih =>
        intro hl
        simp only [List.map_cons, List.cons.injEq]
        exact ⟨(isDigit_props x (hl x (List.mem_cons_self _ _))).2.2.1,
          ih (fun b hb => hl b (List.mem_cons_of_mem _ hb))⟩
    exact this ds hd
  · intro b hb
    rcases List.mem_cons.1 hb with rfl | hb
    · decide
    · exact (isDigit_props b (hd b hb)).1

theorem TrimSpace_dollar_digits (ds : Bytes) (hd : ∀ b ∈ ds, isDigit b = true) (hne : ds ≠ []) :
    TrimSpace (0x24 :: ds) = 0x24 :: ds := by
  obtain ⟨b, hb⟩ : ∃ b, (0x24 :: ds).getLast? = some b ∧ b ∈ ds := by
    refine ⟨ds.getLast hne, ?_, List.getLast_mem hne⟩
    cases ds with
    | nil => exact absurd rfl hne
    | cons x t => simp [List.getLast?_eq_getLast]
  have hp := isDigit_props b (hd b hb.2)
  exact TrimSpace_ascii_ends 0x24 b _ rfl hb.1 (by decide) hp.1 (by decide) hp.2.1

theorem dollarIntAt_digits (ds rest : Bytes) (hd : ∀ b ∈ ds, isDigit b = true) (hne : ds ≠ []) :
    dollarIntAt (0x24 :: (ds ++ 0x0D :: rest)) = some ds := by
  have hcr : isDigit 0x0D = false := by decide
  unfold dollarIntAt
  simp only [if_true]
  rw [dropWhile_digits_append ds rest _ hd hcr, takeWhile_digits_append ds rest _ hd hcr]
  cases ds with
  | nil => exact absurd rfl hne
  | cons x t => simp

theorem DOLLAR_INT_REGEXP_header (n : Nat) :
    (DOLLAR_INT_REGEXP (0x24 :: (itoa n ++ [0x0D, 0x0A]))).get? 1 = some (itoa n) := by
  have := dollarIntAt_digits (itoa n) [0x0A] (itoa_digits n) (itoa_ne_nil n)
  unfold DOLLAR_INT_REGEXP
  simp only [this]
  rfl

/-! ## The steps of the command recognizer -/

theorem expect_run (rt : Runtime) (e : Bytes) (w : World) :
    expect rt e w =
      if (w.reader.ReadBytes ASCII_LF).2.1 = true then
        .halt (.fatal 201) ⟨(w.reader.ReadBytes ASCII_LF).2.2, w.trace⟩
      else if ToUpper rt.mapToUpper (TrimSpace (w.reader.ReadBytes ASCII_LF).1)
          ≠ ToUpper rt.mapToUpper e then
        .halt (.fatal 205) ⟨(w.reader.ReadBytes ASCII_LF).2.2, w.trace⟩
      else .ok () ⟨(w.reader.ReadBytes ASCII_LF).2.2, w.trace⟩ := by
  unfold expect
  simp only [bind, Go.bind, readerReadBytes, logFatal, pure, Go.pure]
  split_ifs <;> rfl

theorem expect_ok (rt : Runtime) (e line rest : Bytes) (w : World)
    (hs : splitAfter ASCII_LF w.reader.stream = some (line, rest))
    (hm : ToUpper rt.mapToUpper (TrimSpace line) = ToUpper rt.mapToUpper e) :
    ∃ r1, expect rt e w = .ok () ⟨r1, w.trace⟩ ∧ r1.stream = rest := by
  obtain ⟨r1, h1, h2⟩ := ReadBytes_line w.reader ASCII_LF line rest hs
  exact ⟨r1, by simp [expect_run, h1, hm], h2⟩

theorem expect_mismatch (rt : Runtime) (e line rest : Bytes) (w : World)
    (hs : splitAfter ASCII_LF w.reader.stream = some (line, rest))
    (hm : ToUpper rt.mapToUpper (TrimSpace line) ≠ ToUpper rt.mapToUpper e) :
    ∃ r1, expect rt e w = .halt (.fatal 205) ⟨r1, w.trace⟩ := by
  obtain ⟨r1, h1, _⟩ := ReadBytes_line w.reader ASCII_LF line rest hs
  exact ⟨r1, by simp [expect_run, h1, hm]⟩

theorem expect_eof (rt : Runtime) (e : Bytes) (w : World)
    (hs : splitAfter ASCII_LF w.reader.stream = none) :
    ∃ r1, expect rt e w = .halt (.fatal 201) ⟨r1, w.trace⟩ := by
  obtain ⟨r1, h1, _⟩ := ReadBytes_eof w.reader ASCII_LF hs
  exact ⟨r1, by simp [expect_run, h1]⟩

/-- A token `tok` that holds no LF, followed by CR LF, is read as one line and
passes `expect e` when `tok`, trimmed and in upper case, is `e` in upper case. -/
theorem expect_token (rt : Runtime) (e tok rest : Bytes) (w : World)
    (hs : w.reader.stream = tok ++ CRLF ++ rest) (hlf : ASCII_LF ∉ tok)
    (hm : ToUpper rt.mapToUpper (TrimSpace tok) = ToUpper rt.mapToUpper e) :
    ∃ r1, expect rt e w = .ok () ⟨r1, w.trace⟩ ∧ r1.stream = rest := by
  have hline : splitAfter ASCII_LF w.reader.stream = some (tok ++ CRLF, rest) := by
    rw [hs]
    have h1 : ASCII_LF ∉ tok ++ [ASCII_CR] := by
      simp only [List.mem_append, List.mem_singleton, not_or]
      exact ⟨hlf, by decide⟩
    have := splitAfter_line ASCII_LF (tok ++ [ASCII_CR]) rest h1
    simpa [CRLF, List.append_assoc] using this
  apply expect_ok rt e _ rest w hline
  rw [show tok ++ CRLF = tok ++ [13, 10] from rfl, TrimSpace_crlf]
  exact hm

theorem expect_token_mismatch (rt : Runtime) (e tok rest : Bytes) (w : World)
    (hs : w.reader.stream = tok ++ CRLF ++ rest) (hlf : ASCII_LF ∉ tok)
    (hm : ToUpper rt.mapToUpper (TrimSpace tok) ≠ ToUpper rt.mapToUpper e) :
    ∃ r1, expect rt e w = .halt (.fatal 205) ⟨r1, w.trace⟩ := by
  have hline : splitAfter ASCII_LF w.reader.stream = some (tok ++ CRLF, rest) := by
    rw [hs]
    have h1 : ASCII_LF ∉ tok ++ [ASCII_CR] := by
      simp only [List.mem_append, List.mem_singleton, not_or]
      exact ⟨hlf, by decide⟩
    have := splitAfter_line ASCII_LF (tok ++ [ASCII_CR]) rest h1
    simpa [CRLF, List.append_assoc] using this
  apply expect_mismatch rt e _ rest w hline
  rw [show tok ++ CRLF = tok ++ [13, 10] from rfl, TrimSpace_crlf]
  exact hm

/-- A constant token of the protocol passes its own `expect`. -/
theorem expect_const (rt : Runtime) (tok rest : Bytes) (w : World)
    (hs : w.reader.stream = tok ++ CRLF ++ rest) (hlf : ASCII_LF ∉ tok)
    (ht : TrimSpace tok = tok) :
    ∃ r1, expect rt tok w = .ok () ⟨r1, w.trace⟩ ∧ r1.stream = rest :=
  expect_token rt tok tok rest w hs hlf (by rw [ht])

theorem lf_not_mem_dollar_itoa (n : Nat) : ASCII_LF ∉ ascii "$" ++ itoa n := by
  intro h
  rcases List.mem_append.1 h with h | h
  · revert h
    decide
  · exact (isDigit_props _ (itoa_digits n _ h)).2.2.2.1 rfl

theorem TrimSpace_dollar_itoa (n : Nat) : TrimSpace (ascii "$" ++ itoa n) = ascii "$" ++ itoa n :=
  TrimSpace_dollar_digits (itoa n) (itoa_digits n) (itoa_ne_nil n)

theorem ToUpper_dollar_itoa (f : Bytes → Bytes) (n : Nat) :
    ToUpper f (ascii "$" ++ itoa n) = ascii "$" ++ itoa n :=
  ToUpper_dollar_digits f (itoa n) (itoa_digits n)

/-- The line `$<m>` passes `expect "$<n>"` exactly when `m = n`. -/
theorem header_match_iff (f : Bytes → Bytes) (m n : Nat) :
    ToUpper f (TrimSpace (ascii "$" ++ itoa m)) = ToUpper f (ascii "$" ++ itoa n) ↔ m = n := by
  rw [TrimSpace_dollar_itoa, ToUpper_dollar_itoa, ToUpper_dollar_itoa]
  constructor
  · intro h
    exact itoa_injective m n (List.append_cancel_left h)
  · rintro rfl
    rfl

theorem expectDollarInt_run (w : World) :
    expectDollarInt w =
      if (w.reader.ReadBytes ASCII_LF).2.1 = true then
        .halt (.fatal 212) ⟨(w.reader.ReadBytes ASCII_LF).2.2, w.trace⟩
      else
        match (DOLLAR_INT_REGEXP (w.reader.ReadBytes ASCII_LF).1).get? 1 with
        | none => .halt (.panic 215) ⟨(w.reader.ReadBytes ASCII_LF).2.2, w.trace⟩
        | some group =>
          match Atoi group with
          | none => .halt (.fatal 219) ⟨(w.reader.ReadBytes ASCII_LF).2.2, w.trace⟩
          | some i => .ok i ⟨(w.reader.ReadBytes ASCII_LF).2.2, w.trace⟩ := by
  unfold expectDollarInt
  simp only [bind, Go.bind, readerReadBytes, logFatal, goPanic, pure, Go.pure]
  split_ifs with h1
  · rfl
  · cases (DOLLAR_INT_REGEXP (w.reader.ReadBytes ASCII_LF).1).get? 1 with
    | none => rfl
    | some g =>
      dsimp only
      cases Atoi g <;> rfl

/-- The header `$<n>` CR LF: `expectDollarInt` returns `n`, or ends the process
when `n` does not fit an `int`. -/
theorem expectDollarInt_header (n : Nat) (rest : Bytes) (w : World)
    (hs : w.reader.stream = ascii "$" ++ itoa n ++ CRLF ++ rest) :
    ∃ r1, r1.stream = rest ∧
      expectDollarInt w = if n < 2 ^ 63 then .ok n ⟨r1, w.trace⟩
        else .halt (.fatal 219) ⟨r1, w.trace⟩ := by
  have hline : splitAfter ASCII_LF w.reader.stream = some (ascii "$" ++ itoa n ++ CRLF, rest) := by
    rw [hs]
    have h1 : ASCII_LF ∉ ascii "$" ++ itoa n ++ [ASCII_CR] := by
      intro h
      rcases List.mem_append.1 h with h | h
      · exact lf_not_mem_dollar_itoa n h
      · revert h
        decide
    have := splitAfter_line ASCII_LF (ascii "$" ++ itoa n ++ [ASCII_CR]) rest h1
    simpa [CRLF, List.append_assoc] using this
  obtain ⟨r1, h1, h2⟩ := ReadBytes_line w.reader ASCII_LF _ rest hline
  refine ⟨r1, h2, ?_⟩
  have hre : (DOLLAR_INT_REGEXP (ascii "$" ++ itoa n ++ CRLF)).get? 1 = some (itoa n) := by
    have := DOLLAR_INT_REGEXP_header n
    simpa [CRLF, ASCII_CR, ASCII_LF, ascii] using this
  rw [expectDollarInt_run, h1]
  simp only [Bool.false_eq_true, if_false, hre, Atoi_itoa]
  split_ifs <;> rfl

/-! ## Pieces that record no event -/

theorem TraceStable.bind {α β : Type} {m : Go α} {f : α → Go β} (hm : TraceStable m)
    (hf : ∀ a, TraceStable (f a)) : TraceStable (m >>= f) := by
  intro w
  rw [Go.bind_run]
  have h1 := hm w
  cases hr : m w with
  | ok a w1 =>
    rw [hr] at h1
    simp only [Res.world] at h1
    simp only
    rw [hf a w1, h1]
  | halt h w1 =>
    rw [hr] at h1
    exact h1

theorem TraceStable.pure {α : Type} (a : α) : TraceStable (Pure.pure a : Go α) := fun _ => rfl

theorem TraceStable.logFatal {α : Type} (n : Nat) : TraceStable (logFatal n : Go α) :=
  fun _ => rfl

theorem TraceStable.goPanic {α : Type} (n : Nat) : TraceStable (goPanic n : Go α) :=
  fun _ => rfl

theorem TraceStable.ite {α : Type} (c : Prop) [Decidable c] {a b : Go α} (ha : TraceStable a)
    (hb : TraceStable b) : TraceStable (if c then a else b) := by
  split
  · exact ha
  · exact hb

theorem TraceStable.readerReadBytes (d : UInt8) : TraceStable (readerReadBytes d) := fun _ => rfl

theorem TraceStable.readerRead (n : Nat) : TraceStable (readerRead n) := fun _ => rfl

theorem TraceStable.readerReadByte : TraceStable readerReadByte := fun _ => rfl

theorem TraceStable.expect (rt : Runtime) (e : Bytes) : TraceStable (expect rt e) := by
  intro w
  rw [expect_run]
  split_ifs <;> rfl

theorem TraceStable.expectDollarInt : TraceStable expectDollarInt := by
  intro w
  rw [expectDollarInt_run]
  split_ifs
  · rfl
  · cases (DOLLAR_INT_REGEXP (w.reader.ReadBytes ASCII_LF).1).get? 1 with
    | none => rfl
    | some g =>
      dsimp only
      cases Atoi g <;> rfl

/-- The payload part of `awaitLpushCommand_frame`, after the header `$<n>` has
been read: what `Read`, the two `ReadByte` and their checks do. -/
theorem payload_run (n : Nat) (w : World) :
    awaitLpushCommand_payload n w
    = if maxAlloc < n then .halt (.panic 64) w
      else if (w.reader.Read n).2.1 = true then
        .halt (.fatal 67) ⟨(w.reader.Read n).2.2, w.trace⟩
      else if (w.reader.Read n).1.length ≠ n then
        .halt (.fatal 70) ⟨(w.reader.Read n).2.2, w.trace⟩
      else if (w.reader.Read n).2.2.ReadByte.1 ≠ ASCII_CR then
        .halt (.fatal 76) ⟨(w.reader.Read n).2.2.ReadByte.2.2, w.trace⟩
      else if (w.reader.Read n).2.2.ReadByte.2.2.ReadByte.1 ≠ ASCII_LF then
        .halt (.fatal 80) ⟨(w.reader.Read n).2.2.ReadByte.2.2.ReadByte.2.2, w.trace⟩
      else .ok (w.reader.Read n).1 ⟨(w.reader.Read n).2.2.ReadByte.2.2.ReadByte.2.2, w.trace⟩ := by
  unfold awaitLpushCommand_payload
  by_cases c0 : maxAlloc < n
  · simp [bind, Go.bind, goPanic, c0]
  · by_cases c1 : (w.reader.Read n).2.1 = true
    · simp [bind, Go.bind, readerRead, logFatal, pure, Go.pure, c0, c1]
    · by_cases c2 : (w.reader.Read n).1.length ≠ n
      · simp [bind, Go.bind, readerRead, logFatal, pure, Go.pure, c0, c1, c2]
      · by_cases c3 : (w.reader.Read n).2.2.ReadByte.1 ≠ ASCII_CR
        · simp [bind, Go.bind, readerRead, readerReadByte, logFatal, pure, Go.pure, c0, c1, c2,
            c3]
        · have c3e : (w.reader.Read n).2.2.ReadByte.1 = ASCII_CR := not_not.mp c3
          by_cases c4 : (w.reader.Read n).2.2.ReadByte.2.2.ReadByte.1 ≠ ASCII_LF
          · simp [bind, Go.bind, readerRead, readerReadByte, logFatal, pure, Go.pure, c0, c1,
              c2, c3e, c4]
          · have c4e : (w.reader.Read n).2.2.ReadByte.2.2.ReadByte.1 = ASCII_LF :=
              not_not.mp c4
            simp [bind, Go.bind, readerRead, readerReadByte, logFatal, pure, Go.pure, c0, c1,
              c2, c3e, c4e]

theorem TraceStable.payload (n : Nat) : TraceStable (awaitLpushCommand_payload n) := by
  intro w
  rw [payload_run]
  split_ifs <;> rfl

theorem TraceStable.frame (rt : Runtime) : TraceStable (awaitLpushCommand_frame rt) := by
  unfold awaitLpushCommand_frame
  refine TraceStable.bind (TraceStable.expect _ _) (fun _ => ?_)
  refine TraceStable.bind (TraceStable.expect _ _) (fun _ => ?_)
  refine TraceStable.bind (TraceStable.expect _ _) (fun _ => ?_)
  refine TraceStable.bind (TraceStable.expect _ _) (fun _ => ?_)
  refine TraceStable.bind (TraceStable.expect _ _) (fun _ => ?_)
  exact TraceStable.bind TraceStable.expectDollarInt (fun n => TraceStable.payload n)

/-- What an accepted payload looks like: when the stream holds `s` after the
header `$<n>`, the payload part returns only if `s` has `n` bytes followed by
CR LF, and then it returns exactly those `n` bytes. -/
theorem payload_ok_inv (n : Nat) (w w1 : World) (s logJson : Bytes)
    (hs : w.reader.stream = s) (hok : awaitLpushCommand_payload n w = .ok logJson w1) :
    logJson = s.take n ∧ s.drop n = ASCII_CR :: ASCII_LF :: w1.reader.stream
      ∧ w1.trace = w.trace := by
  rw [payload_run] at hok
  obtain ⟨h1, h2, _⟩ := Read_spec w.reader n
  rw [hs] at h1
  split_ifs at hok with c0 c1 c2 c3 c4
  simp only [Res.ok.injEq] at hok
  obtain ⟨hj, hw⟩ := hok
  simp only [ne_eq, Decidable.not_not] at c2 c3 c4
  have htake : s.take n = (w.reader.Read n).1 := by
    rw [← h1]
    exact List.take_left' c2
  have hdrop : s.drop n = (w.reader.Read n).2.2.stream := by
    rw [← h1]
    exact List.drop_left' c2
  refine ⟨by rw [← hj, htake], ?_, by rw [← hw]⟩
  rw [hdrop, ← hw]
  simp only
  cases hst : (w.reader.Read n).2.2.stream with
  | nil =>
    have := (ReadByte_nil _ hst).1
    rw [this] at c3
    exact absurd c3 (by decide)
  | cons b t =>
    obtain ⟨hb, ht⟩ := ReadByte_cons _ b t hst
    rw [hb] at c3
    cases t with
    | nil =>
      have := (ReadByte_nil _ ht).1
      rw [this] at c4
      exact absurd c4 (by decide)
    | cons c u =>
      obtain ⟨hc, hu⟩ := ReadByte_cons _ c u ht
      rw [hc] at c4
      rw [c3, c4, hu]

/-! ## The two commands -/

theorem auth_words (rt : Runtime) (w : World) (x : Bytes)
    (hs : w.reader.stream = ascii "*2\r\n$4\r\nAUTH\r\n" ++ x) :
    ∃ r3, r3.stream = x ∧ ∀ (α : Type) (k : Go α),
      (expect rt (ascii "*2") >>= fun _ => expect rt (ascii "$4") >>= fun _ =>
        expect rt (ascii "AUTH") >>= fun _ => k) w = k ⟨r3, w.trace⟩ := by
  have h1 : w.reader.stream
      = ascii "*2" ++ CRLF ++ (ascii "$4" ++ CRLF ++ (ascii "AUTH" ++ CRLF ++ x)) := by
    rw [hs]
    rfl
  obtain ⟨r1, e1, s1⟩ := expect_const rt (ascii "*2") _ w h1 (by decide) (by decide)
  obtain ⟨r2, e2, s2⟩ := expect_const rt (ascii "$4") _ ⟨r1, w.trace⟩ s1 (by decide) (by decide)
  obtain ⟨r3, e3, s3⟩ := expect_const rt (ascii "AUTH") _ ⟨r2, w.trace⟩ s2 (by decide) (by decide)
  refine ⟨r3, s3, fun α k => ?_⟩
  rw [Go.bind_ok e1, Go.bind_ok e2, Go.bind_ok e3]

theorem lpush_words (rt : Runtime) (w : World) (x : Bytes)
    (hs : w.reader.stream = ascii "*3\r\n$5\r\nLPUSH\r\n$9\r\nbelugacdn\r\n" ++ x) :
    ∃ r5, r5.stream = x ∧ ∀ (α : Type) (k : Go α),
      (expect rt (ascii "*3") >>= fun _ => expect rt (ascii "$5") >>= fun _ =>
        expect rt (ascii "LPUSH") >>= fun _ =>
        expect rt (ascii "$" ++ itoa REDIS_KEY_NAME.length) >>= fun _ =>
        expect rt REDIS_KEY_NAME >>= fun _ => k) w = k ⟨r5, w.trace⟩ := by
  have h1 : w.reader.stream
      = ascii "*3" ++ CRLF ++ (ascii "$5" ++ CRLF ++ (ascii "LPUSH" ++ CRLF
          ++ (ascii "$" ++ itoa REDIS_KEY_NAME.length ++ CRLF ++ (REDIS_KEY_NAME ++ CRLF ++ x)))) := by
    rw [hs]
    have : itoa REDIS_KEY_NAME.length = ascii "9" := by decide
    rw [this]
    rfl
  obtain ⟨r1, e1, s1⟩ := expect_const rt (ascii "*3") _ w h1 (by decide) (by decide)
  obtain ⟨r2, e2, s2⟩ := expect_const rt (ascii "$5") _ ⟨r1, w.trace⟩ s1 (by decide) (by decide)
  obtain ⟨r3, e3, s3⟩ := expect_const rt (ascii "LPUSH") _ ⟨r2, w.trace⟩ s2 (by decide) (by decide)
  obtain ⟨r4, e4, s4⟩ := expect_const rt (ascii "$" ++ itoa REDIS_KEY_NAME.length) _
    ⟨r3, w.trace⟩ s3 (lf_not_mem_dollar_itoa _) (TrimSpace_dollar_itoa _)
  obtain ⟨r5, e5, s5⟩ := expect_const rt REDIS_KEY_NAME _ ⟨r4, w.trace⟩ s4 (by decide) (by decide)
  refine ⟨r5, s5, fun α k => ?_⟩
  rw [Go.bind_ok e1, Go.bind_ok e2, Go.bind_ok e3, Go.bind_ok e4, Go.bind_ok e5]

theorem awaitAuthCommand_eq (rt : Runtime) (p : Bytes) :
    awaitAuthCommand rt p
      = (expect rt (ascii "*2") >>= fun _ => expect rt (ascii "$4") >>= fun _ =>
          expect rt (ascii "AUTH") >>= fun _ =>
          (expect rt (ascii "$" ++ itoa p.length) >>= fun _ => expect rt p >>= fun _ =>
            connWrite (ascii "+OK\r\n"))) := rfl

theorem awaitLpushCommand_frame_eq (rt : Runtime) :
    awaitLpushCommand_frame rt
      = (expect rt (ascii "*3") >>= fun _ => expect rt (ascii "$5") >>= fun _ =>
          expect rt (ascii "LPUSH") >>= fun _ =>
          expect rt (ascii "$" ++ itoa REDIS_KEY_NAME.length) >>= fun _ =>
          expect rt REDIS_KEY_NAME >>= fun _ =>
          (expectDollarInt >>= fun n => awaitLpushCommand_payload n)) := rfl

theorem firstLine_split (q rest : Bytes) :
    ∃ tail, splitAfter ASCII_LF (q ++ CRLF ++ rest) = some (firstLine (q ++ CRLF), tail) := by
  cases hq : splitAfter ASCII_LF (q ++ CRLF) with
  | none =>
    have := (splitAfter_eq_none_iff _ _).1 hq
    exact absurd (by simp [CRLF]) this
  | some p =>
    obtain ⟨l, r⟩ := p
    refine ⟨r ++ rest, ?_⟩
    rw [splitAfter_append_some _ _ rest l r hq]
    simp [firstLine, hq]

theorem firstLine_no_lf (q : Bytes) (hq : ASCII_LF ∉ q) : firstLine (q ++ CRLF) = q ++ CRLF := by
  have h1 : ASCII_LF ∉ q ++ [ASCII_CR] := by
    simp only [List.mem_append, List.mem_singleton, not_or]
    exact ⟨hq, by decide⟩
  have := splitAfter_line ASCII_LF (q ++ [ASCII_CR]) [] h1
  have e : q ++ CRLF = q ++ [ASCII_CR] ++ ASCII_LF :: [] := by simp [CRLF]
  rw [firstLine, e, this]

/-- Acceptance by `awaitAuthCommand`: the frame that carries `q` (followed by
any bytes `rest`) is accepted when `q` is as long as the password and the first
line of `q` CR LF, trimmed and in upper case, is the password in upper case. -/
theorem auth_accept (rt : Runtime) (p q rest : Bytes) (w : World)
    (hs : w.reader.stream = authFrame q ++ rest) (hlen : q.length = p.length)
    (hm : ToUpper rt.mapToUpper (TrimSpace (firstLine (q ++ CRLF))) = ToUpper rt.mapToUpper p) :
    ∃ r1, awaitAuthCommand rt p w = .ok () ⟨r1, w.trace ++ [.wrote (ascii "+OK\r\n")]⟩
      ∧ firstLine (q ++ CRLF) ++ r1.stream = q ++ CRLF ++ rest := by
  have hs1 : w.reader.stream = ascii "*2\r\n$4\r\nAUTH\r\n"
      ++ (ascii "$" ++ itoa q.length ++ CRLF ++ (q ++ CRLF ++ rest)) := by
    rw [hs]
    simp [authFrame, List.append_assoc]
  obtain ⟨r3, s3, hk⟩ := auth_words rt w _ hs1
  rw [awaitAuthCommand_eq, hk]
  obtain ⟨r4, e4, s4⟩ := expect_token rt (ascii "$" ++ itoa p.length) (ascii "$" ++ itoa q.length)
    _ ⟨r3, w.trace⟩ s3 (lf_not_mem_dollar_itoa _) ((header_match_iff _ _ _).2 hlen)
  obtain ⟨tail, hsplit⟩ := firstLine_split q rest
  obtain ⟨r5, e5, s5⟩ := expect_ok rt p _ tail ⟨r4, w.trace⟩ (by rw [s4]; exact hsplit) hm
  rw [Go.bind_ok e4, Go.bind_ok e5]
  exact ⟨r5, rfl, by rw [s5]; exact (splitAfter_some_eq _ _ _ _ hsplit).symm⟩

/-- Rejection by `awaitAuthCommand`: with another length, or another first line
once trimmed and in upper case, the fourth or fifth `expect` ends the process
and nothing is written. -/
theorem auth_reject (rt : Runtime) (p q rest : Bytes) (w : World)
    (hs : w.reader.stream = authFrame q ++ rest)
    (hdiff : q.length ≠ p.length
      ∨ ToUpper rt.mapToUpper (TrimSpace (firstLine (q ++ CRLF))) ≠ ToUpper rt.mapToUpper p) :
    ∃ r1, awaitAuthCommand rt p w = .halt (.fatal 205) ⟨r1, w.trace⟩ := by
  have hs1 : w.reader.stream = ascii "*2\r\n$4\r\nAUTH\r\n"
      ++ (ascii "$" ++ itoa q.length ++ CRLF ++ (q ++ CRLF ++ rest)) := by
    rw [hs]
    simp [authFrame, List.append_assoc]
  obtain ⟨r3, s3, hk⟩ := auth_words rt w _ hs1
  rw [awaitAuthCommand_eq, hk]
  by_cases hlen : q.length = p.length
  · have hm : ToUpper rt.mapToUpper (TrimSpace (firstLine (q ++ CRLF)))
        ≠ ToUpper rt.mapToUpper p := by
      rcases hdiff with h | h
      · exact absurd hlen h
      · exact h
    obtain ⟨r4, e4, s4⟩ := expect_token rt (ascii "$" ++ itoa p.length)
      (ascii "$" ++ itoa q.length) _ ⟨r3, w.trace⟩ s3 (lf_not_mem_dollar_itoa _)
      ((header_match_iff _ _ _).2 hlen)
    obtain ⟨tail, hsplit⟩ := firstLine_split q rest
    obtain ⟨r5, e5⟩ := expect_mismatch rt p _ tail ⟨r4, w.trace⟩ (by rw [s4]; exact hsplit) hm
    rw [Go.bind_ok e4, Go.bind_halt e5]
    exact ⟨r5, rfl⟩
  · obtain ⟨r4, e4⟩ := expect_token_mismatch rt (ascii "$" ++ itoa p.length)
      (ascii "$" ++ itoa q.length) _ ⟨r3, w.trace⟩ s3 (lf_not_mem_dollar_itoa _)
      (fun h => hlen ((header_match_iff _ _ _).1 h))
    rw [Go.bind_halt e4]
    exact ⟨r4, rfl⟩

/-- What an accepted push frame looks like: when the stream holds the push
frame that declares `n` and carries `p`, followed by `rest`, the framing part
returns only if `n` bytes of `p ++ CRLF ++ rest` are followed by CR LF, and it
returns exactly those `n` bytes. -/
theorem frame_ok_inv (rt : Runtime) (n : Nat) (p rest logJson : Bytes) (w w1 : World)
    (hs : w.reader.stream = pushFrame n p ++ rest)
    (hok : awaitLpushCommand_frame rt w = .ok logJson w1) :
    logJson = (p ++ CRLF ++ rest).take n
      ∧ (p ++ CRLF ++ rest).drop n = ASCII_CR :: ASCII_LF :: w1.reader.stream
      ∧ w1.trace = w.trace := by
  have hs1 : w.reader.stream = ascii "*3\r\n$5\r\nLPUSH\r\n$9\r\nbelugacdn\r\n"
      ++ (ascii "$" ++ itoa n ++ CRLF ++ (p ++ CRLF ++ rest)) := by
    rw [hs]
    simp [pushFrame, List.append_assoc]
  obtain ⟨r5, s5, hk⟩ := lpush_words rt w _ hs1
  rw [awaitLpushCommand_frame_eq, hk] at hok
  obtain ⟨r6, s6, e6⟩ := expectDollarInt_header n (p ++ CRLF ++ rest) ⟨r5, w.trace⟩ s5
  by_cases hn : n < 2 ^ 63
  · rw [if_pos hn] at e6
    rw [Go.bind_ok e6] at hok
    exact payload_ok_inv n ⟨r6, w.trace⟩ w1 _ logJson s6 hok
  · rw [if_neg hn] at e6
    rw [Go.bind_halt e6] at hok
    cases hok

theorem awaitLpushCommand_eq (rt : Runtime) (client : HttpClient) (config : Config) :
    awaitLpushCommand rt client config
      = (awaitLpushCommand_frame rt >>= fun logJson => parseLogJson logJson >>= fun keyValues =>
          insertIntoInfluxDb rt keyValues client config >>= fun _ =>
          connWrite (ascii ":1\r\n")) := rfl

/-- A frame that the framing part rejects: `awaitLpushCommand` ends there and
records no event. -/
theorem lpush_halt_of_frame (rt : Runtime) (client : HttpClient) (config : Config) (w : World)
    (hno : ∀ logJson w1, awaitLpushCommand_frame rt w ≠ .ok logJson w1) :
    ∃ h r1, awaitLpushCommand rt client config w = .halt h ⟨r1, w.trace⟩ := by
  have hst := TraceStable.frame rt w
  cases hf : awaitLpushCommand_frame rt w with
  | ok logJson w1 => exact absurd hf (hno logJson w1)
  | halt h w1 =>
    rw [hf] at hst
    simp only [Res.world] at hst
    refine ⟨h, w1.reader, ?_⟩
    rw [awaitLpushCommand_eq, Go.bind_halt hf, ← hst]

theorem parseLogJson_run (logJson : Bytes) (w : World) :
    parseLogJson logJson w =
      match Unmarshal logJson with
      | none => .halt (.fatal 97) ⟨w.reader, w.trace ++ [.parsed logJson]⟩
      | some parsed => .ok parsed ⟨w.reader, w.trace ++ [.parsed logJson]⟩ := rfl

/-- A payload whose record `insertIntoInfluxDb` rejects: `awaitLpushCommand`
ends after handing the payload to the parser, with nothing posted and no reply
written. -/
theorem lpush_halt_of_query (rt : Runtime) (client : HttpClient) (config : Config)
    (w w1 : World) (logJson : Bytes) (keyValues : GoMap) (h : Halt)
    (hf : awaitLpushCommand_frame rt w = .ok logJson w1)
    (hu : Unmarshal logJson = some keyValues)
    (hq : insertIntoInfluxDb_query rt keyValues config = .error h) :
    awaitLpushCommand rt client config w
      = .halt h ⟨w1.reader, w.trace ++ [.parsed logJson]⟩ := by
  have hst := TraceStable.frame rt w
  rw [hf] at hst
  simp only [Res.world] at hst
  have hp : parseLogJson logJson w1
      = .ok keyValues ⟨w1.reader, w1.trace ++ [.parsed logJson]⟩ := by
    rw [parseLogJson_run, hu]
  rw [awaitLpushCommand_eq, Go.bind_ok hf, Go.bind_ok hp,
    Go.bind_halt (insert_halt_of_query_error rt keyValues client config _ h hq), hst]

/-! ## Authentication -/

/-- C2, as stated, fails: for the password " a" (a leading space) the frame
that carries exactly this password is rejected by the fifth `expect`, and
nothing is written. -/
theorem C2_counterexample_leading_space :
    awaitAuthCommand Runtime.inOrder (ascii " a") (World.start [authFrame (ascii " a")])
      = .halt (.fatal 205) ⟨⟨[], []⟩, []⟩ := by
  decide

/-- C2, amended: for every password that holds no LF and has no leading or
trailing white space (`strings.TrimSpace` leaves it unchanged; an embedded CR
and the empty password are included), the frame that carries it passes the five
`expect` checks, and `awaitAuthCommand` writes exactly `+OK` CR LF and leaves
the bytes after the frame unread. -/
theorem C2_auth_accepts_password (rt : Runtime) (p rest : Bytes) (w : World)
    (hs : w.reader.stream = authFrame p ++ rest) (hlf : ASCII_LF ∉ p)
    (htrim : TrimSpace p = p) :
    ∃ r1, awaitAuthCommand rt p w = .ok () ⟨r1, w.trace ++ [.wrote (ascii "+OK\r\n")]⟩
      ∧ r1.stream = rest := by
  have hline := firstLine_no_lf p hlf
  have hm : ToUpper rt.mapToUpper (TrimSpace (firstLine (p ++ CRLF)))
      = ToUpper rt.mapToUpper p := by
    rw [hline, show p ++ CRLF = p ++ [13, 10] from rfl, TrimSpace_crlf, htrim]
  obtain ⟨r1, h1, h2⟩ := auth_accept rt p p rest w hs rfl hm
  refine ⟨r1, h1, ?_⟩
  rw [hline] at h2
  exact List.append_cancel_left h2

theorem C2_auth_accepts_password_witness :
    (World.start [authFrame (ascii "a\rb") ++ ascii "x"]).reader.stream
        = authFrame (ascii "a\rb") ++ ascii "x"
      ∧ ASCII_LF ∉ ascii "a\rb" ∧ TrimSpace (ascii "a\rb") = ascii "a\rb"
      ∧ ∃ r1, awaitAuthCommand Runtime.inOrder (ascii "a\rb")
            (World.start [authFrame (ascii "a\rb") ++ ascii "x"])
          = .ok () ⟨r1, (World.start [authFrame (ascii "a\rb") ++ ascii "x"]).trace
              ++ [.wrote (ascii "+OK\r\n")]⟩
        ∧ r1.stream = ascii "x" :=
  ⟨by decide, by decide, by decide,
    C2_auth_accepts_password Runtime.inOrder (ascii "a\rb") (ascii "x")
      (World.start [authFrame (ascii "a\rb") ++ ascii "x"]) (by decide) (by decide) (by decide)⟩

/-- C3, as stated, fails: with the password `secret`, the frame that carries
`SECRET`, which differs from it in every byte, is accepted and `+OK` CR LF is
written. -/
theorem C3_counterexample_letter_case :
    ascii "SECRET" ≠ ascii "secret"
      ∧ awaitAuthCommand Runtime.inOrder (ascii "secret")
          (World.start [authFrame (ascii "SECRET")])
        = .ok () ⟨⟨[], []⟩, [.wrote (ascii "+OK\r\n")]⟩ := by
  decide

/-- C3, amended: the password is compared after white space is trimmed from the
received line and both sides are put in upper case. For every password `p` and
every `q`, when `q` has another length than `p`, or the first line of `q` CR LF,
trimmed and in upper case, differs from `p` in upper case, the frame that
carries `q` is rejected and nothing is written. -/
theorem C3_auth_rejects_other_password (rt : Runtime) (p q rest : Bytes) (w : World)
    (hs : w.reader.stream = authFrame q ++ rest)
    (hdiff : q.length ≠ p.length
      ∨ ToUpper rt.mapToUpper (TrimSpace (firstLine (q ++ CRLF))) ≠ ToUpper rt.mapToUpper p) :
    ∃ r1, awaitAuthCommand rt p w = .halt (.fatal 205) ⟨r1, w.trace⟩ :=
  auth_reject rt p q rest w hs hdiff

theorem C3_auth_rejects_other_password_witness :
    (World.start [authFrame (ascii "secreT1")]).reader.stream = authFrame (ascii "secreT1") ++ []
      ∧ ((ascii "secreT1").length ≠ (ascii "secret").length
          ∨ ToUpper Runtime.inOrder.mapToUpper (TrimSpace (firstLine (ascii "secreT1" ++ CRLF)))
              ≠ ToUpper Runtime.inOrder.mapToUpper (ascii "secret"))
      ∧ ∃ r1, awaitAuthCommand Runtime.inOrder (ascii "secret")
            (World.start [authFrame (ascii "secreT1")])
          = .halt (.fatal 205) ⟨r1, (World.start [authFrame (ascii "secreT1")]).trace⟩ :=
  ⟨by decide, by decide,
    C3_auth_rejects_other_password Runtime.inOrder (ascii "secret") (ascii "secreT1") []
      (World.start [authFrame (ascii "secreT1")]) (by decide) (by decide)⟩

/-! ## The push command -/

/-- C5, the defect: after a successful authentication, a well-formed push frame
whose 12 payload bytes reach the server in two segments is rejected. `Read`
returns the 5 bytes that are buffered, the program ends at line 70 ("Expected
12 bytes but read 5"), and nothing is handed to `parseLogJson`. -/
theorem C5_payload_in_two_segments_rejected :
    ascii "*3\r\n$5\r\nLPUSH\r\n$9\r\nbelugacdn\r\n$12\r\n\x7b\"tim" ++ ascii "e\":\"1\"\x7d\r\n"
        = pushFrame 12 (ascii "\x7b\"time\":\"1\"\x7d")
      ∧ (awaitAuthCommand Runtime.inOrder (ascii "secret") >>= fun _ =>
          awaitLpushCommand Runtime.inOrder okClient scenarioConfig)
          (World.start [authFrame (ascii "secret"),
            ascii "*3\r\n$5\r\nLPUSH\r\n$9\r\nbelugacdn\r\n$12\r\n\x7b\"tim",
            ascii "e\":\"1\"\x7d\r\n"])
        = .halt (.fatal 70) ⟨⟨[], [ascii "e\":\"1\"\x7d\r\n"]⟩, [.wrote (ascii "+OK\r\n")]⟩ := by
  decide

/-- C6, as stated, fails: a push frame that declares 12 bytes and carries the
16 bytes `{"time":"1"}` CR LF `XY` before its terminating CR LF is accepted: the
first 12 bytes are parsed and posted, and `:1` CR LF is written. -/
theorem C6_counterexample_short_length :
    (ascii "\x7b\"time\":\"1\"\x7d\r\nXY").length = 16
      ∧ awaitLpushCommand Runtime.inOrder okClient scenarioConfig
          (World.start [pushFrame 12 (ascii "\x7b\"time\":\"1\"\x7d\r\nXY")])
        = .ok () ⟨⟨ascii "XY\r\n", []⟩, [.parsed (ascii "\x7b\"time\":\"1\"\x7d"),
            .posted (writeUrl scenarioConfig) (ascii "application/x-www-form-urlencoded")
              (ascii "measurement 1"),
            .wrote (ascii ":1\r\n")]⟩ := by
  decide

/-- C6, amended: a push frame whose declared length `n` differs from the length
of the payload `p` is rejected, with nothing handed to `parseLogJson`, nothing
posted and no reply written, unless the two bytes at offset `n` after the
length header are CR LF (as they are when `n` is too small and `p` itself holds
CR LF at offset `n`). The hypothesis on the two bytes at offset `n` can only
hold when `n` is not the length of `p`. -/
theorem C6_length_mismatch_rejected (rt : Runtime) (client : HttpClient) (config : Config)
    (n : Nat) (p rest : Bytes) (w : World)
    (hs : w.reader.stream = pushFrame n p ++ rest)
    (hcrlf : ((p ++ CRLF ++ rest).drop n).take 2 ≠ CRLF) :
    ∃ h r1, awaitLpushCommand rt client config w = .halt h ⟨r1, w.trace⟩ := by
  apply lpush_halt_of_frame
  intro logJson w1 hok
  obtain ⟨_, h2, _⟩ := frame_ok_inv rt n p rest logJson w w1 hs hok
  apply hcrlf
  rw [h2]
  rfl

theorem C6_length_mismatch_rejected_witness :
    (World.start [pushFrame 13 (ascii "\x7b\"time\":\"1\"\x7d")]).reader.stream
        = pushFrame 13 (ascii "\x7b\"time\":\"1\"\x7d") ++ []
      ∧ ((ascii "\x7b\"time\":\"1\"\x7d" ++ CRLF ++ []).drop 13).take 2 ≠ CRLF
      ∧ ∃ h r1, awaitLpushCommand Runtime.inOrder okClient scenarioConfig
            (World.start [pushFrame 13 (ascii "\x7b\"time\":\"1\"\x7d")])
          = .halt h ⟨r1, (World.start [pushFrame 13 (ascii "\x7b\"time\":\"1\"\x7d")]).trace⟩ :=
  ⟨by decide, by decide,
    C6_length_mismatch_rejected Runtime.inOrder okClient scenarioConfig 13
      (ascii "\x7b\"time\":\"1\"\x7d") [] (World.start [pushFrame 13 (ascii "\x7b\"time\":\"1\"\x7d")])
      (by decide) (by decide)⟩

/-- C7: for a record in which `time` is absent, is not a string, or is not a
non-empty string of digits, `insertIntoInfluxDb` fails with nothing posted; and
when `awaitLpushCommand` has read a payload that decodes to such a record, it
ends after handing the payload to the parser: nothing is posted and no `:1`
reply is written. -/
theorem C7_bad_time_no_post (rt : Runtime) (client : HttpClient) (config : Config)
    (keyValues : GoMap)
    (hbad : ¬ ∃ t, keyValues.get (ascii "time") = some (.string t) ∧ IsDigits t) :
    (∀ w, ∃ h, insertIntoInfluxDb rt keyValues client config w = .halt h w)
      ∧ (∀ w w1 logJson, awaitLpushCommand_frame rt w = .ok logJson w1 →
          Unmarshal logJson = some keyValues →
          ∃ h, awaitLpushCommand rt client config w
            = .halt h ⟨w1.reader, w.trace ++ [.parsed logJson]⟩) := by
  obtain ⟨h, hq⟩ := query_error_of_bad_time rt keyValues config hbad
  refine ⟨fun w => ⟨h, insert_halt_of_query_error rt keyValues client config w h hq⟩, ?_⟩
  intro w w1 logJson hf hu
  exact ⟨h, lpush_halt_of_query rt client config w w1 logJson keyValues h hf hu hq⟩

theorem C7_bad_time_no_post_witness :
    (¬ ∃ t, GoMap.get [(ascii "status", Value.string (ascii "200"))] (ascii "time")
          = some (.string t) ∧ IsDigits t)
      ∧ ((∀ w, ∃ h, insertIntoInfluxDb Runtime.inOrder
              [(ascii "status", Value.string (ascii "200"))] okClient scenarioConfig w = .halt h w)
        ∧ (∀ w w1 logJson, awaitLpushCommand_frame Runtime.inOrder w = .ok logJson w1 →
            Unmarshal logJson = some [(ascii "status", Value.string (ascii "200"))] →
            ∃ h, awaitLpushCommand Runtime.inOrder okClient scenarioConfig w
              = .halt h ⟨w1.reader, w.trace ++ [.parsed logJson]⟩)) :=
  ⟨by simp [GoMap.get, List.lookup, ascii],
    C7_bad_time_no_post Runtime.inOrder okClient scenarioConfig
      [(ascii "status", Value.string (ascii "200"))] (by simp [GoMap.get, List.lookup, ascii])⟩

/-! ## Witnesses for the encoder -/

theorem goodField_of_check (e : Bytes × Value) (h : goodFieldCheck e = true) : GoodField e := by
  obtain ⟨k, v⟩ := e
  unfold goodFieldCheck at h
  simp only [Bool.and_eq_true] at h
  obtain ⟨hk, hv⟩ := h
  cases v with
  | string s =>
    simp only [Bool.and_eq_true] at hv
    obtain ⟨h1, h2⟩ := hv
    refine ⟨(FIELD_KEY_REGEXP_iff _).1 hk, s, rfl, ?_, ?_⟩
    · intro hi
      simp only at hi
      rw [if_pos hi] at h1
      exact (INTEGER_REGEXP_iff _).1 h1
    · intro hd
      simp only at hd
      rw [if_pos hd] at h2
      exact (FLOAT_REGEXP_iff _).1 h2
  | null => simp at hv
  | bool b => simp at hv
  | number l => simp at hv
  | array r => simp at hv
  | object r => simp at hv

theorem C1_statement_form_witness :
    GoMap.get scenarioRecord (ascii "time") = some (.string (ascii "1600000000"))
      ∧ IsDigits (ascii "1600000000")
      ∧ (∀ e ∈ scenarioRecord, e.1 ≠ ascii "time" → GoodField e)
      ∧ (insertIntoInfluxDb_query Runtime.inOrder scenarioRecord scenarioConfig
            = .ok (statementText scenarioConfig.InfluxdbMeasurement
                (fieldsOf (Runtime.inOrder.rangeOrder scenarioRecord)) (ascii "1600000000"))
          ∧ (insertIntoInfluxDb Runtime.inOrder scenarioRecord okClient scenarioConfig
                (World.start [])).world.trace
            = (World.start []).trace
                ++ [.posted (writeUrl scenarioConfig) (ascii "application/x-www-form-urlencoded")
                  (statementText scenarioConfig.InfluxdbMeasurement
                    (fieldsOf (Runtime.inOrder.rangeOrder scenarioRecord)) (ascii "1600000000"))]
          ∧ (fieldsOf (Runtime.inOrder.rangeOrder scenarioRecord) = [] →
              insertIntoInfluxDb_query Runtime.inOrder scenarioRecord scenarioConfig
                = .ok (scenarioConfig.InfluxdbMeasurement ++ ascii " " ++ ascii "1600000000"))) :=
  ⟨by decide, ⟨by decide, by decide⟩,
    fun e he ht => goodField_of_check e (by revert e; decide),
    C1_statement_form Runtime.inOrder okClient scenarioConfig scenarioRecord (ascii "1600000000")
      (World.start []) (by decide) ⟨by decide, by decide⟩
      (fun e he ht => goodField_of_check e (by revert e; decide))⟩

theorem C8_bad_key_no_post_witness :
    (∃ e ∈ ([(ascii "Status-Code", Value.string (ascii "200")),
              (ascii "time", Value.string (ascii "1"))] : GoMap),
        e.1 ≠ ascii "time" ∧ ¬ IsFieldKey e.1)
      ∧ ∃ h, insertIntoInfluxDb Runtime.inOrder
            [(ascii "Status-Code", Value.string (ascii "200")),
              (ascii "time", Value.string (ascii "1"))] okClient scenarioConfig (World.start [])
          = .halt h (World.start []) :=
  ⟨⟨(ascii "Status-Code", Value.string (ascii "200")), by simp, by decide,
      by unfold IsFieldKey; decide⟩,
    C8_bad_key_no_post Runtime.inOrder okClient scenarioConfig _ (World.start [])
      ⟨(ascii "Status-Code", Value.string (ascii "200")), by simp, by decide,
        by unfold IsFieldKey; decide⟩⟩

theorem not_digits_12a : ¬ ∃ v, Value.string (ascii "12a") = Value.string v ∧ IsDigits v := by
  rintro ⟨v, hv, hd⟩
  simp only [Value.string.injEq] at hv
  subst hv
  revert hd
  unfold IsDigits
  decide

theorem C9_typed_fields_no_post_witness :
    ((∃ e ∈ ([(ascii "response_size", Value.string (ascii "12a")),
                (ascii "time", Value.string (ascii "1"))] : GoMap),
          (e.1 = ascii "response_size" ∨ e.1 = ascii "header_size")
            ∧ ¬ ∃ v, e.2 = .string v ∧ IsDigits v)
        ∨ (∃ e ∈ ([(ascii "response_size", Value.string (ascii "12a")),
                (ascii "time", Value.string (ascii "1"))] : GoMap),
          e.1 = ascii "duration" ∧ ¬ ∃ v, e.2 = .string v ∧ IsDigitsDotDigits v))
      ∧ ∃ h, insertIntoInfluxDb Runtime.inOrder
            [(ascii "response_size", Value.string (ascii "12a")),
              (ascii "time", Value.string (ascii "1"))] okClient scenarioConfig (World.start [])
          = .halt h (World.start []) :=
  ⟨Or.inl ⟨(ascii "response_size", Value.string (ascii "12a")), by simp, Or.inl rfl,
      not_digits_12a⟩,
    C9_typed_fields_no_post Runtime.inOrder okClient scenarioConfig _ (World.start [])
      (Or.inl ⟨(ascii "response_size", Value.string (ascii "12a")), by simp, Or.inl rfl,
        not_digits_12a⟩)⟩

/-! ## The payload as JSON -/

theorem lookup_mem (k : Bytes) (v : Value) (m : GoMap) (h : m.lookup k = some v) :
    (k, v) ∈ m := by
  induction m with
  | nil => simp [List.lookup] at h
  | cons e m ih =>
    obtain ⟨k1, v1⟩ := e
    by_cases hk : k = k1
    · subst hk
      simp [List.lookup] at h
      simp [h]
    · have : (k == k1) = false := by simpa using hk
      simp only [List.lookup, this] at h
      exact List.mem_cons_of_mem _ (ih h)

theorem query_error_of_not_string (rt : Runtime) (keyValues : GoMap) (config : Config)
    (k : Bytes) (v : Value) (hget : keyValues.get k = some v) (hv : ∀ s, v ≠ .string s) :
    ∃ h, insertIntoInfluxDb_query rt keyValues config = .error h := by
  by_cases hk : k = ascii "time"
  · subst hk
    apply query_error_of_bad_time
    rintro ⟨t, ht, _⟩
    rw [hget] at ht
    simp only [Option.some.injEq] at ht
    exact hv t ht
  · exact query_error_of_bad rt keyValues config
      ⟨(k, v), lookup_mem k v keyValues hget, badField_of_not_string (k, v) hk hv⟩

theorem processPayload_halt_of_unmarshal (rt : Runtime) (client : HttpClient) (config : Config)
    (payload : Bytes) (w : World) (hu : Unmarshal payload = none) :
    processPayload rt client config payload w
      = .halt (.fatal 97) ⟨w.reader, w.trace ++ [.parsed payload]⟩ := by
  have hp : parseLogJson payload w
      = .halt (.fatal 97) ⟨w.reader, w.trace ++ [.parsed payload]⟩ := by
    rw [parseLogJson_run, hu]
  unfold processPayload
  rw [Go.bind_halt hp]

theorem processPayload_halt_of_query (rt : Runtime) (client : HttpClient) (config : Config)
    (payload : Bytes) (w : World) (keyValues : GoMap) (h : Halt)
    (hu : Unmarshal payload = some keyValues)
    (hq : insertIntoInfluxDb_query rt keyValues config = .error h) :
    processPayload rt client config payload w
      = .halt h ⟨w.reader, w.trace ++ [.parsed payload]⟩ := by
  have hp : parseLogJson payload w
      = .ok keyValues ⟨w.reader, w.trace ++ [.parsed payload]⟩ := by
    rw [parseLogJson_run, hu]
  unfold processPayload
  rw [Go.bind_ok hp, insert_halt_of_query_error rt keyValues client config _ h hq]

/-- C10, as stated, fails: the payload `{"a":1,"a":"x","time":"1"}` is an
object with a value that is not a JSON string (the number 1), and yet it is
processed without failure: the map keeps the later value of `a`, and the
statement `measurement a="x" 1` is posted. -/
theorem C10_counterexample_duplicate_key :
    parseJson (ascii "\x7b\"a\":1,\"a\":\"x\",\"time\":\"1\"\x7d")
        = some (.object [(ascii "a", .number (ascii "1")), (ascii "a", .string (ascii "x")),
            (ascii "time", .string (ascii "1"))])
      ∧ processPayload Runtime.inOrder okClient scenarioConfig
          (ascii "\x7b\"a\":1,\"a\":\"x\",\"time\":\"1\"\x7d") (World.start [])
        = .ok () ⟨⟨[], []⟩, [.parsed (ascii "\x7b\"a\":1,\"a\":\"x\",\"time\":\"1\"\x7d"),
            .posted (writeUrl scenarioConfig) (ascii "application/x-www-form-urlencoded")
              (ascii "measurement a=\"x\" 1")]⟩ := by
  decide

/-- C10, amended: a payload that is not valid JSON, or whose top-level value is
not an object, or that is an object in which the value kept for some key (of
several members with the same key, the last) is not a JSON string, is processed
by `parseLogJson` and `insertIntoInfluxDb` up to a failure, before any POST:
the only event is the hand-over of the payload to the parser. -/
theorem C10_bad_payload_no_post (rt : Runtime) (client : HttpClient) (config : Config)
    (payload : Bytes) (w : World)
    (hbad : parseJson payload = none
      ∨ (∃ v, parseJson payload = some (.other v))
      ∨ (∃ members k v, parseJson payload = some (.object members)
          ∧ (GoMap.ofMembers members).get k = some v ∧ ∀ s, v ≠ .string s)) :
    ∃ h, processPayload rt client config payload w
      = .halt h ⟨w.reader, w.trace ++ [.parsed payload]⟩ := by
  rcases hbad with h0 | ⟨v, hv⟩ | ⟨members, k, v, hm, hget, hns⟩
  · exact ⟨_, processPayload_halt_of_unmarshal rt client config payload w
      (by simp [Unmarshal, h0])⟩
  · by_cases hnull : v = .null
    · subst hnull
      have hu : Unmarshal payload = some [] := by simp [Unmarshal, hv]
      obtain ⟨h, hq⟩ := query_error_of_bad_time rt [] config (by simp [GoMap.get])
      exact ⟨h, processPayload_halt_of_query rt client config payload w [] h hu hq⟩
    · have hu : Unmarshal payload = none := by
        cases v <;> simp_all [Unmarshal]
      exact ⟨_, processPayload_halt_of_unmarshal rt client config payload w hu⟩
  · have hu : Unmarshal payload = some (GoMap.ofMembers members) := by simp [Unmarshal, hm]
    obtain ⟨h, hq⟩ := query_error_of_not_string rt _ config k v hget hns
    exact ⟨h, processPayload_halt_of_query rt client config payload w _ h hu hq⟩

theorem C10_bad_payload_no_post_witness :
    (parseJson (ascii "\x7b\"time\":\"1\",\"status\":200\x7d") = none
        ∨ (∃ v, parseJson (ascii "\x7b\"time\":\"1\",\"status\":200\x7d") = some (.other v))
        ∨ (∃ members k v,
            parseJson (ascii "\x7b\"time\":\"1\",\"status\":200\x7d") = some (.object members)
            ∧ (GoMap.ofMembers members).get k = some v ∧ ∀ s, v ≠ .string s))
      ∧ ∃ h, processPayload Runtime.inOrder okClient scenarioConfig
            (ascii "\x7b\"time\":\"1\",\"status\":200\x7d") (World.start [])
          = .halt h ⟨(World.start []).reader,
              (World.start []).trace ++ [.parsed (ascii "\x7b\"time\":\"1\",\"status\":200\x7d")]⟩ :=
  ⟨Or.inr (Or.inr ⟨[(ascii "time", .string (ascii "1")), (ascii "status", .number (ascii "200"))],
      ascii "status", .number (ascii "200"), by decide, by decide, fun s hs => by cases hs⟩),
    C10_bad_payload_no_post Runtime.inOrder okClient scenarioConfig _ (World.start [])
      (Or.inr (Or.inr ⟨[(ascii "time", .string (ascii "1")),
          (ascii "status", .number (ascii "200"))],
        ascii "status", .number (ascii "200"), by decide, by decide, fun s hs => by cases hs⟩))⟩

/-! ## Enough fuel -/

theorem trimLeftLoop_fuel_succ (fuel : Nat) (s : Bytes) (h : s.length ≤ fuel) :
    trimLeftLoop (fuel + 1) s = trimLeftLoop fuel s := by
  induction fuel generalizing s with
  | zero =>
    have : s = [] := List.length_eq_zero.1 (Nat.le_zero.1 h)
    subst this
    rfl
  | succ fuel ih =>
    cases s with
    | nil => rw [trimLeftLoop_nil, trimLeftLoop_nil]
    | cons b t =>
      have hne : b :: t ≠ [] := by simp
      have hsz := DecodeRune_size _ hne
      rw [trimLeftLoop_succ (fuel + 1) _ hne, trimLeftLoop_succ fuel _ hne]
      split
      · apply ih
        simp only [List.length_drop, List.length_cons] at h ⊢
        omega
      · rfl

/-- More fuel than the length of the string changes nothing in `trimLeftLoop`:
the fuel `TrimLeft` passes is enough. -/
theorem trimLeftLoop_fuel (k : Nat) (s : Bytes) :
    trimLeftLoop (s.length + k) s = trimLeftLoop s.length s := by
  induction k with
  | zero => rfl
  | succ k ih => rw [← Nat.add_assoc, trimLeftLoop_fuel_succ _ _ (by omega), ih]

theorem lastIndexNotSpace_nil (fuel : Nat) : lastIndexNotSpace fuel [] = none := by
  cases fuel <;> simp [lastIndexNotSpace]

theorem lastIndexNotSpace_fuel_succ (fuel : Nat) (s : Bytes) (h : s.length ≤ fuel) :
    lastIndexNotSpace (fuel + 1) s = lastIndexNotSpace fuel s := by
  induction fuel generalizing s with
  | zero =>
    have : s = [] := List.length_eq_zero.1 (Nat.le_zero.1 h)
    subst this
    rfl
  | succ fuel ih =>
    cases s with
    | nil => rw [lastIndexNotSpace_nil, lastIndexNotSpace_nil]
    | cons b t =>
      have hne : b :: t ≠ [] := by simp
      have hsz := DecodeLastRune_size _ hne
      rw [lastIndexNotSpace_succ (fuel + 1) _ hne, lastIndexNotSpace_succ fuel _ hne]
      split
      · apply ih
        simp only [List.length_take, List.length_cons] at h ⊢
        omega
      · rfl

/-- More fuel than the length of the string changes nothing in
`lastIndexNotSpace`: the fuel `TrimRight` passes is enough. -/
theorem lastIndexNotSpace_fuel (k : Nat) (s : Bytes) :
    lastIndexNotSpace (s.length + k) s = lastIndexNotSpace s.length s := by
  induction k with
  | zero => rfl
  | succ k ih => rw [← Nat.add_assoc, lastIndexNotSpace_fuel_succ _ _ (by omega), ih]

theorem skipWs_length (s : Bytes) : (skipWs s).length ≤ s.length := by
  unfold skipWs
  exact (List.dropWhile_sublist _).length_le

theorem skipWs_cons_length (s r : Bytes) (c : UInt8) (h : skipWs s = c :: r) :
    r.length < s.length := by
  have := skipWs_length s
  rw [h, List.length_cons] at this
  omega

theorem scanString_length_aux (n : Nat) : ∀ (s : Bytes) (x : Bytes × Bytes),
    s.length ≤ n → scanString s = some x → x.2.length < s.length := by
  induction n with
  | zero =>
    intro s x h hs
    have : s = [] := List.length_eq_zero.1 (Nat.le_zero.1 h)
    subst this
    simp [scanString] at hs
  | succ n ih =>
    intro s x h hs
    cases s with
    | nil => simp [scanString] at hs
    | cons b rest =>
      simp only [List.length_cons] at h ⊢
      unfold scanString at hs
      split_ifs at hs with h1 h2 h3
      · cases hs; simp
      · split at hs
        · cases hs
        · rename_i c rest1
          split_ifs at hs with h4 h5
          · split at hs
            · rename_i a1 a2 a3 a4 rest2
              split_ifs at hs with h6
              · obtain ⟨r, hr, hx⟩ := Option.map_eq_some'.1 hs
                have := ih rest2 r (by simp only [List.length_cons] at h; omega) hr
                subst hx
                show r.2.length < (c :: a1 :: a2 :: a3 :: a4 :: rest2).length + 1
                simp only [List.length_cons]
                omega
            · cases hs
          · obtain ⟨r, hr, hx⟩ := Option.map_eq_some'.1 hs
            have := ih rest1 r (by simp only [List.length_cons] at h; omega) hr
            subst hx
            show r.2.length < (c :: rest1).length + 1
            simp only [List.length_cons]
            omega
      · obtain ⟨r, hr, hx⟩ := Option.map_eq_some'.1 hs
        have := ih rest r (by omega) hr
        subst hx
        show r.2.length < rest.length + 1
        omega

theorem scanString_length (s : Bytes) (x : Bytes × Bytes) (h : scanString s = some x) :
    x.2.length < s.length :=
  scanString_length_aux s.length s x (Nat.le_refl _) h

theorem dropWhile_length_le (p : UInt8 → Bool) (l : Bytes) :
    (l.dropWhile p).length ≤ l.length :=
  (List.dropWhile_sublist _).length_le

/-- A scanned number literal is not empty. -/
theorem scanNumber_length (s : Bytes) (x : Bytes × Bytes) (h : scanNumber s = some x) :
    x.2.length < s.length := by
  cases s with
  | nil => simp [scanNumber] at h
  | cons c t =>
    unfold scanNumber at h
    lift_lets at h
    extract_lets s1 at h
    have h1 : s1.length ≤ t.length + 1 := by
      show (match c :: t with
        | [] => []
        | c :: r => if c = 0x2D then r else c :: r).length ≤ t.length + 1
      simp only
      split_ifs <;> simp
    clear_value s1
    split at h
    · cases h
    · rename_i d r
      rw [List.length_cons] at h1
      lift_lets at h
      extract_lets ip s2 hasFrac fp s3 hasExp s4 expNeg s5 ex s6 at h
      have h2 : s2.length ≤ r.length := by
        show (if d = 0x30 then r else r.dropWhile isDigit).length ≤ r.length
        split_ifs
        · exact Nat.le_refl _
        · exact dropWhile_length_le _ _
      have h3 : s3.length ≤ s2.length := by
        show (if hasFrac = true then (s2.drop 1).dropWhile isDigit else s2).length ≤ s2.length
        split_ifs
        · exact Nat.le_trans (dropWhile_length_le _ _) (by simp)
        · exact Nat.le_refl _
      have h4 : s4.length ≤ s3.length := by
        show (if hasExp = true then s3.drop 1 else s3).length ≤ s3.length
        split_ifs <;> simp
      have h5 : s5.length ≤ s4.length := by
        show (match s4 with
          | [] => []
          | c :: r4 => if (hasExp && (c == 0x2D || c == 0x2B)) = true then r4 else c :: r4).length
            ≤ s4.length
        have gen : ∀ (l : Bytes) (b : Bool), (match l with
            | [] => []
            | c :: r4 => if (b && (c == 0x2D || c == 0x2B)) = true then r4 else c :: r4).length
              ≤ l.length := by
          intro l b
          cases l with
          | nil => simp
          | cons c r4 =>
            simp only
            split_ifs <;> simp
        exact gen s4 hasExp
      have h6 : s6.length ≤ s5.length := by
        show (if hasExp = true then s5.dropWhile isDigit else s5).length ≤ s5.length
        split_ifs
        · exact dropWhile_length_le _ _
        · exact Nat.le_refl _
      split_ifs at h
      cases h
      show s6.length < t.length + 1
      omega

theorem scan_consumes (f : Nat) :
    (∀ d s x, scanValue f d s = some x → x.2.length < s.length) ∧
    (∀ d s x, scanObject f d s = some x → x.2.length < s.length) ∧
    (∀ d s x, scanMembers f d s = some x → x.2.length < s.length) ∧
    (∀ d s r, scanArray f d s = some r → r.length < s.length) ∧
    (∀ d s r, scanElements f d s = some r → r.length < s.length) := by
  induction f with
  | zero => simp [scanValue, scanObject, scanMembers, scanArray, scanElements]
  | succ f ih =>
    obtain ⟨iV, iO, iM, iA, iE⟩ := ih
    refine ⟨?_, ?_, ?_, ?_, ?_⟩
    · intro d s x h
      cases s with
      | nil => simp [scanValue] at h
      | cons c r =>
        simp only [scanValue] at h
        split_ifs at h
        · obtain ⟨y, hy, hx⟩ := Option.map_eq_some'.1 h
          have := scanString_length _ _ hy
          subst hx
          show y.2.length < r.length + 1
          omega
        · obtain ⟨y, hy, hx⟩ := Option.map_eq_some'.1 h
          have := iO _ _ _ hy
          have := skipWs_length r
          subst hx
          show y.2.length < r.length + 1
          omega
        · obtain ⟨y, hy, hx⟩ := Option.map_eq_some'.1 h
          have := iA _ _ _ hy
          have := skipWs_length r
          subst hx
          show y.length < r.length + 1
          omega
        · split at h
          · cases h
            simp only [List.length_cons]
            omega
          · cases h
        · split at h
          · cases h
            simp only [List.length_cons]
            omega
          · cases h
        · split at h
          · cases h
            simp only [List.length_cons]
            omega
          · cases h
        · obtain ⟨y, hy, hx⟩ := Option.map_eq_some'.1 h
          have := scanNumber_length _ _ hy
          subst hx
          exact this
    · intro d s x h
      cases s with
      | nil => simp [scanObject] at h
      | cons c r =>
        simp only [scanObject] at h
        split_ifs at h
        · cases h
          simp
        · exact iM _ _ _ h
    · intro d s x h
      cases s with
      | nil => simp [scanMembers] at h
      | cons q r =>
        simp only [scanMembers] at h
        split_ifs at h
        split at h
        · cases h
        · rename_i rawKey r1 hk
          have e1 := scanString_length _ _ hk
          split at h
          · cases h
          · rename_i colon r2 hc
            have e2 := skipWs_cons_length _ _ _ hc
            split_ifs at h
            split at h
            · cases h
            · rename_i v r3 hv
              have e3 := iV _ _ _ hv
              have e3s := skipWs_length r2
              split at h
              · cases h
              · rename_i sep r4 hsep
                have e4 := skipWs_cons_length _ _ _ hsep
                split_ifs at h
                · cases h
                  simp only [List.length_cons]
                  simp only at e1 e3
                  omega
                · obtain ⟨y, hy, hx⟩ := Option.map_eq_some'.1 h
                  have e5 := iM _ _ _ hy
                  have e5s := skipWs_length r4
                  subst hx
                  simp only [List.length_cons]
                  simp only at e1 e3
                  omega
    · intro d s x h
      cases s with
      | nil => simp [scanArray] at h
      | cons c r =>
        simp only [scanArray] at h
        split_ifs at h
        · cases h
          simp
        · exact iE _ _ _ h
    · intro d s x h
      simp only [scanElements] at h
      split at h
      · cases h
      · rename_i v r1 hv
        have e1 := iV _ _ _ hv
        split at h
        · cases h
        · rename_i sep r2 hsep
          have e2 := skipWs_cons_length _ _ _ hsep
          split_ifs at h
          · cases h
            simp only at e1
            omega
          · have e3 := iE _ _ _ h
            have e3s := skipWs_length r2
            simp only at e1
            omega

theorem scanMembers_succ (fuel depth : Nat) (s : Bytes) :
    scanMembers (fuel + 1) depth s =
      match s with
      | [] => none
      | q :: r =>
        if q ≠ 0x22 then none
        else
          match scanString r with
          | none => none
          | some (rawKey, r1) =>
            match skipWs r1 with
            | [] => none
            | colon :: r2 =>
              if colon ≠ 0x3A then none
              else
                match scanValue fuel depth (skipWs r2) with
                | none => none
                | some (v, r3) =>
                  match skipWs r3 with
                  | [] => none
                  | sep :: r4 =>
                    if sep = 0x7D then some ([(unquote rawKey, v)], r4)
                    else if sep = 0x2C then
                      (scanMembers fuel depth (skipWs r4)).map
                        (fun x => ((unquote rawKey, v) :: x.1, x.2))
                    else none := by
  rfl

theorem scanElements_succ (fuel depth : Nat) (s : Bytes) :
    scanElements (fuel + 1) depth s =
      match scanValue fuel depth s with
      | none => none
      | some (_, r1) =>
        match skipWs r1 with
        | [] => none
        | sep :: r2 =>
          if sep = 0x5D then some r2
          else if sep = 0x2C then scanElements fuel depth (skipWs r2)
          else none := by
  rfl

theorem scanValue_succ (fuel depth : Nat) (s : Bytes) :
    scanValue (fuel + 1) depth s =
      match s with
      | [] => none
      | c :: r =>
        if c = 0x22 then (scanString r).map (fun x => (Value.string (unquote x.1), x.2))
        else if c = 0x7B then
          if maxNestingDepth ≤ depth then none
          else (scanObject fuel (depth + 1) (skipWs r)).map
            (fun x => (Value.object (s.take (s.length - x.2.length)), x.2))
        else if c = 0x5B then
          if maxNestingDepth ≤ depth then none
          else (scanArray fuel (depth + 1) (skipWs r)).map
            (fun rest => (Value.array (s.take (s.length - rest.length)), rest))
        else if c = 0x74 then
          match r with
          | 0x72 :: 0x75 :: 0x65 :: rest => some (Value.bool true, rest)
          | _ => none
        else if c = 0x66 then
          match r with
          | 0x61 :: 0x6C :: 0x73 :: 0x65 :: rest => some (Value.bool false, rest)
          | _ => none
        else if c = 0x6E then
          match r with
          | 0x75 :: 0x6C :: 0x6C :: rest => some (Value.null, rest)
          | _ => none
        else (scanNumber s).map (fun x => (Value.number x.1, x.2)) := by
  rfl

theorem scanObject_succ (fuel depth : Nat) (s : Bytes) :
    scanObject (fuel + 1) depth s =
      match s with
      | [] => none
      | c :: r => if c = 0x7D then some ([], r) else scanMembers fuel depth s := by
  rfl

theorem scanArray_succ (fuel depth : Nat) (s : Bytes) :
    scanArray (fuel + 1) depth s =
      match s with
      | [] => none
      | c :: r => if c = 0x5D then some r else scanElements fuel depth s := by
  rfl

/-- One more unit of fuel changes nothing once the fuel is three times the
length of the input (plus the calls that consume nothing). -/
theorem scan_fuel_succ (f : Nat) :
    (∀ d s, 3 * s.length ≤ f → scanValue (f + 1) d s = scanValue f d s) ∧
    (∀ d s, 3 * s.length + 2 ≤ f → scanObject (f + 1) d s = scanObject f d s) ∧
    (∀ d s, 3 * s.length + 1 ≤ f → scanMembers (f + 1) d s = scanMembers f d s) ∧
    (∀ d s, 3 * s.length + 2 ≤ f → scanArray (f + 1) d s = scanArray f d s) ∧
    (∀ d s, 3 * s.length + 1 ≤ f → scanElements (f + 1) d s = scanElements f d s) := by
  induction f with
  | zero =>
    refine ⟨?_, ?_, ?_, ?_, ?_⟩
    · intro d s h
      have : s = [] := List.length_eq_zero.1 (by omega)
      subst this
      rfl
    all_goals
      intro d s h
      omega
  | succ f ih =>
    obtain ⟨iV, iO, iM, iA, iE⟩ := ih
    refine ⟨?_, ?_, ?_, ?_, ?_⟩
    · intro d s h
      rw [scanValue_succ (f + 1), scanValue_succ f]
      cases s with
      | nil => rfl
      | cons c r =>
        have hr := skipWs_length r
        simp only [List.length_cons] at h
        simp only
        rw [iO (d + 1) (skipWs r) (by omega), iA (d + 1) (skipWs r) (by omega)]
    · intro d s h
      rw [scanObject_succ (f + 1), scanObject_succ f]
      cases s with
      | nil => rfl
      | cons c r => rw [iM d (c :: r) (by omega)]
    · intro d s h
      rw [scanMembers_succ (f + 1), scanMembers_succ f]
      cases s with
      | nil => rfl
      | cons q r =>
        simp only [List.length_cons] at h
        simp only
        split_ifs
        · rfl
        · cases hk : scanString r with
          | none => rfl
          | some kr =>
            obtain ⟨rawKey, r1⟩ := kr
            have e1 := scanString_length _ _ hk
            simp only at e1 ⊢
            cases hc : skipWs r1 with
            | nil => rfl
            | cons colon r2 =>
              have e2 := skipWs_cons_length _ _ _ hc
              have e2s := skipWs_length r2
              simp only
              split_ifs
              · rfl
              · rw [iV d (skipWs r2) (by omega)]
                cases hv : scanValue f d (skipWs r2) with
                | none => rfl
                | some vr =>
                  obtain ⟨v, r3⟩ := vr
                  have e3 := (scan_consumes f).1 _ _ _ hv
                  simp only at e3 ⊢
                  cases hsep : skipWs r3 with
                  | nil => rfl
                  | cons sep r4 =>
                    have e4 := skipWs_cons_length _ _ _ hsep
                    have e4s := skipWs_length r4
                    simp only
                    rw [iM d (skipWs r4) (by omega)]
    · intro d s h
      rw [scanArray_succ (f + 1), scanArray_succ f]
      cases s with
      | nil => rfl
      | cons c r => rw [iE d (c :: r) (by omega)]
    · intro d s h
      rw [scanElements_succ (f + 1), scanElements_succ f]
      rw [iV d s (by omega)]
      cases hv : scanValue f d s with
      | none => rfl
      | some vr =>
        obtain ⟨v, r1⟩ := vr
        have e1 := (scan_consumes f).1 _ _ _ hv
        simp only at e1 ⊢
        cases hsep : skipWs r1 with
        | nil => rfl
        | cons sep r2 =>
          have e2 := skipWs_cons_length _ _ _ hsep
          have e2s := skipWs_length r2
          simp only
          rw [iE d (skipWs r2) (by omega)]

theorem scanValue_fuel (k f d : Nat) (s : Bytes) (h : 3 * s.length ≤ f) :
    scanValue (f + k) d s = scanValue f d s := by
  induction k with
  | zero => rfl
  | succ k ih => rw [← Nat.add_assoc, (scan_fuel_succ (f + k)).1 d s (by omega), ih]

theorem scanObject_fuel (k f d : Nat) (s : Bytes) (h : 3 * s.length + 2 ≤ f) :
    scanObject (f + k) d s = scanObject f d s := by
  induction k with
  | zero => rfl
  | succ k ih => rw [← Nat.add_assoc, (scan_fuel_succ (f + k)).2.1 d s (by omega), ih]

/-- The fuel `parseJson` passes to the scan is enough: any larger amount gives
the same result, for every input. -/
theorem parseJson_fuel (k : Nat) (data : Bytes) :
    parseJsonWith (3 * data.length + 3 + k) data = parseJson data := by
  unfold parseJson parseJsonWith
  have h0 := skipWs_length data
  cases hd : skipWs data with
  | nil => rfl
  | cons c r =>
    rw [hd, List.length_cons] at h0
    have h1 := skipWs_length r
    simp only
    rw [scanObject_fuel k _ 1 (skipWs r) (by omega),
      scanValue_fuel k _ 0 (c :: r) (by simp only [List.length_cons]; omega)]

theorem unquoteLoop_succ (fuel : Nat) (s : Bytes) :
    unquoteLoop (fuel + 1) s =
      match s with
      | [] => []
      | b :: rest =>
        if b = 0x5C then
          match rest with
          | [] => []
          | c :: rest1 =>
            if c = 0x75 then
              match getu4 s with
              | none => []
              | some rr =>
                let rest2 := rest1.drop 4
                if 0xD800 ≤ rr && rr < 0xE000 then
                  match getu4 rest2 with
                  | some rr1 =>
                    if rr < 0xDC00 && 0xDC00 ≤ rr1 && rr1 < 0xE000 then
                      EncodeRune ((rr - 0xD800) * 1024 + (rr1 - 0xDC00) + 0x10000)
                        ++ unquoteLoop fuel (rest2.drop 6)
                    else EncodeRune RuneError ++ unquoteLoop fuel rest2
                  | none => EncodeRune RuneError ++ unquoteLoop fuel rest2
                else EncodeRune rr ++ unquoteLoop fuel rest2
            else
              let d : UInt8 :=
                if c = 0x62 then 0x08 else if c = 0x66 then 0x0C else if c = 0x6E then 0x0A
                else if c = 0x72 then 0x0D else if c = 0x74 then 0x09 else c
              d :: unquoteLoop fuel rest1
        else if b.toNat < 0x80 then b :: unquoteLoop fuel rest
        else
          let d := DecodeRune s
          EncodeRune d.1 ++ unquoteLoop fuel (s.drop d.2) := by
  rfl

theorem unquoteLoop_fuel_succ (fuel : Nat) (s : Bytes) (h : s.length ≤ fuel) :
    unquoteLoop (fuel + 1) s = unquoteLoop fuel s := by
  induction fuel generalizing s with
  | zero =>
    have : s = [] := List.length_eq_zero.1 (Nat.le_zero.1 h)
    subst this
    rfl
  | succ fuel ih =>
    rw [unquoteLoop_succ (fuel + 1), unquoteLoop_succ fuel]
    cases s with
    | nil => rfl
    | cons b rest =>
      simp only [List.length_cons] at h
      have hsz := DecodeRune_size (b :: rest) (by simp)
      have e1 : unquoteLoop (fuel + 1) rest = unquoteLoop fuel rest := ih _ (by omega)
      have e2 : unquoteLoop (fuel + 1) ((b :: rest).drop (DecodeRune (b :: rest)).2)
          = unquoteLoop fuel ((b :: rest).drop (DecodeRune (b :: rest)).2) :=
        ih _ (by simp only [List.length_drop, List.length_cons] at hsz ⊢; omega)
      cases rest with
      | nil => simp only [e1, e2]
      | cons c rest1 =>
        simp only [List.length_cons] at h
        have e3 : unquoteLoop (fuel + 1) rest1 = unquoteLoop fuel rest1 := ih _ (by omega)
        have e4 : unquoteLoop (fuel + 1) (rest1.drop 4) = unquoteLoop fuel (rest1.drop 4) :=
          ih _ (by simp only [List.length_drop]; omega)
        have e5 : unquoteLoop (fuel + 1) ((rest1.drop 4).drop 6)
            = unquoteLoop fuel ((rest1.drop 4).drop 6) :=
          ih _ (by simp only [List.length_drop]; omega)
        simp only [e1, e2, e3, e4, e5]

/-- More fuel than the length of the text changes nothing in `unquoteLoop`: the
fuel `unquote` passes is enough. -/
theorem unquoteLoop_fuel (k : Nat) (s : Bytes) :
    unquoteLoop (s.length + k) s = unquote s := by
  unfold unquote
  induction k with
  | zero => rfl
  | succ k ih => rw [← Nat.add_assoc, unquoteLoop_fuel_succ _ _ (by omega), ih]

/-! ## A frame that has arrived -/

theorem ReadBytes_buffered (r : Reader) (d : UInt8) (line rest : Bytes)
    (h : splitAfter d r.buf = some (line, rest)) :
    r.ReadBytes d = (line, false, { r with buf := rest }) := by
  unfold Reader.ReadBytes
  rw [show 2 * r.conn.flatten.length + 2 = (2 * r.conn.flatten.length + 1) + 1 from rfl,
    readBytesLoop, h]
  simp

/-- A token that is in the buffer, followed by CR LF: `expect` takes it from
the buffer. -/
theorem expect_buffered (rt : Runtime) (e tok rest : Bytes) (conn : List Bytes)
    (trace : List Event) (hlf : ASCII_LF ∉ tok)
    (hm : ToUpper rt.mapToUpper (TrimSpace tok) = ToUpper rt.mapToUpper e) :
    expect rt e ⟨⟨tok ++ CRLF ++ rest, conn⟩, trace⟩ = .ok () ⟨⟨rest, conn⟩, trace⟩ := by
  have hline : splitAfter ASCII_LF (tok ++ CRLF ++ rest) = some (tok ++ CRLF, rest) := by
    have h1 : ASCII_LF ∉ tok ++ [ASCII_CR] := by
      simp only [List.mem_append, List.mem_singleton, not_or]
      exact ⟨hlf, by decide⟩
    have := splitAfter_line ASCII_LF (tok ++ [ASCII_CR]) rest h1
    simpa [CRLF, List.append_assoc] using this
  have hr := ReadBytes_buffered ⟨tok ++ CRLF ++ rest, conn⟩ ASCII_LF _ _ hline
  have ht : TrimSpace (tok ++ CRLF) = TrimSpace tok := by
    rw [show tok ++ CRLF = tok ++ [13, 10] from rfl, TrimSpace_crlf]
  rw [expect_run]
  simp only [hr]
  simp [ht, hm]

theorem expectDollarInt_buffered (n : Nat) (rest : Bytes) (conn : List Bytes)
    (trace : List Event) (hn : n < 2 ^ 63) :
    expectDollarInt ⟨⟨ascii "$" ++ itoa n ++ CRLF ++ rest, conn⟩, trace⟩
      = .ok n ⟨⟨rest, conn⟩, trace⟩ := by
  have hline : splitAfter ASCII_LF (ascii "$" ++ itoa n ++ CRLF ++ rest)
      = some (ascii "$" ++ itoa n ++ CRLF, rest) := by
    have h1 : ASCII_LF ∉ ascii "$" ++ itoa n ++ [ASCII_CR] := by
      intro h
      rcases List.mem_append.1 h with h | h
      · exact lf_not_mem_dollar_itoa n h
      · revert h
        decide
    have := splitAfter_line ASCII_LF (ascii "$" ++ itoa n ++ [ASCII_CR]) rest h1
    simpa [CRLF, List.append_assoc] using this
  have hr := ReadBytes_buffered ⟨ascii "$" ++ itoa n ++ CRLF ++ rest, conn⟩ ASCII_LF _ _ hline
  have hre : (DOLLAR_INT_REGEXP (ascii "$" ++ itoa n ++ CRLF)).get? 1 = some (itoa n) := by
    have := DOLLAR_INT_REGEXP_header n
    simpa [CRLF, ASCII_CR, ASCII_LF, ascii] using this
  rw [expectDollarInt_run]
  simp only [hr]
  simp only [Bool.false_eq_true, if_false, hre, Atoi_itoa, if_pos hn]

theorem payload_buffered (p rest : Bytes) (conn : List Bytes) (trace : List Event)
    (hlen : p.length ≤ maxAlloc) :
    awaitLpushCommand_payload p.length ⟨⟨p ++ CRLF ++ rest, conn⟩, trace⟩
      = .ok p ⟨⟨rest, conn⟩, trace⟩ := by
  have hread : (⟨p ++ CRLF ++ rest, conn⟩ : Reader).Read p.length
      = (p, false, ⟨ASCII_CR :: ASCII_LF :: rest, conn⟩) := by
    unfold Reader.Read
    by_cases h0 : p.length = 0
    · have hp : p = [] := List.length_eq_zero.1 h0
      subst hp
      rfl
    · have hne : (p ++ CRLF ++ rest).isEmpty = false := by
        cases p with
        | nil => exact absurd rfl h0
        | cons x t => rfl
      rw [if_neg h0]
      simp only [hne, Bool.false_eq_true, if_false]
      rw [List.append_assoc, List.take_left, List.drop_left]
      rfl
  rw [payload_run, if_neg (by omega)]
  simp only [hread]
  simp [Reader.ReadByte]

/-- A push frame that has arrived: when the buffer holds the frame that declares
the length of its payload `p`, `awaitLpushCommand_frame` accepts it and returns
exactly `p`, leaving what follows the frame. -/
theorem frame_accept_buffered (rt : Runtime) (p rest : Bytes) (conn : List Bytes)
    (trace : List Event) (hlen : p.length ≤ maxAlloc) :
    awaitLpushCommand_frame rt ⟨⟨pushFrame p.length p ++ rest, conn⟩, trace⟩
      = .ok p ⟨⟨rest, conn⟩, trace⟩ := by
  have h1 : pushFrame p.length p ++ rest
      = ascii "*3" ++ CRLF ++ (ascii "$5" ++ CRLF ++ (ascii "LPUSH" ++ CRLF
      ++ (ascii "$" ++ itoa REDIS_KEY_NAME.length ++ CRLF ++ (REDIS_KEY_NAME ++ CRLF
        ++ (ascii "$" ++ itoa p.length ++ CRLF ++ (p ++ CRLF ++ rest)))))) := by
    have : itoa REDIS_KEY_NAME.length = ascii "9" := by decide
    rw [this]
    simp [pushFrame, List.append_assoc]
    rfl
  have hmax : p.length < 2 ^ 63 := by
    have : maxAlloc < 2 ^ 63 := by decide
    omega
  rw [h1, awaitLpushCommand_frame_eq,
    Go.bind_ok (expect_buffered rt (ascii "*3") (ascii "*3") _ conn trace (by decide) rfl),
    Go.bind_ok (expect_buffered rt (ascii "$5") (ascii "$5") _ conn trace (by decide) rfl),
    Go.bind_ok (expect_buffered rt (ascii "LPUSH") (ascii "LPUSH") _ conn trace (by decide) rfl),
    Go.bind_ok (expect_buffered rt (ascii "$" ++ itoa REDIS_KEY_NAME.length)
      (ascii "$" ++ itoa REDIS_KEY_NAME.length) _ conn trace (lf_not_mem_dollar_itoa _) rfl),
    Go.bind_ok (expect_buffered rt REDIS_KEY_NAME REDIS_KEY_NAME _ conn trace (by decide) rfl),
    Go.bind_ok (expectDollarInt_buffered p.length _ conn trace hmax)]
  exact payload_buffered p rest conn trace hlen

/-! ## The length header -/

/-- C18, the defect: on a line without `$`, digits and CR the regular
expression finds no match, `FindStringSubmatch` returns `nil`, and `match[1]`
at line 215 is an index out of range: the run ends in a panic, not through
`log.Fatal`. So for the lines `$5` LF, `$` CR LF and `hello` CR LF. -/
theorem C18_unmatched_header_panics :
    expectDollarInt (World.start [ascii "$5\n"]) = .halt (.panic 215) ⟨⟨[], []⟩, []⟩
      ∧ expectDollarInt (World.start [ascii "$\r\n"]) = .halt (.panic 215) ⟨⟨[], []⟩, []⟩
      ∧ expectDollarInt (World.start [ascii "hello\r\n"]) = .halt (.panic 215) ⟨⟨[], []⟩, []⟩
      ∧ DOLLAR_INT_REGEXP (ascii "$5\n") = [] := by
  decide

/-! ## The upstream write -/

/-- C13, the defect: with the database `logs` in the configuration, the record
of scenario 1 is posted to the URL that ends in `/write?db=belugacdn&precision=s`,
not to the one that names the configured database: line 159 holds the name
`belugacdn` as a constant and never reads `config.InfluxdbDatabase`. -/
theorem C13_database_name_is_constant :
    logsConfig.InfluxdbDatabase = ascii "logs"
      ∧ insertIntoInfluxDb Runtime.inOrder scenarioRecord okClient logsConfig (World.start [])
        = .ok () ⟨⟨[], []⟩, [.posted (ascii "http://localhost:8086/write?db=belugacdn&precision=s")
            (ascii "application/x-www-form-urlencoded")
            (ascii "measurement status=\"200\",duration=0.125,response_size=512i 1600000000")]⟩
      ∧ specWriteUrl logsConfig = ascii "http://localhost:8086/write?db=logs&precision=s"
      ∧ writeUrl logsConfig ≠ specWriteUrl logsConfig := by
  decide

theorem insert_run_of_query_ok (rt : Runtime) (keyValues : GoMap) (client : HttpClient)
    (config : Config) (w : World) (query : Bytes)
    (hq : insertIntoInfluxDb_query rt keyValues config = .ok query) :
    insertIntoInfluxDb rt keyValues client config w =
      match client.Post (writeUrl config) (ascii "application/x-www-form-urlencoded") query with
      | none => .halt (.fatal 162) ⟨w.reader, w.trace ++
          [.posted (writeUrl config) (ascii "application/x-www-form-urlencoded") query]⟩
      | some s =>
        if s = 200 ∨ s = 204 then .ok () ⟨w.reader, w.trace ++
          [.posted (writeUrl config) (ascii "application/x-www-form-urlencoded") query]⟩
        else .halt (.fatal 168) ⟨w.reader, w.trace ++
          [.posted (writeUrl config) (ascii "application/x-www-form-urlencoded") query]⟩ := by
  unfold insertIntoInfluxDb
  rw [hq]
  simp only [bind, Go.bind, httpPost, writeUrl]
  cases client.Post (ascii "http://" ++ config.InfluxdbHost ++ ascii ":" ++ config.InfluxdbPort
      ++ ascii "/write?db=belugacdn&precision=s") (ascii "application/x-www-form-urlencoded")
      query with
  | none => rfl
  | some s =>
    simp only
    by_cases h1 : s = 200
    · simp [h1, pure, Go.pure]
    · by_cases h2 : s = 204
      · simp [h2, pure, Go.pure]
      · simp [h1, h2, logFatal]

theorem clientDo_length (c : HttpClient) (body : Bytes) (left : Nat) :
    ∀ req, (clientDo c body left req).1.length ≤ left := by
  induction left with
  | zero => intro req; simp [clientDo]
  | succ left ih =>
    intro req
    unfold clientDo
    cases c.RoundTrip req with
    | none => simp
    | some resp =>
      simp only
      by_cases h1 : (redirectBehavior req.Method resp).2.1 = false
      · rw [if_pos h1]
        simp
      · rw [if_neg h1]
        by_cases h2 : resp.Location = []
        · rw [if_pos h2]
          simp
        · rw [if_neg h2]
          cases c.resolve req.URL resp.Location with
          | none => simp
          | some u =>
            simp only [List.length_cons]
            exact Nat.succ_le_succ (ih _)

theorem clientDo_first (c : HttpClient) (body : Bytes) (left : Nat) (req : Request) :
    ∃ more, (clientDo c body (left + 1) req).1 = req :: more := by
  unfold clientDo
  cases c.RoundTrip req with
  | none => exact ⟨[], rfl⟩
  | some resp =>
    simp only
    by_cases h1 : (redirectBehavior req.Method resp).2.1 = false
    · rw [if_pos h1]
      exact ⟨[], rfl⟩
    · rw [if_neg h1]
      by_cases h2 : resp.Location = []
      · rw [if_pos h2]
        exact ⟨[], rfl⟩
      · rw [if_neg h2]
        cases c.resolve req.URL resp.Location with
        | none => exact ⟨[], rfl⟩
        | some u => exact ⟨_, rfl⟩

theorem redirectBehavior_other (m : Method) (resp : Response)
    (h : resp.StatusCode ∉ redirectCodes) : (redirectBehavior m resp).2.1 = false := by
  unfold redirectCodes at h
  simp only [List.mem_cons, List.mem_singleton, List.not_mem_nil, or_false, not_or] at h
  unfold redirectBehavior
  rw [if_neg (by tauto), if_neg (by tauto)]

/-- An answer that is no redirect ends the call: one request, and the status of
that answer. -/
theorem clientDo_final (c : HttpClient) (body : Bytes) (left : Nat) (req : Request)
    (resp : Response) (hr : c.RoundTrip req = some resp)
    (h : resp.StatusCode ∉ redirectCodes) :
    clientDo c body (left + 1) req = ([req], some resp.StatusCode) := by
  unfold clientDo
  rw [hr]
  simp only
  rw [if_pos (redirectBehavior_other _ _ h)]

theorem clientDo_failed (c : HttpClient) (body : Bytes) (left : Nat) (req : Request)
    (hr : c.RoundTrip req = none) : clientDo c body (left + 1) req = ([req], none) := by
  unfold clientDo
  rw [hr]

/-- C12, as stated, fails: upstream answers the POST of a well-framed, valid
push with status 307 and a `Location`. The client of line 261 follows the
redirect with a second POST of the statement, that one is answered with 204,
and `awaitLpushCommand` writes `:1` CR LF: a reply for an upstream status that
is neither 200 nor 204, and a second POST. -/
theorem C12_counterexample_redirect :
    redirectClient.RoundTrip ⟨.POST, writeUrl scenarioConfig, some (ascii "measurement 1")⟩
        = some ⟨307, ascii "/write2"⟩
      ∧ awaitLpushCommand Runtime.inOrder redirectClient scenarioConfig
          (World.start [pushFrame 12 (ascii "\x7b\"time\":\"1\"\x7d")])
        = .ok () ⟨⟨[], []⟩, [.parsed (ascii "\x7b\"time\":\"1\"\x7d"),
            .posted (ascii "http://localhost:8086/write?db=belugacdn&precision=s")
              (ascii "application/x-www-form-urlencoded") (ascii "measurement 1"),
            .wrote (ascii ":1\r\n")]⟩
      ∧ redirectClient.requests (writeUrl scenarioConfig) (ascii "measurement 1")
        = [⟨.POST, ascii "http://localhost:8086/write?db=belugacdn&precision=s",
              some (ascii "measurement 1")⟩,
            ⟨.POST, ascii "http://localhost:8086/write2", some (ascii "measurement 1")⟩] := by
  decide

/-- C12, amended: a push is acknowledged exactly when the response that
`influxdbClient.Post` returns, the last one after the client has followed
redirects, has status 200 or 204. For a push whose frame passes the framing
checks, whose payload parses and whose record is encoded, `awaitLpushCommand`
calls `Post` once and then writes `:1` CR LF in that case; with another final
status (line 168) and with an error of the call (line 162) the run ends there
with no reply. The call sends the POST of the statement first and at most ten
requests in all. When upstream answers that POST with a status that is no
redirect (not 301, 302, 303, 307, 308), or the exchange fails, it is the only
request, and the status returned is that answer. The framing checks pass for
every push frame that has arrived in the buffer and declares the length of its
payload (the peer is taken to accept the reply). -/
theorem C12_ack_iff_final_status_ok (rt : Runtime) (client : HttpClient) (config : Config)
    (w w1 : World) (logJson : Bytes) (keyValues : GoMap) (query : Bytes)
    (hf : awaitLpushCommand_frame rt w = .ok logJson w1)
    (hu : Unmarshal logJson = some keyValues)
    (hq : insertIntoInfluxDb_query rt keyValues config = .ok query) :
    awaitLpushCommand rt client config w =
        (match client.Post (writeUrl config) (ascii "application/x-www-form-urlencoded")
            query with
        | some s =>
          if s = 200 ∨ s = 204 then
            .ok () ⟨w1.reader, w.trace ++ [.parsed logJson,
              .posted (writeUrl config) (ascii "application/x-www-form-urlencoded") query,
              .wrote (ascii ":1\r\n")]⟩
          else
            .halt (.fatal 168) ⟨w1.reader, w.trace ++ [.parsed logJson,
              .posted (writeUrl config) (ascii "application/x-www-form-urlencoded") query]⟩
        | none =>
          .halt (.fatal 162) ⟨w1.reader, w.trace ++ [.parsed logJson,
            .posted (writeUrl config) (ascii "application/x-www-form-urlencoded") query]⟩)
      ∧ (∃ more, client.requests (writeUrl config) query
            = ⟨.POST, writeUrl config, some query⟩ :: more ∧ more.length < 10)
      ∧ (∀ resp, client.RoundTrip ⟨.POST, writeUrl config, some query⟩ = some resp →
          resp.StatusCode ∉ redirectCodes →
          client.requests (writeUrl config) query = [⟨.POST, writeUrl config, some query⟩]
            ∧ client.Post (writeUrl config) (ascii "application/x-www-form-urlencoded") query
              = some resp.StatusCode)
      ∧ (client.RoundTrip ⟨.POST, writeUrl config, some query⟩ = none →
          client.requests (writeUrl config) query = [⟨.POST, writeUrl config, some query⟩]
            ∧ client.Post (writeUrl config) (ascii "application/x-www-form-urlencoded") query
              = none)
      ∧ (∀ (p rest : Bytes) (conn : List Bytes) (trace : List Event), p.length ≤ maxAlloc →
          awaitLpushCommand_frame rt ⟨⟨pushFrame p.length p ++ rest, conn⟩, trace⟩
            = .ok p ⟨⟨rest, conn⟩, trace⟩) := by
  refine ⟨?_, ?_, ?_, ?_, fun p rest conn trace hlen =>
    frame_accept_buffered rt p rest conn trace hlen⟩
  · have hst := TraceStable.frame rt w
    rw [hf] at hst
    simp only [Res.world] at hst
    have hp : parseLogJson logJson w1
        = .ok keyValues ⟨w1.reader, w1.trace ++ [.parsed logJson]⟩ := by
      rw [parseLogJson_run, hu]
    have hi := insert_run_of_query_ok rt keyValues client config
      ⟨w1.reader, w1.trace ++ [.parsed logJson]⟩ query hq
    rw [awaitLpushCommand_eq, Go.bind_ok hf, Go.bind_ok hp, hst]
    rw [hst] at hi
    cases hc : client.Post (writeUrl config) (ascii "application/x-www-form-urlencoded")
        query with
    | none =>
      rw [hc] at hi
      rw [Go.bind_halt hi]
      simp
    | some s =>
      rw [hc] at hi
      simp only at hi ⊢
      by_cases hs : s = 200 ∨ s = 204
      · rw [if_pos hs] at hi ⊢
        rw [Go.bind_ok hi]
        simp [connWrite]
      · rw [if_neg hs] at hi ⊢
        rw [Go.bind_halt hi]
        simp
  · obtain ⟨more, hm⟩ := clientDo_first client query 9 ⟨.POST, writeUrl config, some query⟩
    refine ⟨more, hm, ?_⟩
    have := clientDo_length client query 10 ⟨.POST, writeUrl config, some query⟩
    rw [hm, List.length_cons] at this
    omega
  · intro resp hr hn
    have := clientDo_final client query 9 _ resp hr hn
    exact ⟨congrArg Prod.fst this, congrArg Prod.snd this⟩
  · intro hr
    have := clientDo_failed client query 9 _ hr
    exact ⟨congrArg Prod.fst this, congrArg Prod.snd this⟩

theorem C12_ack_iff_final_status_ok_witness :
    awaitLpushCommand_frame Runtime.inOrder
        (World.start [pushFrame 12 (ascii "\x7b\"time\":\"1\"\x7d")])
        = .ok (ascii "\x7b\"time\":\"1\"\x7d") ⟨⟨[], []⟩, []⟩
      ∧ Unmarshal (ascii "\x7b\"time\":\"1\"\x7d") = some [(ascii "time", .string (ascii "1"))]
      ∧ insertIntoInfluxDb_query Runtime.inOrder [(ascii "time", .string (ascii "1"))]
          scenarioConfig = .ok (ascii "measurement 1")
      ∧ awaitLpushCommand Runtime.inOrder (statusClient 500) scenarioConfig
          (World.start [pushFrame 12 (ascii "\x7b\"time\":\"1\"\x7d")])
        = .halt (.fatal 168) ⟨⟨[], []⟩, [.parsed (ascii "\x7b\"time\":\"1\"\x7d"),
            .posted (ascii "http://localhost:8086/write?db=belugacdn&precision=s")
              (ascii "application/x-www-form-urlencoded") (ascii "measurement 1")]⟩ :=
  ⟨by decide, by decide, rfl,
    (C12_ack_iff_final_status_ok Runtime.inOrder (statusClient 500) scenarioConfig
      (World.start [pushFrame 12 (ascii "\x7b\"time\":\"1\"\x7d")]) ⟨⟨[], []⟩, []⟩
      (ascii "\x7b\"time\":\"1\"\x7d") [(ascii "time", .string (ascii "1"))]
      (ascii "measurement 1") (by decide) (by decide) rfl).1.trans (by decide)⟩

/-! ## What an encoded record looks like -/

theorem badField_of_not_good (e : Bytes × Value) (ht : e.1 ≠ ascii "time")
    (hg : ¬ GoodField e) : BadField e := by
  by_cases hk : IsFieldKey e.1
  · by_cases hs : ∃ v, e.2 = .string v
    · obtain ⟨v, hv⟩ := hs
      by_cases hi : (e.1 = ascii "response_size" ∨ e.1 = ascii "header_size") ∧ ¬ IsDigits v
      · apply badField_of_integer e hi.1
        rintro ⟨v1, h1, h2⟩
        rw [hv] at h1
        cases h1
        exact hi.2 h2
      · by_cases hf : e.1 = ascii "duration" ∧ ¬ IsDigitsDotDigits v
        · apply badField_of_float e hf.1
          rintro ⟨v1, h1, h2⟩
          rw [hv] at h1
          cases h1
          exact hf.2 h2
        · exfalso
          apply hg
          refine ⟨hk, v, hv, ?_, ?_⟩
          · intro h1
            by_contra h2
            exact hi ⟨h1, h2⟩
          · intro h1
            by_contra h2
            exact hf ⟨h1, h2⟩
    · exact badField_of_not_string e ht (fun v hv => hs ⟨v, hv⟩)
  · exact badField_of_key e ht hk

/-- A record that `insertIntoInfluxDb` encodes: its `time` is a string of
digits, every other entry is a well-formed field, and the statement is the one
of the specification. -/
theorem query_ok_inv (rt : Runtime) (keyValues : GoMap) (config : Config) (statement : Bytes)
    (hq : insertIntoInfluxDb_query rt keyValues config = .ok statement) :
    ∃ time, keyValues.get (ascii "time") = some (.string time) ∧ IsDigits time
      ∧ (∀ e ∈ keyValues, e.1 ≠ ascii "time" → GoodField e)
      ∧ statement = statementText config.InfluxdbMeasurement
          (fieldsOf (rt.rangeOrder keyValues)) time := by
  have htime : ∃ t, keyValues.get (ascii "time") = some (.string t) ∧ IsDigits t := by
    by_contra hno
    obtain ⟨h, hh⟩ := query_error_of_bad_time rt keyValues config hno
    rw [hq] at hh
    cases hh
  obtain ⟨time, h1, h2⟩ := htime
  have hgood : ∀ e ∈ keyValues, e.1 ≠ ascii "time" → GoodField e := by
    intro e he ht
    by_contra hno
    obtain ⟨h, hh⟩ := query_error_of_bad rt keyValues config
      ⟨e, he, badField_of_not_good e ht hno⟩
    rw [hq] at hh
    cases hh
  refine ⟨time, h1, h2, hgood, ?_⟩
  have := query_of_good rt config keyValues time h1 h2 hgood
  rw [hq] at this
  exact Except.ok.inj this

/-! ## Line feeds in the statement -/

theorem lf_not_mem_digits (s : Bytes) (h : IsDigits s) : ASCII_LF ∉ s := by
  intro hm
  have := h.2 _ hm
  revert this
  decide

theorem lf_not_mem_fieldKey (k : Bytes) (h : IsFieldKey k) : ASCII_LF ∉ k := by
  intro hm
  have := h.2 _ hm
  revert this
  decide

theorem lf_not_mem_float (s : Bytes) (h : IsDigitsDotDigits s) : ASCII_LF ∉ s := by
  obtain ⟨a, b, ha, hb, rfl⟩ := h
  intro hm
  rcases List.mem_append.1 hm with h1 | h1
  · exact lf_not_mem_digits a ha h1
  · rcases List.mem_cons.1 h1 with h2 | h2
    · revert h2
      decide
    · exact lf_not_mem_digits b hb h2

theorem mem_quoteEscaped (x : UInt8) (v : Bytes) (h : x ∈ quoteEscaped v) :
    x ∈ v ∨ x = 0x5C := by
  unfold quoteEscaped at h
  obtain ⟨b, hb, hx⟩ := List.mem_flatMap.1 h
  split_ifs at hx with c
  · rcases List.mem_cons.1 hx with h1 | h1
    · exact Or.inr h1
    · rw [List.mem_singleton] at h1
      rw [h1, ← c]
      exact Or.inl hb
  · rw [List.mem_singleton] at hx
    rw [hx]
    exact Or.inl hb

/-- A field holds an LF only inside a quoted value. -/
theorem lf_not_mem_fieldText (e : Bytes × Value) (hg : GoodField e)
    (hv : ∀ s, e.2 = .string s → IsQuotedKey e.1 → ASCII_LF ∉ s) (ht : e.1 ≠ ascii "time") :
    ASCII_LF ∉ fieldText e.1 e.2.text := by
  obtain ⟨hk, v, hs, hint, hfl⟩ := hg
  have hkey := lf_not_mem_fieldKey _ hk
  rw [hs]
  simp only [Value.text]
  unfold fieldText
  split_ifs with c1 c2
  · have := lf_not_mem_digits v (hint c1)
    simp only [List.mem_append, not_or]
    exact ⟨⟨⟨hkey, by decide⟩, this⟩, by decide⟩
  · have := lf_not_mem_float v (hfl c2)
    simp only [List.mem_append, not_or]
    exact ⟨⟨hkey, by decide⟩, this⟩
  · have hq : IsQuotedKey e.1 :=
      ⟨ht, fun h => c1 (Or.inl h), fun h => c1 (Or.inr h), c2⟩
    have hvs := hv v hs hq
    have : ASCII_LF ∉ quoteEscaped v := by
      intro hm
      rcases mem_quoteEscaped _ _ hm with h1 | h1
      · exact hvs h1
      · revert h1
        decide
    simp only [List.mem_append, not_or]
    exact ⟨⟨⟨⟨hkey, by decide⟩, by decide⟩, this⟩, by decide⟩

theorem mem_commaFields (x : UInt8) (fs : List Bytes) (h : x ∈ commaFields fs) :
    x = 0x2C ∨ ∃ f ∈ fs, x ∈ f := by
  unfold commaFields at h
  obtain ⟨f, hf, hx⟩ := List.mem_flatMap.1 h
  rcases List.mem_append.1 hx with h1 | h1
  · left
    have e : ascii "," = [0x2C] := by decide
    rw [e, List.mem_singleton] at h1
    exact h1
  · exact Or.inr ⟨f, hf, h1⟩

theorem mem_statementText (x : UInt8) (m : Bytes) (fs : List Bytes) (t : Bytes)
    (h : x ∈ statementText m fs t) :
    x ∈ m ∨ x = 0x20 ∨ x = 0x2C ∨ (∃ f ∈ fs, x ∈ f) ∨ x ∈ t := by
  unfold statementText at h
  have hsp : ∀ y, y ∈ ascii " " → y = 0x20 := by
    intro y hy
    have e : ascii " " = [0x20] := by decide
    rw [e, List.mem_singleton] at hy
    exact hy
  rcases List.mem_append.1 h with h1 | h1
  · rcases List.mem_append.1 h1 with h2 | h2
    · rcases List.mem_append.1 h2 with h3 | h3
      · exact Or.inl h3
      · cases fs with
        | nil => simp at h3
        | cons f fs =>
          rw [if_neg (by simp), intercalate_cons] at h3
          rcases List.mem_append.1 h3 with h4 | h4
          · exact Or.inr (Or.inl (hsp _ h4))
          · rcases List.mem_append.1 h4 with h5 | h5
            · exact Or.inr (Or.inr (Or.inr (Or.inl ⟨f, List.mem_cons_self _ _, h5⟩)))
            · rcases mem_commaFields _ _ h5 with h6 | ⟨g, hg, h6⟩
              · exact Or.inr (Or.inr (Or.inl h6))
              · exact Or.inr (Or.inr (Or.inr (Or.inl ⟨g, List.mem_cons_of_mem _ hg, h6⟩)))
    · exact Or.inr (Or.inl (hsp _ h2))
  · exact Or.inr (Or.inr (Or.inr (Or.inr h1)))

/-- C16, as stated, fails: the payload `{"time":"1","a":"x\ny"}`, whose value
for `a` holds an LF once decoded, is encoded with success, and the statement,
`measurement a="x` LF `y" 1`, holds that LF: the loop copies every byte of a
quoted value but the double quote. -/
theorem C16_counterexample_lf_in_value :
    Unmarshal (ascii "\x7b\"time\":\"1\",\"a\":\"x\\ny\"\x7d")
        = some [(ascii "time", .string (ascii "1")), (ascii "a", .string (ascii "x\ny"))]
      ∧ ASCII_LF ∉ scenarioConfig.InfluxdbMeasurement
      ∧ insertIntoInfluxDb_query Runtime.inOrder
          [(ascii "time", .string (ascii "1")), (ascii "a", .string (ascii "x\ny"))]
          scenarioConfig = .ok (ascii "measurement a=\"x\ny\" 1")
      ∧ ASCII_LF ∈ ascii "measurement a=\"x\ny\" 1" :=
  ⟨by decide, by decide, rfl, by decide⟩

/-- C16, amended: when the measurement name holds no LF and no value that is
written between double quotes holds one, the statement of a record that
`insertIntoInfluxDb` encodes holds no LF. -/
theorem C16_statement_one_line (rt : Runtime) (config : Config) (keyValues : GoMap)
    (statement : Bytes) (hm : ASCII_LF ∉ config.InfluxdbMeasurement)
    (hv : ∀ k s, (k, Value.string s) ∈ keyValues → IsQuotedKey k → ASCII_LF ∉ s)
    (hq : insertIntoInfluxDb_query rt keyValues config = .ok statement) :
    ASCII_LF ∉ statement := by
  obtain ⟨time, _, hdig, hgood, hst⟩ := query_ok_inv rt keyValues config statement hq
  rw [hst]
  intro hmem
  rcases mem_statementText _ _ _ _ hmem with h | h | h | ⟨f, hf, h⟩ | h
  · exact hm h
  · revert h
    decide
  · revert h
    decide
  · unfold fieldsOf at hf
    obtain ⟨e, he, rfl⟩ := List.mem_map.1 hf
    obtain ⟨he1, he2⟩ := List.mem_filter.1 he
    have ht : e.1 ≠ ascii "time" := by simpa using he2
    have hin : e ∈ keyValues := ((rt.rangeOrder_perm keyValues).mem_iff).1 he1
    refine lf_not_mem_fieldText e (hgood e hin ht) ?_ ht h
    intro s hs hk
    apply hv e.1 s ?_ hk
    rw [← hs]
    exact hin
  · exact lf_not_mem_digits time hdig h

theorem C16_statement_one_line_witness :
    ASCII_LF ∉ scenarioConfig.InfluxdbMeasurement
      ∧ insertIntoInfluxDb_query Runtime.inOrder
          [(ascii "time", .string (ascii "1")), (ascii "a", .string (ascii "x y"))]
          scenarioConfig = .ok (ascii "measurement a=\"x y\" 1")
      ∧ ASCII_LF ∉ ascii "measurement a=\"x y\" 1" :=
  ⟨by decide, rfl,
    C16_statement_one_line Runtime.inOrder scenarioConfig
      [(ascii "time", .string (ascii "1")), (ascii "a", .string (ascii "x y"))]
      (ascii "measurement a=\"x y\" 1") (by decide)
      (by
        intro k s hmem _
        simp only [List.mem_cons, Prod.mk.injEq, Value.string.injEq, List.mem_singleton,
          List.not_mem_nil, or_false] at hmem
        rcases hmem with ⟨_, rfl⟩ | ⟨_, rfl⟩ <;> decide)
      rfl⟩

/-! ## The order of the fields -/

theorem fieldsOf_perm (a b : List (Bytes × Value)) (h : a.Perm b) :
    (fieldsOf a).Perm (fieldsOf b) := by
  unfold fieldsOf
  exact (h.filter _).map _

theorem scenario_unmarshal : Unmarshal scenarioPayload = some scenarioRecord := by
  decide

/-- C4, as stated, fails: the same payload, that of scenario 1, is encoded with
the fields in another order when the `range` over the map starts at another
entry: the statement posted is not the one the claim gives. -/
theorem C4_counterexample_iteration_order :
    processPayload (Runtime.rotated 2) okClient scenarioConfig scenarioPayload (World.start [])
        = .ok () ⟨⟨[], []⟩, [.parsed scenarioPayload,
            .posted (writeUrl scenarioConfig) (ascii "application/x-www-form-urlencoded")
              (ascii "measurement duration=0.125,response_size=512i,status=\"200\" 1600000000")]⟩
      ∧ ascii "measurement duration=0.125,response_size=512i,status=\"200\" 1600000000"
        ≠ ascii "measurement status=\"200\",duration=0.125,response_size=512i 1600000000" := by
  decide

/-- C4, amended: the fields are emitted in the order in which the `range` of
line 110 visits the entries of the map. For every payload and measurement name,
the statement that `parseLogJson` followed by the statement construction of
`insertIntoInfluxDb` yields is the measurement, the fields of the entries other
than `time` in the order of the visit, and the time: it is fixed by the payload
bytes and that order. Whether the record is encoded does not depend on the
order, and another order gives the same fields in its own order. For the payload
of scenario 1 and the measurement name `measurement`, the statement is
`measurement`, a space, the fields `status="200"`, `duration=0.125` and
`response_size=512i` in the order in which their entries are visited, separated
by commas, a space and `1600000000`; it is the statement of the scenario when
the entries are visited in the order in which the payload gives the keys. -/
theorem C4_statement_follows_iteration_order (rt : Runtime) (config : Config)
    (payload : Bytes) (keyValues : GoMap) (hparse : Unmarshal payload = some keyValues) :
    (∀ statement, insertIntoInfluxDb_query rt keyValues config = .ok statement →
        ∃ time, keyValues.get (ascii "time") = some (.string time)
          ∧ statement = statementText config.InfluxdbMeasurement
              (fieldsOf (rt.rangeOrder keyValues)) time
          ∧ ∀ rt2 : Runtime,
              insertIntoInfluxDb_query rt2 keyValues config
                = .ok (statementText config.InfluxdbMeasurement
                    (fieldsOf (rt2.rangeOrder keyValues)) time)
              ∧ (fieldsOf (rt2.rangeOrder keyValues)).Perm (fieldsOf (rt.rangeOrder keyValues)))
      ∧ (∀ h, insertIntoInfluxDb_query rt keyValues config = .error h →
          ∀ rt2 : Runtime, ∃ h2, insertIntoInfluxDb_query rt2 keyValues config = .error h2)
      ∧ (payload = scenarioPayload → config.InfluxdbMeasurement = ascii "measurement" →
          insertIntoInfluxDb_query rt keyValues config
              = .ok (ascii "measurement " ++ (ascii ",").intercalate
                  (fieldsOf (rt.rangeOrder scenarioRecord)) ++ ascii " 1600000000")
            ∧ fieldsOf scenarioRecord = [ascii "status=\"200\"", ascii "duration=0.125",
                ascii "response_size=512i"]
            ∧ (rt.rangeOrder keyValues = keyValues →
                insertIntoInfluxDb_query rt keyValues config
                  = .ok (ascii
                    "measurement status=\"200\",duration=0.125,response_size=512i 1600000000"))) := by
  have hA : ∀ (r : Runtime) statement, insertIntoInfluxDb_query r keyValues config
      = .ok statement →
      ∃ time, keyValues.get (ascii "time") = some (.string time)
        ∧ statement = statementText config.InfluxdbMeasurement
            (fieldsOf (r.rangeOrder keyValues)) time
        ∧ ∀ rt2 : Runtime,
            insertIntoInfluxDb_query rt2 keyValues config
              = .ok (statementText config.InfluxdbMeasurement
                  (fieldsOf (rt2.rangeOrder keyValues)) time)
            ∧ (fieldsOf (rt2.rangeOrder keyValues)).Perm (fieldsOf (r.rangeOrder keyValues)) := by
    intro r statement hq
    obtain ⟨time, ht, hd, hg, hst⟩ := query_ok_inv r keyValues config statement hq
    refine ⟨time, ht, hst, fun rt2 => ⟨query_of_good rt2 config keyValues time ht hd hg, ?_⟩⟩
    exact fieldsOf_perm _ _
      ((rt2.rangeOrder_perm keyValues).trans (r.rangeOrder_perm keyValues).symm)
  refine ⟨hA rt, ?_, ?_⟩
  · intro h hq rt2
    cases h2 : insertIntoInfluxDb_query rt2 keyValues config with
    | error e => exact ⟨e, rfl⟩
    | ok statement =>
      obtain ⟨time, _, _, hall⟩ := hA rt2 statement h2
      have := (hall rt).1
      rw [hq] at this
      cases this
  · intro hp hm
    subst hp
    rw [scenario_unmarshal] at hparse
    simp only [Option.some.injEq] at hparse
    subst hparse
    have hq := query_of_good rt config scenarioRecord (ascii "1600000000") (by decide)
      ⟨by decide, by decide⟩ (fun e he ht => goodField_of_check e (by revert e; decide))
    have h2 : fieldsOf scenarioRecord
        = [ascii "status=\"200\"", ascii "duration=0.125", ascii "response_size=512i"] := by
      decide
    have hperm : (fieldsOf (rt.rangeOrder scenarioRecord)).Perm (fieldsOf scenarioRecord) :=
      fieldsOf_perm _ _ (rt.rangeOrder_perm scenarioRecord)
    have hne : fieldsOf (rt.rangeOrder scenarioRecord) ≠ [] := by
      intro h0
      rw [h0, h2] at hperm
      simp at hperm
    refine ⟨?_, h2, ?_⟩
    · rw [hq, hm]
      simp only [statementText, hne, if_false]
      have : ascii "measurement " = ascii "measurement" ++ ascii " " := by decide
      rw [this]
      simp [List.append_assoc]
      decide
    · intro hid
      rw [hq, hm, hid]
      have : statementText (ascii "measurement") (fieldsOf scenarioRecord) (ascii "1600000000")
          = ascii "measurement status=\"200\",duration=0.125,response_size=512i 1600000000" := by
        decide
      rw [this]

theorem C4_statement_follows_iteration_order_witness :
    Unmarshal scenarioPayload = some scenarioRecord
      ∧ (Runtime.rotated 3).rangeOrder scenarioRecord
        = [(ascii "response_size", .string (ascii "512")), (ascii "time", .string (ascii "1600000000")),
            (ascii "status", .string (ascii "200")), (ascii "duration", .string (ascii "0.125"))]
      ∧ insertIntoInfluxDb_query (Runtime.rotated 3) scenarioRecord scenarioConfig
        = .ok (ascii "measurement response_size=512i,status=\"200\",duration=0.125 1600000000") :=
  ⟨by decide, by decide,
    ((C4_statement_follows_iteration_order (Runtime.rotated 3) scenarioConfig scenarioPayload
      scenarioRecord (by decide)).2.2 rfl rfl).1.trans (congrArg Except.ok (by decide))⟩

/-! ## Letter case of the header tokens -/

theorem asciiUpper_toNat (b : UInt8) :
    (asciiUpper b).toNat
      = if 0x61 ≤ b.toNat ∧ b.toNat ≤ 0x7A then b.toNat - 0x20 else b.toNat := by
  unfold asciiUpper
  by_cases h : 0x61 ≤ b.toNat ∧ b.toNat ≤ 0x7A
  · have hle : (0x20 : UInt8) ≤ b := by
      show (0x20 : UInt8).toNat ≤ b.toNat
      have : (0x20 : UInt8).toNat = 32 := rfl
      omega
    have h32 : (0x20 : UInt8).toNat = 32 := rfl
    simp only [h.1, h.2, decide_True, Bool.and_self, if_true, and_self,
      UInt8.toNat_sub_of_le b 0x20 hle, h32]
  · have h1 : (decide (0x61 ≤ b.toNat) && decide (b.toNat ≤ 0x7A)) = false := by
      simpa using h
    rw [if_neg h]
    simp only [h1]
    rfl

theorem isLetter_props (b : UInt8) (h : isLetter b = true) :
    b.toNat < 0x80 ∧ IsSpace b.toNat = false ∧ b ≠ ASCII_LF := by
  unfold isLetter at h
  simp only [Bool.or_eq_true, Bool.and_eq_true, decide_eq_true_eq] at h
  refine ⟨by omega, ?_, ?_⟩
  · unfold IsSpace
    simp
    omega
  · intro e
    rw [e] at h
    revert h
    decide

theorem isLetter_of_same_upper (b c : UInt8) (hc : isLetter c = true)
    (h : asciiUpper b = asciiUpper c) : isLetter b = true := by
  have := congrArg UInt8.toNat h
  rw [asciiUpper_toNat, asciiUpper_toNat] at this
  unfold isLetter at hc ⊢
  simp only [Bool.or_eq_true, Bool.and_eq_true, decide_eq_true_eq] at hc ⊢
  split_ifs at this <;> omega

theorem letters_of_sameUpToCase (t e : Bytes) (he : ∀ b ∈ e, isLetter b = true)
    (h : SameUpToCase t e) : ∀ b ∈ t, isLetter b = true := by
  unfold SameUpToCase at h
  induction t generalizing e with
  | nil => simp
  | cons x t ih =>
    cases e with
    | nil => simp at h
    | cons y e =>
      simp only [List.map_cons, List.cons.injEq] at h
      intro b hb
      rcases List.mem_cons.1 hb with rfl | hb1
      · exact isLetter_of_same_upper _ y (he y (List.mem_cons_self _ _)) h.1
      · exact ih e (fun c hc => he c (List.mem_cons_of_mem _ hc)) h.2 b hb1

theorem TrimSpace_letters (t : Bytes) (ht : ∀ b ∈ t, isLetter b = true) : TrimSpace t = t := by
  cases t with
  | nil => decide
  | cons x s =>
    have hx := isLetter_props x (ht x (List.mem_cons_self _ _))
    have hne : x :: s ≠ [] := by simp
    have hl := isLetter_props ((x :: s).getLast hne) (ht _ (List.getLast_mem hne))
    exact TrimSpace_ascii_ends x ((x :: s).getLast hne) _ rfl
      (List.getLast?_eq_getLast _ hne) hx.1 hl.1 hx.2.1 hl.2.1

/-- A line that holds `e` in any letter case passes `expect e`, for `e` made of
ASCII letters. -/
theorem expect_any_case (rt : Runtime) (e t rest : Bytes) (w : World)
    (he : ∀ b ∈ e, isLetter b = true) (hcase : SameUpToCase t e)
    (hs : w.reader.stream = t ++ CRLF ++ rest) :
    ∃ r1, expect rt e w = .ok () ⟨r1, w.trace⟩ ∧ r1.stream = rest := by
  have ht := letters_of_sameUpToCase t e he hcase
  have hlf : ASCII_LF ∉ t := fun hm => (isLetter_props _ (ht _ hm)).2.2 rfl
  apply expect_token rt e t rest w hs hlf
  rw [TrimSpace_letters t ht, ToUpper_ascii _ t (fun b hb => (isLetter_props b (ht b hb)).1),
    ToUpper_ascii _ e (fun b hb => (isLetter_props b (he b hb)).1)]
  exact hcase

/-- C17: header tokens are matched without regard to letter case. For every
spelling `a` of `AUTH`, `l` of `LPUSH` and `k` of `belugacdn` that differs from
the word in letter case only, the authenticate frame written with `a` is
accepted (for a password that holds no LF and that `strings.TrimSpace` leaves
unchanged), the head of the push frame written with `l` and `k` passes its five
`expect` checks, and in general `expect e` accepts the line `t` CR LF when `t`
is `e`, a word of ASCII letters, in another letter case. -/
theorem C17_header_tokens_any_case (rt : Runtime) (a l k p rest : Bytes) (w : World)
    (ha : SameUpToCase a (ascii "AUTH")) (hl : SameUpToCase l (ascii "LPUSH"))
    (hk : SameUpToCase k REDIS_KEY_NAME) (hlf : ASCII_LF ∉ p) (htrim : TrimSpace p = p) :
    (w.reader.stream = authFrameWith a p ++ rest →
        ∃ r1, awaitAuthCommand rt p w = .ok () ⟨r1, w.trace ++ [.wrote (ascii "+OK\r\n")]⟩
          ∧ r1.stream = rest)
      ∧ (w.reader.stream = pushHeadWith l k ++ rest →
        ∃ r5, r5.stream = rest ∧ awaitLpushCommand_frame rt w
          = (expectDollarInt >>= fun n => awaitLpushCommand_payload n) ⟨r5, w.trace⟩)
      ∧ (∀ e t, (∀ b ∈ e, isLetter b = true) → SameUpToCase t e →
        w.reader.stream = t ++ CRLF ++ rest →
        ∃ r1, expect rt e w = .ok () ⟨r1, w.trace⟩ ∧ r1.stream = rest) := by
  refine ⟨?_, ?_, ?_⟩
  · intro hs
    have h1 : w.reader.stream = ascii "*2" ++ CRLF ++ (ascii "$4" ++ CRLF ++ (a ++ CRLF
        ++ (ascii "$" ++ itoa p.length ++ CRLF ++ (p ++ CRLF ++ rest)))) := by
      rw [hs]
      simp [authFrameWith, List.append_assoc]
      rfl
    obtain ⟨r1, e1, s1⟩ := expect_const rt (ascii "*2") _ w h1 (by decide) (by decide)
    obtain ⟨r2, e2, s2⟩ := expect_const rt (ascii "$4") _ ⟨r1, w.trace⟩ s1 (by decide) (by decide)
    obtain ⟨r3, e3, s3⟩ := expect_any_case rt (ascii "AUTH") a _ ⟨r2, w.trace⟩ (by decide) ha s2
    obtain ⟨r4, e4, s4⟩ := expect_const rt (ascii "$" ++ itoa p.length) _ ⟨r3, w.trace⟩ s3
      (lf_not_mem_dollar_itoa _) (TrimSpace_dollar_itoa _)
    obtain ⟨r5, e5, s5⟩ := expect_const rt p _ ⟨r4, w.trace⟩ s4 hlf htrim
    refine ⟨r5, ?_, s5⟩
    rw [awaitAuthCommand_eq, Go.bind_ok e1, Go.bind_ok e2, Go.bind_ok e3, Go.bind_ok e4,
      Go.bind_ok e5]
    rfl
  · intro hs
    have h1 : w.reader.stream = ascii "*3" ++ CRLF ++ (ascii "$5" ++ CRLF ++ (l ++ CRLF
        ++ (ascii "$" ++ itoa REDIS_KEY_NAME.length ++ CRLF ++ (k ++ CRLF ++ rest)))) := by
      rw [hs]
      have : itoa REDIS_KEY_NAME.length = ascii "9" := by decide
      rw [this]
      simp [pushHeadWith, List.append_assoc]
      rfl
    obtain ⟨r1, e1, s1⟩ := expect_const rt (ascii "*3") _ w h1 (by decide) (by decide)
    obtain ⟨r2, e2, s2⟩ := expect_const rt (ascii "$5") _ ⟨r1, w.trace⟩ s1 (by decide) (by decide)
    obtain ⟨r3, e3, s3⟩ := expect_any_case rt (ascii "LPUSH") l _ ⟨r2, w.trace⟩ (by decide) hl s2
    obtain ⟨r4, e4, s4⟩ := expect_const rt (ascii "$" ++ itoa REDIS_KEY_NAME.length) _
      ⟨r3, w.trace⟩ s3 (lf_not_mem_dollar_itoa _) (TrimSpace_dollar_itoa _)
    obtain ⟨r5, e5, s5⟩ := expect_any_case rt REDIS_KEY_NAME k _ ⟨r4, w.trace⟩ (by decide) hk s4
    refine ⟨r5, s5, ?_⟩
    rw [awaitLpushCommand_frame_eq, Go.bind_ok e1, Go.bind_ok e2, Go.bind_ok e3, Go.bind_ok e4,
      Go.bind_ok e5]
  · intro e t he hcase hs
    exact expect_any_case rt e t rest w he hcase hs

theorem C17_header_tokens_any_case_witness :
    SameUpToCase (ascii "auth") (ascii "AUTH") ∧ SameUpToCase (ascii "Lpush") (ascii "LPUSH")
      ∧ SameUpToCase (ascii "BelugaCDN") REDIS_KEY_NAME
      ∧ ASCII_LF ∉ ascii "secret" ∧ TrimSpace (ascii "secret") = ascii "secret"
      ∧ (World.start [authFrameWith (ascii "auth") (ascii "secret") ++ ascii "x"]).reader.stream
          = authFrameWith (ascii "auth") (ascii "secret") ++ ascii "x"
      ∧ ∃ r1, awaitAuthCommand Runtime.inOrder (ascii "secret")
            (World.start [authFrameWith (ascii "auth") (ascii "secret") ++ ascii "x"])
          = .ok () ⟨r1, (World.start [authFrameWith (ascii "auth") (ascii "secret")
              ++ ascii "x"]).trace ++ [.wrote (ascii "+OK\r\n")]⟩
        ∧ r1.stream = ascii "x" :=
  ⟨by decide, by decide, by decide, by decide, by decide, by decide,
    (C17_header_tokens_any_case Runtime.inOrder (ascii "auth") (ascii "Lpush")
      (ascii "BelugaCDN") (ascii "secret") (ascii "x")
      (World.start [authFrameWith (ascii "auth") (ascii "secret") ++ ascii "x"])
      (by decide) (by decide) (by decide) (by decide) (by decide)).1 (by decide)⟩

/-! ## The round trip through a reference reader -/

theorem refString_quote (rest : Bytes) : refString (0x22 :: rest) = some ([], rest) := by
  rw [refString.eq_def]
  simp

theorem refString_plain (b : UInt8) (rest : Bytes) (h1 : b ≠ 0x22) (h2 : b ≠ 0x5C) :
    refString (b :: rest) = (refString rest).map (fun x => (b :: x.1, x.2)) := by
  rw [refString.eq_def]
  simp [h1, h2]

theorem refString_escaped_quote (rest : Bytes) :
    refString (0x5C :: 0x22 :: rest) = (refString rest).map (fun x => (0x22 :: x.1, x.2)) := by
  rw [refString.eq_def]
  simp

/-- A quoted value without backslash is read back as it was. -/
theorem refString_escapeQuotes (v rest : Bytes) (h : (0x5C : UInt8) ∉ v) :
    refString (escapeQuotes v ++ 0x22 :: rest) = some (v, rest) := by
  induction v with
  | nil => exact refString_quote rest
  | cons b s ih =>
    have hb : b ≠ 0x5C := fun e => h (e ▸ List.mem_cons_self _ _)
    have hs : (0x5C : UInt8) ∉ s := fun e => h (List.mem_cons_of_mem _ e)
    by_cases hq : b = 0x22
    · subst hq
      have : escapeQuotes (0x22 :: s) = 0x5C :: 0x22 :: escapeQuotes s := by
        simp [escapeQuotes]
      rw [this, List.cons_append, List.cons_append, refString_escaped_quote, ih hs]
      rfl
    · have : escapeQuotes (b :: s) = b :: escapeQuotes s := by
        simp [escapeQuotes, hq]
      rw [this, List.cons_append, refString_plain b _ hq hb, ih hs]
      rfl

/-- C11, the defect: `insertIntoInfluxDb` escapes the double quotes of a quoted
value with a backslash and leaves the backslashes of the value as they are. The
record of the payload `{"time":"1","path":"a\\"}`, whose `path` is `a` and one
backslash, is encoded as `measurement path="a\" 1`, which the reference reader
cannot read: the backslash escapes the closing quote. The record with the
values `x\`, `,injected=1i,\` and `z` for `a`, `b` and `c` is encoded as a
statement that the reader reads as three other fields, one of them the integer
`injected`. A value with commas, spaces, `=` and double quotes is read back as
it was. -/
theorem C11_backslash_not_escaped :
    Unmarshal (ascii "\x7b\"time\":\"1\",\"path\":\"a\\\\\"\x7d")
        = some [(ascii "time", .string (ascii "1")), (ascii "path", .string (ascii "a\\"))]
      ∧ insertIntoInfluxDb_query Runtime.inOrder
          [(ascii "time", .string (ascii "1")), (ascii "path", .string (ascii "a\\"))]
          scenarioConfig = .ok (ascii "measurement path=\"a\\\" 1")
      ∧ refDecode (ascii "measurement path=\"a\\\" 1") = none
      ∧ insertIntoInfluxDb_query Runtime.inOrder
          [(ascii "time", .string (ascii "1")), (ascii "a", .string (ascii "x\\")),
            (ascii "b", .string (ascii ",injected=1i,\\")), (ascii "c", .string (ascii "z"))]
          scenarioConfig
        = .ok (ascii "measurement a=\"x\\\",b=\",injected=1i,\\\",c=\"z\" 1")
      ∧ refDecode (ascii "measurement a=\"x\\\",b=\",injected=1i,\\\",c=\"z\" 1")
        = some (ascii "measurement", [(ascii "a", .string (ascii "x\",b=")),
            (ascii "injected", .integer (ascii "1")), (ascii "\\\",c", .string (ascii "z"))],
            ascii "1")
      ∧ insertIntoInfluxDb_query Runtime.inOrder
          [(ascii "time", .string (ascii "1")), (ascii "q", .string (ascii "a, b=\"c\""))]
          scenarioConfig = .ok (ascii "measurement q=\"a, b=\\\"c\\\"\" 1")
      ∧ refDecode (ascii "measurement q=\"a, b=\\\"c\\\"\" 1")
        = some (refRecord (ascii "measurement")
            [(ascii "time", .string (ascii "1")), (ascii "q", .string (ascii "a, b=\"c\""))]
            (ascii "1")) :=
  ⟨by decide, rfl, by decide, rfl, by decide, rfl, by decide⟩

/-! ## Reading on -/

theorem splitAfter_line_ne_nil (d : UInt8) (a line rest : Bytes)
    (h : splitAfter d a = some (line, rest)) : line ≠ [] := by
  cases a with
  | nil => simp [splitAfter] at h
  | cons x a =>
    unfold splitAfter at h
    split_ifs at h
    · cases h
      simp
    · obtain ⟨y, _, hy⟩ := Option.map_eq_some'.1 h
      cases hy
      simp

theorem ReadBytes_shorter (r : Reader) (d : UInt8) (h : (r.ReadBytes d).2.1 = false) :
    (r.ReadBytes d).2.2.stream.length < r.stream.length := by
  cases hs : splitAfter d r.stream with
  | none =>
    obtain ⟨r1, h1, _⟩ := ReadBytes_eof r d hs
    rw [h1] at h
    cases h
  | some p =>
    obtain ⟨line, rest⟩ := p
    obtain ⟨r1, h1, h2⟩ := ReadBytes_line r d line rest hs
    have hne := splitAfter_line_ne_nil d _ line rest hs
    have hl : 0 < line.length := List.length_pos.2 hne
    rw [h1]
    simp only
    rw [h2, splitAfter_some_eq d _ line rest hs, List.length_append]
    omega

theorem Read_shorter (r : Reader) (n : Nat) :
    (r.Read n).2.2.stream.length ≤ r.stream.length := by
  have := congrArg List.length (Read_spec r n).1
  rw [List.length_append] at this
  omega

theorem ReadByte_shorter (r : Reader) : r.ReadByte.2.2.stream.length ≤ r.stream.length := by
  cases hs : r.stream with
  | nil => rw [(ReadByte_nil r hs).2]
  | cons b t =>
    rw [(ReadByte_cons r b t hs).2]
    simp

theorem readsOn_bind {α β : Type} {m : Go α} {f : α → Go β} (hm : ReadsOn m)
    (hf : ∀ a, ReadsOn (f a)) : ReadsOn (m >>= f) := by
  intro w b w2 h
  rw [Go.bind_run] at h
  cases hr : m w with
  | ok a w1 =>
    rw [hr] at h
    exact Nat.le_trans (hf a w1 b w2 h) (hm w a w1 hr)
  | halt e w1 =>
    rw [hr] at h
    cases h

/-- A first step that reads at least one byte, followed by steps that read on:
the whole reads at least one byte. -/
theorem bind_shorter {α β : Type} {m : Go α} {f : α → Go β}
    (hm : ∀ w a w1, m w = .ok a w1 → w1.reader.stream.length < w.reader.stream.length)
    (hf : ∀ a, ReadsOn (f a)) (w : World) (b : β) (w2 : World) (h : (m >>= f) w = .ok b w2) :
    w2.reader.stream.length < w.reader.stream.length := by
  rw [Go.bind_run] at h
  cases hr : m w with
  | ok a w1 =>
    rw [hr] at h
    exact Nat.lt_of_le_of_lt (hf a w1 b w2 h) (hm w a w1 hr)
  | halt e w1 =>
    rw [hr] at h
    cases h

theorem expect_shorter (rt : Runtime) (e : Bytes) (w : World) (a : Unit) (w1 : World)
    (h : expect rt e w = .ok a w1) : w1.reader.stream.length < w.reader.stream.length := by
  rw [expect_run] at h
  split_ifs at h with c1 c2
  cases h
  exact ReadBytes_shorter _ _ (by simpa using c1)

theorem readsOn_expect (rt : Runtime) (e : Bytes) : ReadsOn (expect rt e) :=
  fun w a w1 h => Nat.le_of_lt (expect_shorter rt e w a w1 h)

theorem readsOn_expectDollarInt : ReadsOn expectDollarInt := by
  intro w a w1 h
  rw [expectDollarInt_run] at h
  split_ifs at h with c1
  have hsh := ReadBytes_shorter w.reader ASCII_LF (by simpa using c1)
  cases hg : (DOLLAR_INT_REGEXP (w.reader.ReadBytes ASCII_LF).1).get? 1 with
  | none =>
    rw [hg] at h
    cases h
  | some g =>
    rw [hg] at h
    simp only at h
    cases ha : Atoi g with
    | none =>
      rw [ha] at h
      cases h
    | some i =>
      rw [ha] at h
      cases h
      exact Nat.le_of_lt hsh

theorem readsOn_payload (n : Nat) : ReadsOn (awaitLpushCommand_payload n) := by
  intro w a w1 h
  rw [payload_run] at h
  split_ifs at h
  cases h
  exact Nat.le_trans (ReadByte_shorter _) (Nat.le_trans (ReadByte_shorter _) (Read_shorter _ _))

/-- A push that `awaitLpushCommand_frame` accepts has been read from the stream:
at least one byte is gone. -/
theorem frame_shorter (rt : Runtime) (w : World) (logJson : Bytes) (w1 : World)
    (h : awaitLpushCommand_frame rt w = .ok logJson w1) :
    w1.reader.stream.length < w.reader.stream.length := by
  rw [awaitLpushCommand_frame_eq] at h
  refine bind_shorter (expect_shorter rt _) (fun _ => ?_) w logJson w1 h
  refine readsOn_bind (readsOn_expect _ _) (fun _ => ?_)
  refine readsOn_bind (readsOn_expect _ _) (fun _ => ?_)
  refine readsOn_bind (readsOn_expect _ _) (fun _ => ?_)
  refine readsOn_bind (readsOn_expect _ _) (fun _ => ?_)
  exact readsOn_bind readsOn_expectDollarInt (fun n => readsOn_payload n)

theorem readsOn_parseLogJson (logJson : Bytes) : ReadsOn (parseLogJson logJson) := by
  intro w a w1 h
  rw [parseLogJson_run] at h
  cases hu : Unmarshal logJson with
  | none =>
    rw [hu] at h
    cases h
  | some kv =>
    rw [hu] at h
    cases h
    exact Nat.le_refl _

theorem insert_reader (rt : Runtime) (keyValues : GoMap) (client : HttpClient)
    (config : Config) (w : World) :
    (insertIntoInfluxDb rt keyValues client config w).world.reader = w.reader := by
  cases hq : insertIntoInfluxDb_query rt keyValues config with
  | error h => rw [insert_halt_of_query_error rt keyValues client config w h hq]; rfl
  | ok query =>
    rw [insert_run_of_query_ok rt keyValues client config w query hq]
    cases client.Post (writeUrl config) (ascii "application/x-www-form-urlencoded") query with
    | none => rfl
    | some s =>
      simp only
      split_ifs <;> rfl

theorem readsOn_insertIntoInfluxDb (rt : Runtime) (keyValues : GoMap) (client : HttpClient)
    (config : Config) : ReadsOn (insertIntoInfluxDb rt keyValues client config) := by
  intro w a w1 h
  have := insert_reader rt keyValues client config w
  rw [h] at this
  simp only [Res.world] at this
  rw [this]

theorem readsOn_connWrite (data : Bytes) : ReadsOn (connWrite data) := by
  intro w a w1 h
  cases h
  exact Nat.le_refl _

/-- Every round of the loop that comes to its end has read at least one byte. -/
theorem awaitLpushCommand_shorter (rt : Runtime) (client : HttpClient) (config : Config)
    (w : World) (a : Unit) (w1 : World) (h : awaitLpushCommand rt client config w = .ok a w1) :
    w1.reader.stream.length < w.reader.stream.length := by
  rw [awaitLpushCommand_eq] at h
  refine bind_shorter (frame_shorter rt) (fun logJson => ?_) w a w1 h
  refine readsOn_bind (readsOn_parseLogJson _) (fun kv => ?_)
  exact readsOn_bind (readsOn_insertIntoInfluxDb _ _ _ _) (fun _ => readsOn_connWrite _)

/-- The loop of `handleConnection` comes to a halt on every input: with more
rounds than the input has bytes, the result is a halt. -/
theorem lpushLoop_halts (rt : Runtime) (client : HttpClient) (config : Config) (fuel : Nat) :
    ∀ w : World, w.reader.stream.length < fuel →
      ∃ h w1, lpushLoop rt client config fuel w = .halt h w1 := by
  induction fuel with
  | zero => intro w hw; omega
  | succ fuel ih =>
    intro w hw
    show ∃ h w1, (awaitLpushCommand rt client config >>= fun _ =>
      lpushLoop rt client config fuel) w = .halt h w1
    cases hr : awaitLpushCommand rt client config w with
    | halt h w1 => exact ⟨h, w1, Go.bind_halt hr⟩
    | ok a w1 =>
      have := awaitLpushCommand_shorter rt client config w a w1 hr
      obtain ⟨h, w2, h2⟩ := ih w1 (by omega)
      exact ⟨h, w2, by rw [Go.bind_ok hr, h2]⟩

/-- More rounds change nothing once the loop has come to a halt. -/
theorem lpushLoop_halt_mono (rt : Runtime) (client : HttpClient) (config : Config)
    (fuel : Nat) : ∀ (w : World) (h : Halt) (w1 : World),
      lpushLoop rt client config fuel w = .halt h w1 →
      ∀ k, lpushLoop rt client config (fuel + k) w = .halt h w1 := by
  induction fuel with
  | zero =>
    intro w h w1 hl
    cases hl
  | succ fuel ih =>
    intro w h w1 hl k
    have e : fuel + 1 + k = (fuel + k) + 1 := by omega
    rw [e]
    change (awaitLpushCommand rt client config >>= fun _ =>
      lpushLoop rt client config fuel) w = .halt h w1 at hl
    show (awaitLpushCommand rt client config >>= fun _ =>
      lpushLoop rt client config (fuel + k)) w = .halt h w1
    cases hr : awaitLpushCommand rt client config w with
    | halt h2 w2 =>
      rw [Go.bind_halt hr] at hl ⊢
      exact hl
    | ok a w2 =>
      rw [Go.bind_ok hr] at hl ⊢
      exact ih w2 h w1 hl k

/-! ## Where a run can stop -/

theorem haltsListed_bind {α β : Type} {m : Go α} {f : α → Go β} (hm : HaltsListed m)
    (hf : ∀ a, HaltsListed (f a)) : HaltsListed (m >>= f) := by
  intro w h w2 hr
  rw [Go.bind_run] at hr
  cases hmw : m w with
  | ok a w1 =>
    rw [hmw] at hr
    exact hf a w1 h w2 hr
  | halt e w1 =>
    rw [hmw] at hr
    have hl := hm w e w1 hmw
    cases hr
    exact hl

theorem haltsListed_expect (rt : Runtime) (e : Bytes) : HaltsListed (expect rt e) := by
  intro w h w1 hr
  rw [expect_run] at hr
  split_ifs at hr <;> cases hr <;> decide

theorem haltsListed_expectDollarInt : HaltsListed expectDollarInt := by
  intro w h w1 hr
  rw [expectDollarInt_run] at hr
  split_ifs at hr
  · cases hr
    decide
  · cases hg : (DOLLAR_INT_REGEXP (w.reader.ReadBytes ASCII_LF).1).get? 1 with
    | none =>
      rw [hg] at hr
      cases hr
      decide
    | some g =>
      rw [hg] at hr
      simp only at hr
      cases ha : Atoi g with
      | none =>
        rw [ha] at hr
        cases hr
        decide
      | some i =>
        rw [ha] at hr
        cases hr

theorem haltsListed_payload (n : Nat) : HaltsListed (awaitLpushCommand_payload n) := by
  intro w h w1 hr
  rw [payload_run] at hr
  split_ifs at hr <;> cases hr <;> decide

theorem haltsListed_frame (rt : Runtime) : HaltsListed (awaitLpushCommand_frame rt) := by
  rw [awaitLpushCommand_frame_eq]
  refine haltsListed_bind (haltsListed_expect _ _) (fun _ => ?_)
  refine haltsListed_bind (haltsListed_expect _ _) (fun _ => ?_)
  refine haltsListed_bind (haltsListed_expect _ _) (fun _ => ?_)
  refine haltsListed_bind (haltsListed_expect _ _) (fun _ => ?_)
  refine haltsListed_bind (haltsListed_expect _ _) (fun _ => ?_)
  exact haltsListed_bind haltsListed_expectDollarInt (fun n => haltsListed_payload n)

theorem haltsListed_parseLogJson (logJson : Bytes) : HaltsListed (parseLogJson logJson) := by
  intro w h w1 hr
  rw [parseLogJson_run] at hr
  cases hu : Unmarshal logJson with
  | none =>
    rw [hu] at hr
    cases hr
    decide
  | some kv =>
    rw [hu] at hr
    cases hr

theorem rangeBody_error_listed (q : Bytes) (f : Bool) (k : Bytes) (v : Value) (h : Halt)
    (hr : rangeBody q f k v = .error h) : h.listed = true := by
  unfold rangeBody at hr
  by_cases hk : k ≠ ascii "time"
  · rw [if_pos hk] at hr
    simp only at hr
    by_cases hre : (!FIELD_KEY_REGEXP k) = true
    · rw [if_pos hre] at hr
      cases hr
      decide
    · rw [if_neg hre] at hr
      cases v with
      | string s =>
        simp only at hr
        split_ifs at hr <;> cases hr <;> decide
      | null => cases hr; decide
      | bool b => cases hr; decide
      | number l => cases hr; decide
      | array r => cases hr; decide
      | object r => cases hr; decide
  · rw [if_neg hk] at hr
    cases hr

theorem rangeLoop_error_listed (entries : List (Bytes × Value)) :
    ∀ (q : Bytes) (f : Bool) (h : Halt), rangeLoop entries q f = .error h → h.listed = true := by
  induction entries with
  | nil =>
    intro q f h hr
    simp only [rangeLoop] at hr
    cases hr
  | cons e rest ih =>
    intro q f h hr
    obtain ⟨k, v⟩ := e
    simp only [rangeLoop] at hr
    cases hb : rangeBody q f k v with
    | error x =>
      rw [hb] at hr
      cases hr
      exact rangeBody_error_listed q f k v _ hb
    | ok r =>
      obtain ⟨q2, f2⟩ := r
      rw [hb] at hr
      exact ih q2 f2 h hr

theorem query_error_listed (rt : Runtime) (keyValues : GoMap) (config : Config) (h : Halt)
    (hr : insertIntoInfluxDb_query rt keyValues config = .error h) : h.listed = true := by
  unfold insertIntoInfluxDb_query at hr
  cases hl : rangeLoop (rt.rangeOrder keyValues) config.InfluxdbMeasurement true with
  | error x =>
    rw [hl] at hr
    cases hr
    exact rangeLoop_error_listed _ _ _ _ hl
  | ok r =>
    obtain ⟨q, f⟩ := r
    rw [hl] at hr
    simp only at hr
    split at hr
    · split_ifs at hr
      cases hr
      decide
    · cases hr
      decide

theorem haltsListed_insertIntoInfluxDb (rt : Runtime) (keyValues : GoMap)
    (client : HttpClient) (config : Config) :
    HaltsListed (insertIntoInfluxDb rt keyValues client config) := by
  intro w h w1 hr
  cases hq : insertIntoInfluxDb_query rt keyValues config with
  | error x =>
    rw [insert_halt_of_query_error rt keyValues client config w x hq] at hr
    cases hr
    exact query_error_listed rt keyValues config _ hq
  | ok query =>
    rw [insert_run_of_query_ok rt keyValues client config w query hq] at hr
    cases hc : client.Post (writeUrl config) (ascii "application/x-www-form-urlencoded")
        query with
    | none =>
      rw [hc] at hr
      cases hr
      decide
    | some s =>
      rw [hc] at hr
      simp only at hr
      split_ifs at hr
      cases hr
      decide

theorem haltsListed_connWrite (data : Bytes) : HaltsListed (connWrite data) := by
  intro w h w1 hr
  cases hr

theorem haltsListed_awaitAuthCommand (rt : Runtime) (p : Bytes) :
    HaltsListed (awaitAuthCommand rt p) := by
  rw [awaitAuthCommand_eq]
  refine haltsListed_bind (haltsListed_expect _ _) (fun _ => ?_)
  refine haltsListed_bind (haltsListed_expect _ _) (fun _ => ?_)
  refine haltsListed_bind (haltsListed_expect _ _) (fun _ => ?_)
  refine haltsListed_bind (haltsListed_expect _ _) (fun _ => ?_)
  exact haltsListed_bind (haltsListed_expect _ _) (fun _ => haltsListed_connWrite _)

theorem haltsListed_awaitLpushCommand (rt : Runtime) (client : HttpClient) (config : Config) :
    HaltsListed (awaitLpushCommand rt client config) := by
  rw [awaitLpushCommand_eq]
  refine haltsListed_bind (haltsListed_frame _) (fun _ => ?_)
  refine haltsListed_bind (haltsListed_parseLogJson _) (fun _ => ?_)
  exact haltsListed_bind (haltsListed_insertIntoInfluxDb _ _ _ _)
    (fun _ => haltsListed_connWrite _)

theorem haltsListed_lpushLoop (rt : Runtime) (client : HttpClient) (config : Config)
    (fuel : Nat) : HaltsListed (lpushLoop rt client config fuel) := by
  induction fuel with
  | zero =>
    intro w h w1 hr
    cases hr
  | succ fuel ih =>
    exact haltsListed_bind (haltsListed_awaitLpushCommand rt client config) (fun _ => ih)

/-! ## The events of a connection -/

theorem pushTrace_bind {α β : Type} {m : Go α} {f : α → Go β} (hm : PushTrace m)
    (hf : ∀ a, PushTrace (f a)) : PushTrace (m >>= f) := by
  intro w
  obtain ⟨evs1, h1, p1⟩ := hm w
  rw [Go.bind_run]
  cases hr : m w with
  | ok a w1 =>
    rw [hr] at h1
    simp only [Res.world] at h1
    obtain ⟨evs2, h2, p2⟩ := hf a w1
    refine ⟨evs1 ++ evs2, ?_, ?_⟩
    · simp only
      rw [h2, h1, List.append_assoc]
    · intro e he
      rcases List.mem_append.1 he with h | h
      · exact p1 e h
      · exact p2 e h
  | halt h w1 =>
    rw [hr] at h1
    exact ⟨evs1, h1, p1⟩

theorem pushTrace_of_stable {α : Type} {m : Go α} (hm : TraceStable m) : PushTrace m :=
  fun w => ⟨[], by rw [hm w, List.append_nil], by simp⟩

theorem pushTrace_parseLogJson (logJson : Bytes) : PushTrace (parseLogJson logJson) := by
  intro w
  refine ⟨[.parsed logJson], ?_, ?_⟩
  · rw [parseLogJson_run]
    cases Unmarshal logJson <;> rfl
  · intro e he
    rw [List.mem_singleton] at he
    exact Or.inl ⟨logJson, he⟩

theorem pushTrace_insertIntoInfluxDb (rt : Runtime) (keyValues : GoMap)
    (client : HttpClient) (config : Config) :
    PushTrace (insertIntoInfluxDb rt keyValues client config) := by
  intro w
  cases hq : insertIntoInfluxDb_query rt keyValues config with
  | error h =>
    rw [insert_halt_of_query_error rt keyValues client config w h hq]
    exact ⟨[], by simp [Res.world], by simp⟩
  | ok query =>
    refine ⟨[.posted (writeUrl config) (ascii "application/x-www-form-urlencoded") query],
      ?_, ?_⟩
    · rw [insert_trace_of_query_ok rt keyValues client config w query hq]
    · intro e he
      rw [List.mem_singleton] at he
      exact Or.inr (Or.inl ⟨_, _, _, he⟩)

theorem pushTrace_reply : PushTrace (connWrite (ascii ":1\r\n")) := by
  intro w
  refine ⟨[.wrote (ascii ":1\r\n")], rfl, ?_⟩
  intro e he
  rw [List.mem_singleton] at he
  exact Or.inr (Or.inr he)

theorem pushTrace_awaitLpushCommand (rt : Runtime) (client : HttpClient) (config : Config) :
    PushTrace (awaitLpushCommand rt client config) := by
  rw [awaitLpushCommand_eq]
  refine pushTrace_bind (pushTrace_of_stable (TraceStable.frame rt)) (fun _ => ?_)
  refine pushTrace_bind (pushTrace_parseLogJson _) (fun _ => ?_)
  exact pushTrace_bind (pushTrace_insertIntoInfluxDb _ _ _ _) (fun _ => pushTrace_reply)

theorem pushTrace_lpushLoop (rt : Runtime) (client : HttpClient) (config : Config)
    (fuel : Nat) : PushTrace (lpushLoop rt client config fuel) := by
  induction fuel with
  | zero => exact pushTrace_of_stable (TraceStable.pure ())
  | succ fuel ih =>
    exact pushTrace_bind (pushTrace_awaitLpushCommand rt client config) (fun _ => ih)

/-- Steps that record nothing, followed by steps that end with the one reply
`+OK` CR LF or stop short without an event: so does the whole. -/
theorem stable_bind_reply {α : Type} {m : Go α} {f : α → Go Unit} (hm : TraceStable m)
    (hf : ∀ a w, (∃ h w1, f a w = .halt h w1 ∧ w1.trace = w.trace)
      ∨ (∃ w1, f a w = .ok () w1 ∧ w1.trace = w.trace ++ [.wrote (ascii "+OK\r\n")])) :
    ∀ w, (∃ h w1, (m >>= f) w = .halt h w1 ∧ w1.trace = w.trace)
      ∨ (∃ w1, (m >>= f) w = .ok () w1 ∧ w1.trace = w.trace ++ [.wrote (ascii "+OK\r\n")]) := by
  intro w
  have h1 := hm w
  cases hr : m w with
  | ok a w1 =>
    rw [hr] at h1
    simp only [Res.world] at h1
    rw [Go.bind_ok hr]
    rcases hf a w1 with ⟨h, w2, e, t⟩ | ⟨w2, e, t⟩
    · exact Or.inl ⟨h, w2, e, by rw [t, h1]⟩
    · exact Or.inr ⟨w2, e, by rw [t, h1]⟩
  | halt h w1 =>
    rw [hr] at h1
    simp only [Res.world] at h1
    exact Or.inl ⟨h, w1, Go.bind_halt hr, h1⟩

/-- The run of `awaitAuthCommand` either stops short with no event or ends with
the one reply `+OK` CR LF. -/
theorem auth_trace (rt : Runtime) (p : Bytes) (w : World) :
    (∃ h w1, awaitAuthCommand rt p w = .halt h w1 ∧ w1.trace = w.trace)
      ∨ (∃ w1, awaitAuthCommand rt p w = .ok () w1
          ∧ w1.trace = w.trace ++ [.wrote (ascii "+OK\r\n")]) := by
  rw [awaitAuthCommand_eq]
  refine stable_bind_reply (TraceStable.expect _ _) (fun _ => ?_) w
  refine stable_bind_reply (TraceStable.expect _ _) (fun _ => ?_)
  refine stable_bind_reply (TraceStable.expect _ _) (fun _ => ?_)
  refine stable_bind_reply (TraceStable.expect _ _) (fun _ => ?_)
  refine stable_bind_reply (TraceStable.expect _ _) (fun _ => ?_)
  intro w0
  exact Or.inr ⟨_, rfl, rfl⟩

theorem readsOn_awaitAuthCommand (rt : Runtime) (p : Bytes) : ReadsOn (awaitAuthCommand rt p) := by
  rw [awaitAuthCommand_eq]
  refine readsOn_bind (readsOn_expect _ _) (fun _ => ?_)
  refine readsOn_bind (readsOn_expect _ _) (fun _ => ?_)
  refine readsOn_bind (readsOn_expect _ _) (fun _ => ?_)
  refine readsOn_bind (readsOn_expect _ _) (fun _ => ?_)
  exact readsOn_bind (readsOn_expect _ _) (fun _ => readsOn_connWrite _)

theorem pushEvent_ne_ok (e : Event) (h : PushEvent e) : e ≠ .wrote (ascii "+OK\r\n") := by
  rcases h with ⟨p, rfl⟩ | ⟨u, c, b, rfl⟩ | rfl
  · intro h; cases h
  · intro h; cases h
  · decide

/-- The run of `handleConnection` as a halt of its body: with more rounds than
the input has bytes the body stops short, at a listed place, and more rounds
give the same halt. -/
theorem handle_body_halts (rt : Runtime) (conn : World) (config : Config)
    (client : HttpClient) (fuel : Nat) (hfuel : conn.reader.stream.length < fuel) :
    ∃ h w1, h.listed = true ∧ ∀ k, (awaitAuthCommand rt config.ExpectedPassword >>= fun _ =>
      lpushLoop rt client config (fuel + k)) conn = .halt h w1 := by
  cases ha : awaitAuthCommand rt config.ExpectedPassword conn with
  | halt h w1 =>
    refine ⟨h, w1, haltsListed_awaitAuthCommand _ _ conn h w1 ha, fun k => ?_⟩
    rw [Go.bind_halt ha]
  | ok a w1 =>
    have hle := readsOn_awaitAuthCommand rt config.ExpectedPassword conn a w1 ha
    obtain ⟨h, w2, h2⟩ := lpushLoop_halts rt client config fuel w1 (by omega)
    refine ⟨h, w2, haltsListed_lpushLoop rt client config fuel w1 h w2 h2, fun k => ?_⟩
    rw [Go.bind_ok ha]
    exact lpushLoop_halt_mono rt client config fuel w1 h w2 h2 k

/-! ## The connection handler -/

theorem handle_world (rt : Runtime) (conn : World) (config : Config) (client : HttpClient)
    (fuel : Nat) :
    (handleConnection rt conn config client fuel).2
      = ((awaitAuthCommand rt config.ExpectedPassword >>= fun _ =>
          lpushLoop rt client config fuel) conn).world := by
  unfold handleConnection
  cases (awaitAuthCommand rt config.ExpectedPassword >>= fun _ =>
      lpushLoop rt client config fuel) conn with
  | ok a w => rfl
  | halt h w => cases h <;> rfl

theorem handle_of_halt (rt : Runtime) (conn : World) (config : Config) (client : HttpClient)
    (fuel : Nat) (h : Halt) (w1 : World)
    (hb : (awaitAuthCommand rt config.ExpectedPassword >>= fun _ =>
      lpushLoop rt client config fuel) conn = .halt h w1) :
    handleConnection rt conn config client fuel = (h.ending, w1) := by
  unfold handleConnection
  rw [hb]
  cases h <;> rfl

/-- C14, as stated, fails: a wrong password, a payload that is not JSON and an
upstream status 500 each end the whole process through `log.Fatalf` (lines 205,
97 and 168): `handleConnection` does not return, and its deferred function does
not close the connection. -/
theorem C14_counterexample_process_exit :
    handleConnection Runtime.inOrder (World.start [authFrame (ascii "secreX")]) scenarioConfig
        okClient 1 = (.exited 205, ⟨⟨[], []⟩, []⟩)
      ∧ handleConnection Runtime.inOrder
          (World.start [authFrame (ascii "secret"), pushFrame 3 (ascii "abc")]) scenarioConfig
          okClient 1
        = (.exited 97, ⟨⟨[], []⟩, [.wrote (ascii "+OK\r\n"), .parsed (ascii "abc")]⟩)
      ∧ handleConnection Runtime.inOrder
          (World.start [authFrame (ascii "secret"),
            pushFrame 12 (ascii "\x7b\"time\":\"1\"\x7d")]) scenarioConfig (statusClient 500) 1
        = (.exited 168, ⟨⟨[], []⟩, [.wrote (ascii "+OK\r\n"),
            .parsed (ascii "\x7b\"time\":\"1\"\x7d"),
            .posted (ascii "http://localhost:8086/write?db=belugacdn&precision=s")
              (ascii "application/x-www-form-urlencoded") (ascii "measurement 1")]⟩)
      ∧ (Ending.exited 205).processEnded = true ∧ (Ending.exited 205).closedByHandler = false
      ∧ Ending.exited 205 ≠ Ending.returned := by
  decide

/-- C14, amended: there is no isolation of errors. On every input, from a peer
that closes the connection after its last byte, `handleConnection` ends with the
end of the whole process and never by closing the connection and returning.
Every failure that it reports, through `log.Fatal` or `log.Fatalf` at one of the
lines of `fatalLines`, is a call of `os.Exit(1)`, before which the deferred
function does not run; the only other way in which a run stops is a panic at
line 64, 150 or 215. Once the loop is given more rounds than the input has
bytes, further rounds change nothing. (A peer that stays silent without closing
blocks the read for ever, no deadline being set: lines 186-189 are comments.) -/
theorem C14_failure_ends_process (rt : Runtime) (conn : World) (config : Config)
    (client : HttpClient) (fuel : Nat) (hfuel : conn.reader.stream.length < fuel) :
    (∃ line, ((handleConnection rt conn config client fuel).1 = .exited line
          ∧ line ∈ fatalLines)
        ∨ ((handleConnection rt conn config client fuel).1 = .crashed line
          ∧ line ∈ panicLines))
      ∧ (handleConnection rt conn config client fuel).1.processEnded = true
      ∧ (handleConnection rt conn config client fuel).1 ≠ .returned
      ∧ ((handleConnection rt conn config client fuel).1.closedByHandler = true →
          ∃ line, (handleConnection rt conn config client fuel).1 = .crashed line)
      ∧ ∀ k, handleConnection rt conn config client (fuel + k)
          = handleConnection rt conn config client fuel := by
  obtain ⟨h, w1, hl, hk⟩ := handle_body_halts rt conn config client fuel hfuel
  have h0 := handle_of_halt rt conn config client fuel h w1 (hk 0)
  have hstable : ∀ k, handleConnection rt conn config client (fuel + k)
      = handleConnection rt conn config client fuel := by
    intro k
    rw [handle_of_halt rt conn config client (fuel + k) h w1 (hk k), h0]
  cases h with
  | fatal line =>
    simp only [Halt.ending] at h0
    rw [h0]
    have hm : line ∈ fatalLines := by
      simpa [Halt.listed] using hl
    refine ⟨⟨line, Or.inl ⟨rfl, hm⟩⟩, rfl, by simp, ?_, ?_⟩
    · intro hc
      cases hc
    · intro k
      rw [hstable k, h0]
  | panic line =>
    simp only [Halt.ending] at h0
    rw [h0]
    have hm : line ∈ panicLines := by
      simpa [Halt.listed] using hl
    refine ⟨⟨line, Or.inr ⟨rfl, hm⟩⟩, rfl, by simp, ?_, ?_⟩
    · intro _
      exact ⟨line, rfl⟩
    · intro k
      rw [hstable k, h0]

theorem C14_failure_ends_process_witness :
    (World.start [authFrame (ascii "secreX")]).reader.stream.length < 40
      ∧ (handleConnection Runtime.inOrder (World.start [authFrame (ascii "secreX")])
          scenarioConfig okClient 40).1.processEnded = true :=
  ⟨by decide,
    (C14_failure_ends_process Runtime.inOrder (World.start [authFrame (ascii "secreX")])
      scenarioConfig okClient 40 (by decide)).2.1⟩

/-- C15: authentication comes first and happens once. On every input, either
`handleConnection` records no event at all, or its first event is the reply
`+OK` CR LF, and every later event is the hand-over of a payload to the parser,
a POST or a reply `:1` CR LF, none of which is `+OK` CR LF. After the
authentication the loop accepts push frames only: a second authenticate frame
ends the run at its first line. -/
theorem C15_auth_first_and_once (rt : Runtime) (conn : World) (config : Config)
    (client : HttpClient) (fuel : Nat) :
    ((handleConnection rt conn config client fuel).2.trace = conn.trace
        ∨ ∃ evs, (handleConnection rt conn config client fuel).2.trace
            = conn.trace ++ .wrote (ascii "+OK\r\n") :: evs
          ∧ ∀ e ∈ evs, PushEvent e ∧ e ≠ .wrote (ascii "+OK\r\n"))
      ∧ ∀ (w : World) (q rest : Bytes), w.reader.stream = authFrame q ++ rest →
          ∃ r1, lpushLoop rt client config (fuel + 1) w = .halt (.fatal 205) ⟨r1, w.trace⟩ := by
  constructor
  · rw [handle_world]
    rcases auth_trace rt config.ExpectedPassword conn with ⟨h, w1, e, t⟩ | ⟨w1, e, t⟩
    · left
      rw [Go.bind_halt e]
      exact t
    · right
      rw [Go.bind_ok e]
      obtain ⟨evs, h1, h2⟩ := pushTrace_lpushLoop rt client config fuel w1
      refine ⟨evs, ?_, fun x hx => ⟨h2 x hx, pushEvent_ne_ok x (h2 x hx)⟩⟩
      rw [h1, t]
      simp
  · intro w q rest hs
    have hs1 : w.reader.stream = ascii "*2" ++ CRLF
        ++ (ascii "$4\r\nAUTH\r\n" ++ (ascii "$" ++ itoa q.length ++ CRLF ++ (q ++ CRLF))
          ++ rest) := by
      rw [hs]
      simp [authFrame, List.append_assoc]
      rfl
    have hne : ToUpper rt.mapToUpper (TrimSpace (ascii "*2"))
        ≠ ToUpper rt.mapToUpper (ascii "*3") := by
      rw [show TrimSpace (ascii "*2") = ascii "*2" by decide,
        ToUpper_ascii _ _ (by decide), ToUpper_ascii _ _ (by decide)]
      decide
    obtain ⟨r1, e1⟩ := expect_token_mismatch rt (ascii "*3") (ascii "*2") _ w hs1
      (by decide) hne
    refine ⟨r1, ?_⟩
    show (awaitLpushCommand rt client config >>= fun _ =>
      lpushLoop rt client config fuel) w = _
    rw [awaitLpushCommand_eq, awaitLpushCommand_frame_eq]
    exact Go.bind_halt (Go.bind_halt (Go.bind_halt e1))

theorem C15_auth_first_and_once_witness :
    (World.start [authFrame (ascii "secret")]).reader.stream
        = authFrame (ascii "secret") ++ []
      ∧ ∃ r1, lpushLoop Runtime.inOrder okClient scenarioConfig (0 + 1)
          (World.start [authFrame (ascii "secret")])
        = .halt (.fatal 205) ⟨r1, (World.start [authFrame (ascii "secret")]).trace⟩ :=
  ⟨by decide,
    (C15_auth_first_and_once Runtime.inOrder (World.start []) scenarioConfig okClient 0).2
      (World.start [authFrame (ascii "secret")]) (ascii "secret") [] (by decide)⟩

end FakeRedis
